import Mathlib

/-!
Verification of the gitlab-events watcher (`main.go`) against its
natural-language specification.

The Go program polls the GitLab events API for a set of projects,
deduplicates events it has already seen via a content fingerprint, and
renders new or modified events.  This file gives a shallow embedding of
the program's data model and operations and proves the specification
claims about them.

Conventions of the embedding:
* Go byte strings (`[]byte`, and `string` where byte-level behaviour
  matters) are modelled as `List Nat`, one entry per byte.
* Go `int64` values are modelled as `Int`; range checks are explicit
  where the code performs them (`strconv.ParseInt`).
* The Go map `_EventChecksumsByID : map[int64][]byte` is modelled as an
  association list with lookup-first / replace-on-insert semantics.
* Fallible operations return `Option` / a product with an error component.
-/

namespace GitlabEvents

/-! ## Byte-level helpers -/

/-- UTF-8 encoding of a single character (code point), as bytes. -/
def charUTF8 (c : Char) : List Nat :=
  let n := c.toNat
  if n < 0x80 then [n]
  else if n < 0x800 then [0xC0 + n / 0x40, 0x80 + n % 0x40]
  else if n < 0x10000 then
    [0xE0 + n / 0x1000, 0x80 + (n / 0x40) % 0x40, 0x80 + n % 0x40]
  else
    [0xF0 + n / 0x40000, 0x80 + (n / 0x1000) % 0x40,
     0x80 + (n / 0x40) % 0x40, 0x80 + n % 0x40]

/-- UTF-8 byte sequence of a string. -/
def strBytes (s : String) : List Nat :=
  s.data.flatMap charUTF8

/-- The SHA-1 digest of the empty message
(`da39a3ee5e6b4b0d3255bfef95601890afd80709`). -/
def sha1EmptyDigest : List Nat :=
  [0xda, 0x39, 0xa3, 0xee, 0x5e, 0x6b, 0x4b, 0x0d, 0x32, 0x55,
   0xbf, 0xef, 0x95, 0x60, 0x18, 0x90, 0xaf, 0xd8, 0x07, 0x09]

/-- `_Hasher.Sum(b)` for the global `_Hasher = sha1.New()`.
In Go, `hash.Hash.Sum(b)` appends the digest of the hasher's current
state to `b` and returns the result.  The program never calls `Write`
on `_Hasher`, so its state is permanently the initial (empty-message)
state and `_Hasher.Sum(b) = b ++ SHA1("")`. -/
def hasherSum (b : List Nat) : List Nat :=
  b ++ sha1EmptyDigest

theorem hasherSum_inj {a b : List Nat} (h : hasherSum a = hasherSum b) : a = b := by
  simpa [hasherSum] using h

/-! ## Data model (`Project`, `Note`, `Push`, `Event`) -/

/-- `type Project struct` from main.go. -/
structure Project where
  id : Int
  pathWithNamespace : String
  name : String
deriving DecidableEq, Repr, Inhabited

/-- `type Note struct` from main.go. -/
structure Note where
  type : String
  body : String
  resolved : Bool
deriving DecidableEq, Repr, Inhabited

/-- `type Push struct` from main.go. -/
structure Push where
  action : String
  refType : String
  ref : String
  commitTitle : String
deriving DecidableEq, Repr, Inhabited

/-- `type Event struct` from main.go.  The Go fields `Note *Note`,
`Push *Push`, `Project *Project` are nilable pointers, modelled as
`Option`; `JSON []byte` is a nilable byte slice, modelled as
`Option (List Nat)` (`none` = nil slice). -/
structure Event where
  id : Int
  createdAt : String
  authorUsername : String
  action : String
  targetTitle : String
  note : Option Note
  push : Option Push
  project : Option Project
  json : Option (List Nat)
deriving DecidableEq, Repr, Inhabited

/-- The byte slice `event.JSON` as handed to `_Hasher.Sum` (a nil slice
behaves as the empty byte sequence). -/
def Event.jsonBytes (e : Event) : List Nat :=
  e.json.getD []

/-! ## The shared mutable state

The globals `_EventChecksumsByID` (the Seen-set) and
`_NewOrModifiedEvents` (the pending queue), both protected by
`_EventsMutex`. -/

/-- Lookup in the association-list model of the Go map
`_EventChecksumsByID`. -/
def mapLookup : List (Int × List Nat) → Int → Option (List Nat)
  | [], _ => none
  | (k, v) :: rest, key => if k = key then some v else mapLookup rest key

/-- Insert/overwrite in the association-list model of the Go map. -/
def mapInsert : List (Int × List Nat) → Int → List Nat → List (Int × List Nat)
  | [], key, val => [(key, val)]
  | (k, v) :: rest, key, val =>
    if k = key then (key, val) :: rest else (k, v) :: mapInsert rest key val

/-- The state guarded by `_EventsMutex`: the Seen-set
`_EventChecksumsByID` and the pending queue `_NewOrModifiedEvents`. -/
structure GlobalState where
  eventChecksumsByID : List (Int × List Nat)
  newOrModifiedEvents : List Event
deriving DecidableEq, Repr

/-- The initial state: `make(map[int64][]byte)` and a nil slice. -/
def initialState : GlobalState := ⟨[], []⟩

/-- Classification of one record by the change detector in `addEvents`:
not found in the Seen-set → new; found with a different checksum →
updated; found with the same checksum → unchanged. -/
inductive Classification where
  | isNew
  | isUpdated
  | isUnchanged
deriving DecidableEq, Repr

/-- The classification the loop body of `addEvents` gives to `event`
in state `st` (which branch of the code runs). -/
def classifyEvent (st : GlobalState) (e : Event) : Classification :=
  let hash := hasherSum e.jsonBytes
  match mapLookup st.eventChecksumsByID e.id with
  | none => .isNew
  | some existingHash => if hash = existingHash then .isUnchanged else .isUpdated

/-- One iteration of the loop body of `addEvents` (main.go lines
102-118): compute `hash := _Hasher.Sum(event.JSON)`, look the event id
up in `_EventChecksumsByID`; if absent, append the event to
`_NewOrModifiedEvents` and record the hash; if present with a different
hash (`!bytes.Equal`), append and overwrite; otherwise do nothing. -/
def addEvent (st : GlobalState) (e : Event) : GlobalState :=
  let hash := hasherSum e.jsonBytes
  match mapLookup st.eventChecksumsByID e.id with
  | none =>
    { eventChecksumsByID := mapInsert st.eventChecksumsByID e.id hash
      newOrModifiedEvents := st.newOrModifiedEvents ++ [e] }
  | some existingHash =>
    if hash = existingHash then st
    else
      { eventChecksumsByID := mapInsert st.eventChecksumsByID e.id hash
        newOrModifiedEvents := st.newOrModifiedEvents ++ [e] }

/-- `addEvents` (main.go lines 97-119): process a batch of events in
order under the mutex. -/
def addEvents (st : GlobalState) (events : List Event) : GlobalState :=
  events.foldl addEvent st

/-! ### Basic lemmas about the Seen-set and `addEvent` -/

theorem mapLookup_mapInsert_self (m : List (Int × List Nat)) (k : Int) (v : List Nat) :
    mapLookup (mapInsert m k v) k = some v := by
  induction m with
  | nil => simp [mapInsert, mapLookup]
  | cons hd tl ih =>
    obtain ⟨k', v'⟩ := hd
    by_cases h : k' = k
    · simp [mapInsert, h, mapLookup]
    · simp [mapInsert, h, mapLookup, ih]

theorem mapLookup_mapInsert_ne (m : List (Int × List Nat)) (k k' : Int) (v : List Nat)
    (h : k' ≠ k) : mapLookup (mapInsert m k v) k' = mapLookup m k' := by
  induction m with
  | nil => simp [mapInsert, mapLookup, Ne.symm h]
  | cons hd tl ih =>
    obtain ⟨k0, v0⟩ := hd
    by_cases h0 : k0 = k
    · subst h0
      simp [mapInsert, mapLookup, Ne.symm h]
    · simp only [mapInsert, if_neg h0, mapLookup]
      by_cases h1 : k0 = k'
      · simp [h1]
      · simp [h1, ih]

/-- After processing `e`, the Seen-set maps `e.id` to the hash of
`e`'s JSON bytes, in all three branches. -/
theorem addEvent_lookup_self (st : GlobalState) (e : Event) :
    mapLookup (addEvent st e).eventChecksumsByID e.id = some (hasherSum e.jsonBytes) := by
  unfold addEvent
  cases h : mapLookup st.eventChecksumsByID e.id with
  | none => simp [mapLookup_mapInsert_self]
  | some existing =>
    by_cases he : hasherSum e.jsonBytes = existing
    · simp [he, h]
    · simp [he, mapLookup_mapInsert_self]

/-- Processing a record already present with a matching fingerprint
leaves the state untouched. -/
theorem addEvent_unchanged (st : GlobalState) (e : Event)
    (h : mapLookup st.eventChecksumsByID e.id = some (hasherSum e.jsonBytes)) :
    addEvent st e = st := by
  unfold addEvent
  simp [h]

/-- Re-processing a byte-identical record (same id, same JSON bytes)
right after it has been processed changes nothing. -/
theorem addEvent_idem (st : GlobalState) (e e' : Event)
    (hid : e'.id = e.id) (hjson : e'.json = e.json) :
    addEvent (addEvent st e) e' = addEvent st e := by
  apply addEvent_unchanged
  rw [hid]
  rw [show e'.jsonBytes = e.jsonBytes from by simp [Event.jsonBytes, hjson]]
  exact addEvent_lookup_self st e

/-- If the id is absent from the Seen-set, the branch taken is `new`. -/
theorem classifyEvent_new (st : GlobalState) (e : Event)
    (h : mapLookup st.eventChecksumsByID e.id = none) :
    classifyEvent st e = .isNew := by
  unfold classifyEvent
  simp [h]

/-- If the id is present with the matching hash, the branch taken is
`unchanged`. -/
theorem classifyEvent_unchanged (st : GlobalState) (e : Event)
    (h : mapLookup st.eventChecksumsByID e.id = some (hasherSum e.jsonBytes)) :
    classifyEvent st e = .isUnchanged := by
  unfold classifyEvent
  simp [h]

/-- A record with an unseen id is appended to the pending queue. -/
theorem addEvent_pending_new (st : GlobalState) (e : Event)
    (h : mapLookup st.eventChecksumsByID e.id = none) :
    (addEvent st e).newOrModifiedEvents = st.newOrModifiedEvents ++ [e] := by
  unfold addEvent
  simp [h]

/-- A record whose stored hash differs is appended and its Seen-set
entry is overwritten. -/
theorem addEvent_updated (st : GlobalState) (e : Event) (oldHash : List Nat)
    (hfound : mapLookup st.eventChecksumsByID e.id = some oldHash)
    (hdiff : hasherSum e.jsonBytes ≠ oldHash) :
    addEvent st e =
      { eventChecksumsByID := mapInsert st.eventChecksumsByID e.id (hasherSum e.jsonBytes)
        newOrModifiedEvents := st.newOrModifiedEvents ++ [e] } := by
  unfold addEvent
  simp [hfound, hdiff]

/-! ## Claim C1 -/

/-- Concrete sample data used by the witnesses. -/
def sampleProjectA : Project := ⟨7, "group/alpha", "alpha"⟩

/-- A second concrete sample project. -/
def sampleProjectB : Project := ⟨8, "group/beta", "beta"⟩

/-- A concrete sample event as fetched for `sampleProjectA`. -/
def sampleEventA : Event :=
  { id := 101, createdAt := "2021-03-01T10:00:00Z", authorUsername := "alice"
    action := "opened", targetTitle := "Fix bug", note := none, push := none
    project := some sampleProjectA, json := some (strBytes "payload-abc") }

/-- C1: in each batch processed by `addEvents`, a record whose id is not
in the Seen-set is classified new, its fingerprint is inserted, and the
record is appended to the pending queue; a record whose id is present
with a matching fingerprint is classified unchanged, is not appended,
and the state (in particular its Seen-set entry) is not mutated;
re-processing a byte-identical record a second time appends nothing.
The last conjunct records that `addEvents` is exactly the per-record
step folded over the batch. -/
theorem c1_addEvents_new_and_unchanged (st : GlobalState) (e e' : Event) :
    (mapLookup st.eventChecksumsByID e.id = none →
      classifyEvent st e = .isNew ∧
      (addEvent st e).newOrModifiedEvents = st.newOrModifiedEvents ++ [e] ∧
      mapLookup (addEvent st e).eventChecksumsByID e.id = some (hasherSum e.jsonBytes))
    ∧
    (mapLookup st.eventChecksumsByID e.id = some (hasherSum e.jsonBytes) →
      classifyEvent st e = .isUnchanged ∧
      (addEvent st e).newOrModifiedEvents = st.newOrModifiedEvents ∧
      addEvent st e = st)
    ∧
    (e'.id = e.id → e'.json = e.json →
      addEvent (addEvent st e) e' = addEvent st e)
    ∧
    (∀ rest, addEvents st (e :: rest) = addEvents (addEvent st e) rest) := by
  refine ⟨fun h => ⟨classifyEvent_new st e h, addEvent_pending_new st e h,
      addEvent_lookup_self st e⟩,
    fun h => ⟨classifyEvent_unchanged st e h, ?_, addEvent_unchanged st e h⟩,
    fun hid hjson => addEvent_idem st e e' hid hjson,
    fun rest => rfl⟩
  rw [addEvent_unchanged st e h]

/-- Witness for C1: starting from the initial state, the concrete event
`sampleEventA` is new and gets appended; feeding the byte-identical
event again is classified unchanged and appends nothing. -/
theorem c1_witness :
    classifyEvent initialState sampleEventA = .isNew ∧
    (addEvent initialState sampleEventA).newOrModifiedEvents = [sampleEventA] ∧
    addEvent (addEvent initialState sampleEventA) sampleEventA =
      addEvent initialState sampleEventA ∧
    classifyEvent (addEvent initialState sampleEventA) sampleEventA = .isUnchanged := by
  have t := c1_addEvents_new_and_unchanged initialState sampleEventA sampleEventA
  have t2 := c1_addEvents_new_and_unchanged (addEvent initialState sampleEventA)
    sampleEventA sampleEventA
  refine ⟨(t.1 rfl).1, ?_, t.2.2.1 rfl rfl, (t2.2.1 (addEvent_lookup_self _ _)).1⟩
  have := (t.1 rfl).2.1
  simpa [initialState] using this

/-! ## Claim C2 -/

/-- C2: a record whose id is present in the Seen-set with a fingerprint
differing from the fingerprint of the newly fetched content is
classified updated, its Seen-set entry is overwritten with the new
fingerprint, and the record is appended to the pending queue exactly
once. -/
theorem c2_addEvents_updated (st : GlobalState) (e : Event) (oldHash : List Nat)
    (hfound : mapLookup st.eventChecksumsByID e.id = some oldHash)
    (hdiff : hasherSum e.jsonBytes ≠ oldHash) :
    classifyEvent st e = .isUpdated ∧
    (addEvent st e).newOrModifiedEvents = st.newOrModifiedEvents ++ [e] ∧
    mapLookup (addEvent st e).eventChecksumsByID e.id = some (hasherSum e.jsonBytes) ∧
    (addEvent st e).newOrModifiedEvents.count e = st.newOrModifiedEvents.count e + 1 := by
  have hbody := addEvent_updated st e oldHash hfound hdiff
  refine ⟨?_, ?_, addEvent_lookup_self st e, ?_⟩
  · unfold classifyEvent
    simp [hfound, hdiff]
  · rw [hbody]
  · rw [hbody]
    simp

/-- Modified copy of `sampleEventA`: same id, different serialized
content (as after an edit upstream). -/
def sampleEventA2 : Event :=
  { sampleEventA with targetTitle := "Fix bug v2", json := some (strBytes "payload-xyz") }

/-- Witness for C2: after `sampleEventA` is recorded, the modified
`sampleEventA2` (same id, different bytes) is classified updated and
appended exactly once. -/
theorem c2_witness :
    classifyEvent (addEvent initialState sampleEventA) sampleEventA2 = .isUpdated ∧
    (addEvent (addEvent initialState sampleEventA) sampleEventA2).newOrModifiedEvents =
      [sampleEventA, sampleEventA2] ∧
    mapLookup (addEvent (addEvent initialState sampleEventA) sampleEventA2).eventChecksumsByID
      sampleEventA2.id = some (hasherSum sampleEventA2.jsonBytes) := by
  have t := c2_addEvents_updated (addEvent initialState sampleEventA) sampleEventA2
    (hasherSum sampleEventA.jsonBytes) (by decide) (by decide)
  refine ⟨t.1, ?_, t.2.2.1⟩
  have := t.2.1
  rw [this]
  decide

/-! ## Claim C9 -/

/-- C9: the Seen-set is keyed by event id alone and shared globally
across all watched projects.  For two records with the same id and the
same JSON bytes fetched from different projects, the second one is
compared against the first one's fingerprint, classified unchanged, and
never appended to the pending queue. -/
theorem c9_seen_set_shared_across_projects (st : GlobalState) (e1 e2 : Event)
    (hid : e2.id = e1.id) (hjson : e2.json = e1.json)
    (hproj : e2.project ≠ e1.project)
    (hfresh : mapLookup st.eventChecksumsByID e1.id = none) :
    classifyEvent (addEvent st e1) e2 = .isUnchanged ∧
    addEvent (addEvent st e1) e2 = addEvent st e1 ∧
    (addEvent (addEvent st e1) e2).newOrModifiedEvents =
      st.newOrModifiedEvents ++ [e1] := by
  have hbytes : e2.jsonBytes = e1.jsonBytes := by simp [Event.jsonBytes, hjson]
  have hlook : mapLookup (addEvent st e1).eventChecksumsByID e2.id
      = some (hasherSum e2.jsonBytes) := by
    rw [hid, hbytes]
    exact addEvent_lookup_self st e1
  have hsame := addEvent_unchanged (addEvent st e1) e2 hlook
  exact ⟨classifyEvent_unchanged _ e2 hlook, hsame,
    by rw [hsame]; exact addEvent_pending_new st e1 hfresh⟩

/-- Copy of `sampleEventA` attributed to a different project but with
identical id and serialized bytes. -/
def sampleEventA1B : Event := { sampleEventA with project := some sampleProjectB }

/-- Witness for C9: the byte-identical event with the same id coming
from project B right after project A's copy is classified unchanged and
not appended. -/
theorem c9_witness :
    classifyEvent (addEvent initialState sampleEventA) sampleEventA1B = .isUnchanged ∧
    addEvent (addEvent initialState sampleEventA) sampleEventA1B =
      addEvent initialState sampleEventA ∧
    (addEvent (addEvent initialState sampleEventA) sampleEventA1B).newOrModifiedEvents =
      [sampleEventA] := by
  have t := c9_seen_set_shared_across_projects initialState sampleEventA sampleEventA1B
    rfl rfl (by decide) rfl
  exact ⟨t.1, t.2.1, by simpa [initialState] using t.2.2⟩

/-! ## Claim C3: the pending queue under interleaved append and drain

`addEvents` and the renderer's copy-and-clear both run under
`_EventsMutex`, so any concurrent execution is equivalent to some
sequence of atomic append (`addEvents`) and drain operations.  We model
such a sequence explicitly and show the queue loses and duplicates
nothing. -/

/-- One atomic operation on the shared state: an `addEvents` call by a
poller, or the renderer's drain (copy the pending queue, then set it to
nil; main.go lines 226-231). -/
inductive QueueOp where
  | addBatch (events : List Event)
  | drain
deriving Repr

/-- The renderer's drain: return the pending queue's contents and clear
it.  The Seen-set is untouched. -/
def drainStep (st : GlobalState) : GlobalState × List Event :=
  ({ st with newOrModifiedEvents := [] }, st.newOrModifiedEvents)

/-- One step of `addEvents` paired with the record appended by that
step (nothing when the record is classified unchanged). -/
def traceStep (p : GlobalState × List Event) (e : Event) : GlobalState × List Event :=
  (addEvent p.1 e,
   p.2 ++ (if classifyEvent p.1 e = .isUnchanged then [] else [e]))

/-- `addEvents` together with the list of records it actually appended
to the pending queue (those classified new or updated). -/
def addEventsTrace (st : GlobalState) (events : List Event) : GlobalState × List Event :=
  events.foldl traceStep (st, [])

/-- Result of running a sequence of queue operations: the final state,
the drained batches in order, and the per-`addEvents`-call lists of
records actually appended. -/
structure RunResult where
  finalState : GlobalState
  drainedBatches : List (List Event)
  appendedBatches : List (List Event)
deriving Repr

/-- Run a sequence of atomic queue operations from a state. -/
def runOps (st : GlobalState) : List QueueOp → RunResult
  | [] => ⟨st, [], []⟩
  | .addBatch evs :: rest =>
    let p := addEventsTrace st evs
    let r := runOps p.1 rest
    ⟨r.finalState, r.drainedBatches, p.2 :: r.appendedBatches⟩
  | .drain :: rest =>
    let p := drainStep st
    let r := runOps p.1 rest
    ⟨r.finalState, p.2 :: r.drainedBatches, r.appendedBatches⟩

/-- A single `addEvent` step appends the record when it is classified
new or updated and appends nothing when it is unchanged. -/
theorem addEvent_pending_split (st : GlobalState) (e : Event) :
    (addEvent st e).newOrModifiedEvents =
      st.newOrModifiedEvents ++
        (if classifyEvent st e = .isUnchanged then [] else [e]) := by
  unfold addEvent classifyEvent
  cases h : mapLookup st.eventChecksumsByID e.id with
  | none => simp [h]
  | some existing =>
    by_cases he : hasherSum e.jsonBytes = existing
    · simp [h, he]
    · simp [h, he]

/-- The state component of the traced fold is plain `addEvents`. -/
theorem traceStep_fst (events : List Event) :
    ∀ (st : GlobalState) (acc : List Event),
      (events.foldl traceStep (st, acc)).1 = addEvents st events := by
  induction events with
  | nil => intro st acc; simp [addEvents]
  | cons e rest ih =>
    intro st acc
    show (rest.foldl traceStep (traceStep (st, acc) e)).1 = addEvents st (e :: rest)
    rw [show traceStep (st, acc) e
        = (addEvent st e, acc ++ (if classifyEvent st e = .isUnchanged then [] else [e]))
        from rfl]
    rw [ih]
    rfl

/-- The accumulator of the traced fold only ever grows at the end. -/
theorem traceStep_acc (events : List Event) :
    ∀ (st : GlobalState) (acc : List Event),
      (events.foldl traceStep (st, acc)).2 = acc ++ (events.foldl traceStep (st, [])).2 := by
  induction events with
  | nil => intro st acc; simp
  | cons e rest ih =>
    intro st acc
    show (rest.foldl traceStep (traceStep (st, acc) e)).2
      = acc ++ (rest.foldl traceStep (traceStep (st, []) e)).2
    rw [show traceStep (st, acc) e
        = (addEvent st e, acc ++ (if classifyEvent st e = .isUnchanged then [] else [e]))
        from rfl]
    rw [show traceStep (st, []) e
        = (addEvent st e, [] ++ (if classifyEvent st e = .isUnchanged then [] else [e]))
        from rfl]
    rw [ih, ih (addEvent st e) ([] ++ (if classifyEvent st e = .isUnchanged then [] else [e]))]
    simp

/-- `addEvents` appends to the pending queue exactly the records
`addEventsTrace` says it appends, in order. -/
theorem addEvents_pending_trace (events : List Event) :
    ∀ st : GlobalState,
      (addEvents st events).newOrModifiedEvents =
        st.newOrModifiedEvents ++ (addEventsTrace st events).2 := by
  induction events with
  | nil => intro st; simp [addEvents, addEventsTrace]
  | cons e rest ih =>
    intro st
    have h1 : addEvents st (e :: rest) = addEvents (addEvent st e) rest := rfl
    have h2 : (addEventsTrace st (e :: rest)).2
        = (if classifyEvent st e = .isUnchanged then [] else [e])
          ++ (addEventsTrace (addEvent st e) rest).2 := by
      show (rest.foldl traceStep (traceStep (st, []) e)).2 = _
      rw [show traceStep (st, []) e
          = (addEvent st e, [] ++ (if classifyEvent st e = .isUnchanged then [] else [e]))
          from rfl]
      rw [traceStep_acc]
      simp [addEventsTrace]
    rw [h1, ih, h2, addEvent_pending_split st e]
    simp


/-- Conservation: across any sequence of atomic appends and drains, the
drained batches followed by whatever is still pending are exactly the
appended records, in order. -/
theorem runOps_conservation (ops : List QueueOp) :
    ∀ st : GlobalState,
      (runOps st ops).drainedBatches.flatten ++
          (runOps st ops).finalState.newOrModifiedEvents =
        st.newOrModifiedEvents ++ (runOps st ops).appendedBatches.flatten := by
  induction ops with
  | nil => intro st; simp [runOps]
  | cons op rest ih =>
    intro st
    cases op with
    | addBatch evs =>
      have hfst : (addEventsTrace st evs).1 = addEvents st evs := traceStep_fst evs st []
      have h := ih (addEventsTrace st evs).1
      simp only [runOps, List.flatten_cons]
      rw [h, hfst, addEvents_pending_trace evs st]
      simp
    | drain =>
      have h := ih ({ st with newOrModifiedEvents := [] })
      simp only [runOps, drainStep, List.flatten_cons]
      rw [List.append_assoc, h]
      simp

/-- After the last operation of a sequence ending in a drain, the
pending queue is empty. -/
theorem runOps_drain_empties (ops : List QueueOp) :
    ∀ st : GlobalState,
      (runOps st (ops ++ [QueueOp.drain])).finalState.newOrModifiedEvents = [] := by
  induction ops with
  | nil => intro st; simp [runOps, drainStep]
  | cons op rest ih =>
    intro st
    cases op with
    | addBatch evs => simpa [runOps] using ih (addEventsTrace st evs).1
    | drain => simpa [runOps] using ih (drainStep st).1

/-- All records submitted through the `addEvents` calls of a sequence
of operations, in submission order. -/
def batchEvents : List QueueOp → List Event
  | [] => []
  | .addBatch evs :: rest => evs ++ batchEvents rest
  | .drain :: rest => batchEvents rest

/-- The ids currently present in the Seen-set. -/
def seenKeys (st : GlobalState) : List Int :=
  st.eventChecksumsByID.map Prod.fst

theorem mapLookup_eq_none_of_not_mem (m : List (Int × List Nat)) (k : Int)
    (h : k ∉ m.map Prod.fst) : mapLookup m k = none := by
  induction m with
  | nil => rfl
  | cons hd tl ih =>
    obtain ⟨k0, v0⟩ := hd
    simp only [List.map_cons, List.mem_cons] at h
    push_neg at h
    simpa [mapLookup, Ne.symm h.1] using ih h.2

theorem keys_mapInsert (m : List (Int × List Nat)) (k : Int) (v : List Nat) :
    ∀ x ∈ (mapInsert m k v).map Prod.fst, x = k ∨ x ∈ m.map Prod.fst := by
  induction m with
  | nil => simp [mapInsert]
  | cons hd tl ih =>
    obtain ⟨k0, v0⟩ := hd
    by_cases h0 : k0 = k
    · subst h0
      simp [mapInsert]
    · intro x hx
      simp only [mapInsert, if_neg h0, List.map_cons, List.mem_cons] at hx
      rcases hx with hx | hx
      · exact Or.inr (by simp [hx])
      · rcases ih x hx with h | h
        · exact Or.inl h
        · exact Or.inr (by simp [h])

/-- Processing one record can only add that record's id to the
Seen-set. -/
theorem seenKeys_addEvent (st : GlobalState) (e : Event) :
    ∀ x ∈ seenKeys (addEvent st e), x = e.id ∨ x ∈ seenKeys st := by
  intro x hx
  unfold seenKeys addEvent at hx
  cases h : mapLookup st.eventChecksumsByID e.id with
  | none =>
    rw [h] at hx
    exact keys_mapInsert _ _ _ x hx
  | some existing =>
    rw [h] at hx
    by_cases he : hasherSum e.jsonBytes = existing
    · simp only [if_pos he] at hx
      exact Or.inr hx
    · simp only [if_neg he] at hx
      exact keys_mapInsert _ _ _ x hx

/-- A batch of records whose ids are fresh and pairwise distinct is
appended in full, and afterwards the Seen-set has gained only those
ids. -/
theorem addEvents_all_new (evs : List Event) :
    ∀ st : GlobalState,
      (∀ e ∈ evs, e.id ∉ seenKeys st) →
      (evs.map Event.id).Nodup →
      (addEventsTrace st evs).2 = evs ∧
      (∀ x ∈ seenKeys (addEvents st evs), x ∈ evs.map Event.id ∨ x ∈ seenKeys st) := by
  induction evs with
  | nil => intro st _ _; exact ⟨rfl, fun x hx => Or.inr hx⟩
  | cons e rest ih =>
    intro st hfresh hnodup
    have hlook : mapLookup st.eventChecksumsByID e.id = none :=
      mapLookup_eq_none_of_not_mem _ _ (hfresh e (by simp))
    have hnew : classifyEvent st e = .isNew := classifyEvent_new st e hlook
    rw [List.map_cons, List.nodup_cons] at hnodup
    have hrest_fresh : ∀ e' ∈ rest, e'.id ∉ seenKeys (addEvent st e) := by
      intro e' he' hmem
      rcases seenKeys_addEvent st e e'.id hmem with h | h
      · exact hnodup.1 (h ▸ List.mem_map_of_mem Event.id he')
      · exact hfresh e' (by simp [he']) h
    obtain ⟨htrace, hkeys⟩ := ih (addEvent st e) hrest_fresh hnodup.2
    constructor
    · show (rest.foldl traceStep (traceStep (st, []) e)).2 = e :: rest
      rw [show traceStep (st, []) e
          = (addEvent st e, [] ++ (if classifyEvent st e = .isUnchanged then [] else [e]))
          from rfl]
      rw [traceStep_acc, hnew]
      simpa [addEventsTrace] using htrace
    · intro x hx
      have hstep : addEvents st (e :: rest) = addEvents (addEvent st e) rest := rfl
      rw [hstep] at hx
      rcases hkeys x hx with h | h
      · exact Or.inl (by simp [h])
      · rcases seenKeys_addEvent st e x h with h' | h'
        · exact Or.inl (by simp [h'])
        · exact Or.inr h'

/-- When every record submitted across the whole operation sequence has
a fresh, unique id, every record is appended (none filtered). -/
theorem runOps_all_new (ops : List QueueOp) :
    ∀ st : GlobalState,
      ((batchEvents ops).map Event.id).Nodup →
      (∀ e ∈ batchEvents ops, e.id ∉ seenKeys st) →
      (runOps st ops).appendedBatches.flatten = batchEvents ops := by
  induction ops with
  | nil => intro st _ _; rfl
  | cons op rest ih =>
    intro st hnodup hfresh
    cases op with
    | addBatch evs =>
      have hsplit : batchEvents (QueueOp.addBatch evs :: rest)
          = evs ++ batchEvents rest := rfl
      rw [hsplit] at hnodup hfresh
      have hnodup' := hnodup
      rw [List.map_append, List.nodup_append] at hnodup'
      obtain ⟨hn1, hn2, hdisj⟩ := hnodup'
      have hall := addEvents_all_new evs st (fun e he => hfresh e (by simp [he])) hn1
      have hrest_fresh :
          ∀ e ∈ batchEvents rest, e.id ∉ seenKeys (addEventsTrace st evs).1 := by
        intro e he hmem
        rw [show (addEventsTrace st evs).1 = addEvents st evs from traceStep_fst evs st []]
          at hmem
        rcases hall.2 e.id hmem with h | h
        · exact hdisj h (List.mem_map_of_mem Event.id he)
        · exact hfresh e (by simp [he]) h
      simp only [runOps, List.flatten_cons]
      rw [ih (addEventsTrace st evs).1 hn2 hrest_fresh, hall.1]
      exact hsplit.symm
    | drain =>
      simp only [runOps, List.flatten_cons]
      exact ih (drainStep st).1 hnodup hfresh

/-- C3: for every finite sequence of interleaved `addEvents` and drain
operations on the shared queue, the concatenation of the drained
batches followed by the still-pending records equals the concatenation
of all appended records (hence the multisets agree: nothing lost,
nothing duplicated); every drain leaves the queue empty; and when all
submitted records carry fresh pairwise-distinct ids (K pollers times N
fresh records each), the appended records are exactly the submitted
ones, so all K times N are drained eventually. -/
theorem c3_queue_conservation (ops : List QueueOp) (st : GlobalState) :
    ((runOps st ops).drainedBatches.flatten ++
        (runOps st ops).finalState.newOrModifiedEvents =
      st.newOrModifiedEvents ++ (runOps st ops).appendedBatches.flatten)
    ∧
    (st.newOrModifiedEvents = [] →
      (((runOps st ops).drainedBatches.flatten ++
          (runOps st ops).finalState.newOrModifiedEvents : List Event) : Multiset Event) =
        (((runOps st ops).appendedBatches.flatten : List Event) : Multiset Event))
    ∧
    ((runOps st (ops ++ [QueueOp.drain])).finalState.newOrModifiedEvents = [])
    ∧
    (((batchEvents ops).map Event.id).Nodup →
      (∀ e ∈ batchEvents ops, e.id ∉ seenKeys st) →
      (runOps st ops).appendedBatches.flatten = batchEvents ops) := by
  refine ⟨runOps_conservation ops st, fun hempty => ?_,
    runOps_drain_empties ops st, runOps_all_new ops st⟩
  have h := runOps_conservation ops st
  rw [hempty] at h
  simp only [List.nil_append] at h
  rw [h]

/-- A second fresh sample event (id 102). -/
def sampleEventB : Event :=
  { id := 102, createdAt := "2021-03-01T10:05:00Z", authorUsername := "bob"
    action := "pushed to", targetTitle := "", note := none
    push := some ⟨"pushed", "branch", "main", "tweak"⟩
    project := some sampleProjectB, json := some (strBytes "payload-b") }

/-- A third fresh sample event (id 103). -/
def sampleEventC : Event :=
  { id := 103, createdAt := "2021-03-01T10:07:00Z", authorUsername := "carol"
    action := "commented on", targetTitle := "Discussion"
    note := some ⟨"DiffNote", "nice", true⟩, push := none
    project := some sampleProjectA, json := some (strBytes "payload-c") }

/-- Interleaved schedule of two pollers and the renderer used by the
C3 witness. -/
def c3SampleOps : List QueueOp :=
  [.addBatch [sampleEventA, sampleEventB], .drain,
   .addBatch [sampleEventC], .addBatch [sampleEventA], .drain]

/-- Witness for C3: on a concrete interleaving where two pollers submit
three fresh records (plus one byte-identical duplicate, filtered before
ever reaching the queue), the drained batches are exactly the appended
records and a final drain leaves the queue empty. -/
theorem c3_witness :
    ((runOps initialState c3SampleOps).drainedBatches.flatten ++
        (runOps initialState c3SampleOps).finalState.newOrModifiedEvents =
      (runOps initialState c3SampleOps).appendedBatches.flatten)
    ∧ ((runOps initialState (c3SampleOps ++ [QueueOp.drain])).finalState.newOrModifiedEvents
        = [])
    ∧ ((runOps initialState [QueueOp.addBatch [sampleEventA, sampleEventB],
          QueueOp.addBatch [sampleEventC]]).appendedBatches.flatten =
        batchEvents [QueueOp.addBatch [sampleEventA, sampleEventB],
          QueueOp.addBatch [sampleEventC]]) := by
  have t := c3_queue_conservation c3SampleOps initialState
  have t2 := c3_queue_conservation
    [QueueOp.addBatch [sampleEventA, sampleEventB], QueueOp.addBatch [sampleEventC]]
    initialState
  refine ⟨?_, t.2.2.1, t2.2.2.2 (by decide) (by decide)⟩
  have h := t.1
  simpa [initialState] using h

/-! ## JSON values and the `encoding/json` text syntax

`fetchProjectEvents` feeds the raw HTTP body to `json.Unmarshal`.  We
model JSON documents as a tree that preserves object field order and
duplicate keys, with a strict text parser mirroring the stdlib
scanner's grammar. -/

/-- A JSON document.  Numbers keep their raw literal, as the decoder
re-parses the literal against the target field type. -/
inductive JSONValue where
  | null
  | bool (b : Bool)
  | num (lit : String)
  | str (s : String)
  | arr (elems : List JSONValue)
  | obj (fields : List (String × JSONValue))
deriving Inhabited

/-- JSON whitespace (space, tab, newline, carriage return). -/
def isJSONWs (c : Char) : Bool :=
  c = ' ' || c = '\t' || c = '\n' || c = '\r'

/-- Skip leading JSON whitespace. -/
def skipWs : List Char → List Char
  | [] => []
  | c :: rest => if isJSONWs c then skipWs rest else c :: rest

/-- Value of one hexadecimal digit. -/
def hexVal (c : Char) : Option Nat :=
  if '0' ≤ c ∧ c ≤ '9' then some (c.toNat - 48)
  else if 'a' ≤ c ∧ c ≤ 'f' then some (c.toNat - 87)
  else if 'A' ≤ c ∧ c ≤ 'F' then some (c.toNat - 55)
  else none

/-- Read exactly four hex digits (the `XXXX` of a `\uXXXX` escape). -/
def parseHex4 : List Char → Option (Nat × List Char)
  | c1 :: c2 :: c3 :: c4 :: rest => do
    let v1 ← hexVal c1
    let v2 ← hexVal c2
    let v3 ← hexVal c3
    let v4 ← hexVal c4
    pure (((v1 * 16 + v2) * 16 + v3) * 16 + v4, rest)
  | _ => none

/-- Decode the remainder of a JSON string literal (after the opening
quote), with Go's escape-sequence semantics: the simple escapes, and
`\uXXXX` with UTF-16 surrogate pairs combined and lone surrogates
replaced by U+FFFD. -/
def parseStrChars : Nat → List Char → Option (List Char × List Char)
  | 0, _ => none
  | _ + 1, [] => none
  | fuel + 1, c :: rest =>
    if c = '"' then some ([], rest)
    else if c = '\\' then
      match rest with
      | [] => none
      | e :: rest2 =>
        if e = 'u' then
          match parseHex4 rest2 with
          | none => none
          | some (n, rest3) =>
            if 0xD800 ≤ n ∧ n ≤ 0xDFFF then
              -- a UTF-16 surrogate: try to combine with a following low
              -- surrogate escape, else emit U+FFFD for this escape alone
              match rest3 with
              | '\\' :: 'u' :: rest4 =>
                match parseHex4 rest4 with
                | some (n2, rest5) =>
                  if 0xD800 ≤ n ∧ n ≤ 0xDBFF ∧ 0xDC00 ≤ n2 ∧ n2 ≤ 0xDFFF then
                    let cp := 0x10000 + (n - 0xD800) * 0x400 + (n2 - 0xDC00)
                    match parseStrChars fuel rest5 with
                    | some (cs, rem) => some (Char.ofNat cp :: cs, rem)
                    | none => none
                  else
                    match parseStrChars fuel rest3 with
                    | some (cs, rem) => some (Char.ofNat 0xFFFD :: cs, rem)
                    | none => none
                | none =>
                  match parseStrChars fuel rest3 with
                  | some (cs, rem) => some (Char.ofNat 0xFFFD :: cs, rem)
                  | none => none
              | _ =>
                match parseStrChars fuel rest3 with
                | some (cs, rem) => some (Char.ofNat 0xFFFD :: cs, rem)
                | none => none
            else
              match parseStrChars fuel rest3 with
              | some (cs, rem) => some (Char.ofNat n :: cs, rem)
              | none => none
        else
          let simple : Option Char :=
            if e = '"' then some '"'
            else if e = '\\' then some '\\'
            else if e = '/' then some '/'
            else if e = 'b' then some (Char.ofNat 8)
            else if e = 'f' then some (Char.ofNat 12)
            else if e = 'n' then some '\n'
            else if e = 'r' then some '\r'
            else if e = 't' then some '\t'
            else none
          match simple with
          | none => none
          | some sc =>
            match parseStrChars fuel rest2 with
            | some (cs, rem) => some (sc :: cs, rem)
            | none => none
    else if c.toNat < 0x20 then none  -- raw control characters are invalid
    else
      match parseStrChars fuel rest with
      | some (cs, rem) => some (c :: cs, rem)
      | none => none

/-- Longest prefix of decimal digits. -/
def spanDigits : List Char → List Char × List Char
  | [] => ([], [])
  | c :: rest =>
    if c.isDigit then
      let p := spanDigits rest
      (c :: p.1, p.2)
    else ([], c :: rest)

/-- Parse a JSON number literal (returned as its raw text):
`-? (0 | [1-9][0-9]*) (. [0-9]+)? ([eE][+-]?[0-9]+)?`. -/
def parseNumLit (cs : List Char) : Option (List Char × List Char) := do
  let (sign, cs1) :=
    match cs with
    | '-' :: rest => ([('-' : Char)], rest)
    | _ => ([], cs)
  let (ipart, cs2) ←
    match cs1 with
    | '0' :: rest => some ([('0' : Char)], rest)
    | c :: _ =>
      if c.isDigit then
        let p := spanDigits cs1
        some (p.1, p.2)
      else none
    | [] => none
  let (fpart, cs3) ←
    match cs2 with
    | '.' :: rest =>
      let p := spanDigits rest
      if p.1 = [] then none else some ('.' :: p.1, p.2)
    | _ => some ([], cs2)
  let (epart, cs4) ←
    match cs3 with
    | c :: rest =>
      if c = 'e' ∨ c = 'E' then
        let (esign, rest2) :=
          match rest with
          | '+' :: r => ([('+' : Char)], r)
          | '-' :: r => ([('-' : Char)], r)
          | _ => ([], rest)
        let p := spanDigits rest2
        if p.1 = [] then none else some (c :: (esign ++ p.1), p.2)
      else some ([], cs3)
    | [] => some ([], cs3)
  pure (sign ++ ipart ++ fpart ++ epart, cs4)

/-- Match a literal keyword (`null`, `true`, `false` tails). -/
def matchLit : List Char → List Char → Option (List Char)
  | [], rest => some rest
  | _, [] => none
  | k :: ks, c :: rest => if c = k then matchLit ks rest else none

mutual

/-- Parse one JSON value (leading whitespace allowed). -/
def parseVal : Nat → List Char → Option (JSONValue × List Char)
  | 0, _ => none
  | fuel + 1, cs =>
    match skipWs cs with
    | [] => none
    | c :: rest =>
      if c = 'n' then (matchLit ['u', 'l', 'l'] rest).map (fun r => (.null, r))
      else if c = 't' then (matchLit ['r', 'u', 'e'] rest).map (fun r => (.bool true, r))
      else if c = 'f' then
        (matchLit ['a', 'l', 's', 'e'] rest).map (fun r => (.bool false, r))
      else if c = '"' then
        match parseStrChars (rest.length + 1) rest with
        | some (body, rem) => some (.str (String.mk body), rem)
        | none => none
      else if c = '[' then
        match skipWs rest with
        | ']' :: rem => some (.arr [], rem)
        | other =>
          match parseElems fuel other with
          | some (elems, rem) => some (.arr elems, rem)
          | none => none
      else if c = '\x7b' then
        match skipWs rest with
        | '\x7d' :: rem => some (.obj [], rem)
        | other =>
          match parseMembers fuel other with
          | some (fields, rem) => some (.obj fields, rem)
          | none => none
      else if c = '-' ∨ c.isDigit then
        match parseNumLit (c :: rest) with
        | some (lit, rem) => some (.num (String.mk lit), rem)
        | none => none
      else none

/-- Parse `value (, value)* ]` — the non-empty tail of an array. -/
def parseElems : Nat → List Char → Option (List JSONValue × List Char)
  | 0, _ => none
  | fuel + 1, cs =>
    match parseVal fuel cs with
    | none => none
    | some (v, rest) =>
      match skipWs rest with
      | ',' :: rest2 =>
        match parseElems fuel rest2 with
        | some (vs, rem) => some (v :: vs, rem)
        | none => none
      | ']' :: rem => some ([v], rem)
      | _ => none

/-- Parse `"key": value (, "key": value)* }` — the non-empty tail of an
object. -/
def parseMembers : Nat → List Char → Option (List (String × JSONValue) × List Char)
  | 0, _ => none
  | fuel + 1, cs =>
    match skipWs cs with
    | '"' :: rest =>
      match parseStrChars (rest.length + 1) rest with
      | none => none
      | some (key, rest2) =>
        match skipWs rest2 with
        | ':' :: rest3 =>
          match parseVal fuel rest3 with
          | none => none
          | some (v, rest4) =>
            match skipWs rest4 with
            | ',' :: rest5 =>
              match parseMembers fuel rest5 with
              | some (fields, rem) => some ((String.mk key, v) :: fields, rem)
              | none => none
            | '\x7d' :: rem => some ([(String.mk key, v)], rem)
            | _ => none
        | _ => none
    | _ => none

end

/-- `json.Unmarshal`'s syntax check: parse exactly one JSON value with
only whitespace around it. -/
def parseJSONText (s : String) : Option JSONValue :=
  match parseVal (s.length + 1) s.data with
  | some (v, rest) => if skipWs rest = [] then some v else none
  | none => none

/-! ## Base64 (`encoding/base64` StdEncoding, used for `[]byte` fields) -/

/-- The standard base64 alphabet. -/
def b64Alphabet : List Char :=
  "ABCDEFGHIJKLMNOPQRSTUVWXYZabcdefghijklmnopqrstuvwxyz0123456789+/".data

/-- Index of a character in the standard base64 alphabet. -/
def b64Val (c : Char) : Option Nat :=
  if 'A' ≤ c ∧ c ≤ 'Z' then some (c.toNat - 65)
  else if 'a' ≤ c ∧ c ≤ 'z' then some (c.toNat - 71)
  else if '0' ≤ c ∧ c ≤ '9' then some (c.toNat + 4)
  else if c = '+' then some 62
  else if c = '/' then some 63
  else none

/-- Decode base64 text four characters at a time, with `=` padding only
in the final quantum. -/
def b64Chunks : List Char → Option (List Nat)
  | [] => some []
  | c1 :: c2 :: c3 :: c4 :: rest => do
    let v1 ← b64Val c1
    let v2 ← b64Val c2
    if c3 = '=' then
      if c4 = '=' ∧ rest = [] then pure [v1 * 4 + v2 / 16] else none
    else do
      let v3 ← b64Val c3
      if c4 = '=' then
        if rest = [] then pure [v1 * 4 + v2 / 16, (v2 % 16) * 16 + v3 / 4] else none
      else do
        let v4 ← b64Val c4
        let tail ← b64Chunks rest
        pure ((v1 * 4 + v2 / 16) :: ((v2 % 16) * 16 + v3 / 4) :: ((v3 % 4) * 64 + v4) :: tail)
  | _ => none

/-- `base64.StdEncoding` decoding (the decoder skips newline
characters). -/
def base64Decode (s : String) : Option (List Nat) :=
  b64Chunks (s.data.filter (fun c => c ≠ '\r' ∧ c ≠ '\n'))

/-- Character of a 6-bit group in the standard alphabet. -/
def b64Char (n : Nat) : Char :=
  b64Alphabet.getD n 'A'

/-- `base64.StdEncoding` encoding, three bytes at a time with padding. -/
def base64Encode : List Nat → List Char
  | [] => []
  | [b1] => [b64Char (b1 / 4), b64Char ((b1 % 4) * 16), '=', '=']
  | [b1, b2] =>
    [b64Char (b1 / 4), b64Char ((b1 % 4) * 16 + b2 / 16), b64Char ((b2 % 16) * 4), '=']
  | b1 :: b2 :: b3 :: rest =>
    b64Char (b1 / 4) :: b64Char ((b1 % 4) * 16 + b2 / 16) ::
      b64Char ((b2 % 16) * 4 + b3 / 64) :: b64Char (b3 % 64) :: base64Encode rest

/-! ## `strconv.ParseInt(s, 10, 64)` -/

/-- Wrap a string in quotes for an error message (the `%q` escaping of
non-printing characters is elided). -/
def goQuote (s : String) : String := "\"" ++ s ++ "\""

/-- Split an optional leading sign off a numeral. -/
def signSplit : List Char → Int × List Char
  | '+' :: rest => ((1 : Int), rest)
  | '-' :: rest => ((-1 : Int), rest)
  | chars => ((1 : Int), chars)

/-- `strconv.ParseInt(s, 10, 64)`: optional sign, one or more decimal
digits, result within the signed 64-bit range. -/
def parseInt64 (s : String) : Except String Int :=
  let p := signSplit s.data
  if p.2 = [] then
    .error ("strconv.ParseInt: parsing " ++ goQuote s ++ ": invalid syntax")
  else if p.2.all Char.isDigit then
    let n : Nat := p.2.foldl (fun acc c => acc * 10 + (c.toNat - 48)) 0
    let v : Int := p.1 * n
    if v < -(2 ^ 63) ∨ 2 ^ 63 - 1 < v then
      .error ("strconv.ParseInt: parsing " ++ goQuote s ++ ": value out of range")
    else .ok v
  else .error ("strconv.ParseInt: parsing " ++ goQuote s ++ ": invalid syntax")

/-! ## Decoding JSON into the record types

`json.Unmarshal` matches object keys against field names or their
`json:"..."` tags case-insensitively, processes the keys in document
order (later duplicates overwrite), ignores unknown keys, treats `null`
as a no-op for scalar fields and as nil for pointer/slice fields, and
reports a type error when a value's kind does not fit the field (the
caller then discards everything, so a type error is modelled as overall
failure). -/

/-- ASCII lower-casing of one character. -/
def lowerChar (c : Char) : Char :=
  if 'A' ≤ c ∧ c ≤ 'Z' then Char.ofNat (c.toNat + 32) else c

/-- Case-insensitive key matching (an ASCII fold suffices for the field
names involved). -/
def keyMatches (key name : String) : Bool :=
  key.data.map lowerChar = name.data.map lowerChar

/-- The zero `Note` value. -/
def zeroNote : Note := ⟨"", "", false⟩

/-- The zero `Push` value. -/
def zeroPush : Push := ⟨"", "", "", ""⟩

/-- The zero `Project` value. -/
def zeroProject : Project := ⟨0, "", ""⟩

/-- The zero `Event` value (all fields at their Go zero values). -/
def zeroEvent : Event :=
  { id := 0, createdAt := "", authorUsername := "", action := ""
    targetTitle := "", note := none, push := none, project := none, json := none }

/-- Decode a JSON value into a `string` field. -/
def setStringField (cur : String) (v : JSONValue) : Option String :=
  match v with
  | .str s => some s
  | .null => some cur
  | _ => none

/-- Decode a JSON value into an `int64` field: the decoder runs
`strconv.ParseInt` on the raw literal. -/
def setInt64Field (cur : Int) (v : JSONValue) : Option Int :=
  match v with
  | .num lit => (parseInt64 lit).toOption
  | .null => some cur
  | _ => none

/-- Decode a JSON value into a `bool` field. -/
def setBoolField (cur : Bool) (v : JSONValue) : Option Bool :=
  match v with
  | .bool b => some b
  | .null => some cur
  | _ => none

/-- Decode a JSON value into a `[]byte` field (base64 text, or null
for the nil slice; the previous value is never consulted). -/
def setBytesField (v : JSONValue) : Option (Option (List Nat)) :=
  match v with
  | .str s => (base64Decode s).map some
  | .null => some none
  | _ => none

/-- Fold one object key into a `Note` (field names `Type`, `Body`,
`Resolved`). -/
def setNoteField (n : Note) (key : String) (v : JSONValue) : Option Note :=
  if keyMatches key "Type" then (setStringField n.type v).map fun s => { n with type := s }
  else if keyMatches key "Body" then (setStringField n.body v).map fun s => { n with body := s }
  else if keyMatches key "Resolved" then
    (setBoolField n.resolved v).map fun b => { n with resolved := b }
  else some n

/-- Decode a JSON value into a `*Note` field. -/
def setNotePtr (cur : Option Note) (v : JSONValue) : Option (Option Note) :=
  match v with
  | .null => some none
  | .obj fields =>
    (fields.foldl (fun acc p => acc.bind fun n => setNoteField n p.1 p.2)
      (some (cur.getD zeroNote))).map some
  | _ => none

/-- Fold one object key into a `Push` (names `Action`, `ref_type`,
`Ref`, `commit_title`). -/
def setPushField (p : Push) (key : String) (v : JSONValue) : Option Push :=
  if keyMatches key "Action" then (setStringField p.action v).map fun s => { p with action := s }
  else if keyMatches key "ref_type" then
    (setStringField p.refType v).map fun s => { p with refType := s }
  else if keyMatches key "Ref" then (setStringField p.ref v).map fun s => { p with ref := s }
  else if keyMatches key "commit_title" then
    (setStringField p.commitTitle v).map fun s => { p with commitTitle := s }
  else some p

/-- Decode a JSON value into a `*Push` field. -/
def setPushPtr (cur : Option Push) (v : JSONValue) : Option (Option Push) :=
  match v with
  | .null => some none
  | .obj fields =>
    (fields.foldl (fun acc q => acc.bind fun p => setPushField p q.1 q.2)
      (some (cur.getD zeroPush))).map some
  | _ => none

/-- Fold one object key into a `Project` (names `ID`,
`path_with_namespace`, `Name`). -/
def setProjectField (pr : Project) (key : String) (v : JSONValue) : Option Project :=
  if keyMatches key "ID" then (setInt64Field pr.id v).map fun i => { pr with id := i }
  else if keyMatches key "path_with_namespace" then
    (setStringField pr.pathWithNamespace v).map fun s => { pr with pathWithNamespace := s }
  else if keyMatches key "Name" then (setStringField pr.name v).map fun s => { pr with name := s }
  else some pr

/-- Decode a JSON value into a `*Project` field. -/
def setProjectPtr (cur : Option Project) (v : JSONValue) : Option (Option Project) :=
  match v with
  | .null => some none
  | .obj fields =>
    (fields.foldl (fun acc q => acc.bind fun pr => setProjectField pr q.1 q.2)
      (some (cur.getD zeroProject))).map some
  | _ => none

/-- Fold one object key into an `Event`.  Effective names: `ID`,
`created_at`, `author_username`, `action_name`, `target_title`, `Note`,
`push_data`, `Project`, `JSON`; unknown keys are ignored. -/
def setEventField (e : Event) (key : String) (v : JSONValue) : Option Event :=
  if keyMatches key "ID" then (setInt64Field e.id v).map fun i => { e with id := i }
  else if keyMatches key "created_at" then
    (setStringField e.createdAt v).map fun s => { e with createdAt := s }
  else if keyMatches key "author_username" then
    (setStringField e.authorUsername v).map fun s => { e with authorUsername := s }
  else if keyMatches key "action_name" then
    (setStringField e.action v).map fun s => { e with action := s }
  else if keyMatches key "target_title" then
    (setStringField e.targetTitle v).map fun s => { e with targetTitle := s }
  else if keyMatches key "Note" then (setNotePtr e.note v).map fun n => { e with note := n }
  else if keyMatches key "push_data" then (setPushPtr e.push v).map fun p => { e with push := p }
  else if keyMatches key "Project" then
    (setProjectPtr e.project v).map fun pr => { e with project := pr }
  else if keyMatches key "JSON" then (setBytesField v).map fun b => { e with json := b }
  else some e

/-- Decode one element of the events array into an `Event`. -/
def decodeEventValue (v : JSONValue) : Option Event :=
  match v with
  | .obj fields =>
    fields.foldl (fun acc p => acc.bind fun e => setEventField e p.1 p.2) (some zeroEvent)
  | .null => some zeroEvent
  | _ => none

/-- Decode the whole document into `[]Event` (must be an array of
event objects, or `null` for the nil slice). -/
def decodeEventList (v : JSONValue) : Option (List Event) :=
  match v with
  | .arr elems => elems.mapM decodeEventValue
  | .null => some []
  | _ => none

/-- `json.Unmarshal(body, &events)`: syntax-check and parse the body,
then decode it as an array of events. -/
def unmarshalEvents (s : String) : Option (List Event) :=
  (parseJSONText s).bind decodeEventList

/-! ## Re-serialization (`json.Marshal(&events[i])`) -/

/-- Escape one character the way Go's JSON encoder does (HTML escaping
is on by default for `json.Marshal`). -/
def jsonEscapeChar (c : Char) : List Char :=
  if c = '"' then ['\\', '"']
  else if c = '\\' then ['\\', '\\']
  else if c = '\n' then ['\\', 'n']
  else if c = '\r' then ['\\', 'r']
  else if c = '\t' then ['\\', 't']
  else if c.toNat < 0x20 then
    ['\\', 'u', '0', '0', (Nat.digitChar (c.toNat / 16)), (Nat.digitChar (c.toNat % 16))]
  else if c = '<' then ['\\', 'u', '0', '0', '3', 'c']
  else if c = '>' then ['\\', 'u', '0', '0', '3', 'e']
  else if c = '&' then ['\\', 'u', '0', '0', '2', '6']
  else if c.toNat = 0x2028 then ['\\', 'u', '2', '0', '2', '8']
  else if c.toNat = 0x2029 then ['\\', 'u', '2', '0', '2', '9']
  else [c]

/-- A JSON string literal for `s`. -/
def quoteJSON (s : String) : String :=
  "\"" ++ String.mk (s.data.flatMap jsonEscapeChar) ++ "\""

/-- Marshal a `Note` (untagged fields keep their Go names). -/
def marshalNote (n : Note) : String :=
  "\x7b\"Type\":" ++ quoteJSON n.type ++ ",\"Body\":" ++ quoteJSON n.body ++
    ",\"Resolved\":" ++ (if n.resolved then "true" else "false") ++ "\x7d"

/-- Marshal a `Push`. -/
def marshalPush (p : Push) : String :=
  "\x7b\"Action\":" ++ quoteJSON p.action ++ ",\"ref_type\":" ++ quoteJSON p.refType ++
    ",\"Ref\":" ++ quoteJSON p.ref ++ ",\"commit_title\":" ++ quoteJSON p.commitTitle ++ "\x7d"

/-- Marshal a `Project`. -/
def marshalProject (pr : Project) : String :=
  "\x7b\"ID\":" ++ toString pr.id ++ ",\"path_with_namespace\":" ++
    quoteJSON pr.pathWithNamespace ++ ",\"Name\":" ++ quoteJSON pr.name ++ "\x7d"

/-- Marshal an `Event` (nil pointers and the nil byte slice marshal as
`null`, a byte slice as base64 text, fields in declaration order). -/
def marshalEvent (e : Event) : String :=
  "\x7b\"ID\":" ++ toString e.id ++
    ",\"created_at\":" ++ quoteJSON e.createdAt ++
    ",\"author_username\":" ++ quoteJSON e.authorUsername ++
    ",\"action_name\":" ++ quoteJSON e.action ++
    ",\"target_title\":" ++ quoteJSON e.targetTitle ++
    ",\"Note\":" ++ (match e.note with | none => "null" | some n => marshalNote n) ++
    ",\"push_data\":" ++ (match e.push with | none => "null" | some p => marshalPush p) ++
    ",\"Project\":" ++ (match e.project with | none => "null" | some pr => marshalProject pr) ++
    ",\"JSON\":" ++
      (match e.json with
       | none => "null"
       | some bs => "\"" ++ String.mk (base64Encode bs) ++ "\"") ++
    "\x7d"

/-! ## `fetchProjectEvents` and the poller loop -/

/-- Outcome of one poll cycle's HTTP exchange, as seen by
`fetchProjectEvents`: `http.Get` failed, reading the body failed, or a
complete body was obtained. -/
inductive FetchOutcome where
  | transportError
  | bodyReadError
  | body (s : String)

/-- The error cases `fetchProjectEvents` can return. -/
inductive FetchError where
  | transport
  | bodyRead
  | decode
deriving DecidableEq, Repr

/-- The per-event preparation loop of `fetchProjectEvents` (main.go
lines 139-142): `events[i].JSON, _ = json.Marshal(&events[i])` (the
event as decoded, before the assignments) and then
`events[i].Project = project`. -/
def prepareEvents (project : Project) (events : List Event) : List Event :=
  events.map fun e =>
    { e with json := some (strBytes (marshalEvent e)), project := some project }

/-- `fetchProjectEvents` (main.go lines 121-146): return early on a
transport error, a body-read error, or a decode error — in those cases
the shared state is untouched; only after the whole body decoded
successfully are the events prepared and handed to `addEvents`. -/
def fetchProjectEvents (out : FetchOutcome) (project : Project) (st : GlobalState) :
    GlobalState × Option FetchError :=
  match out with
  | .transportError => (st, some .transport)
  | .bodyReadError => (st, some .bodyRead)
  | .body s =>
    match unmarshalEvents s with
    | none => (st, some .decode)
    | some events => (addEvents st (prepareEvents project events), none)

/-- Observable pieces of one iteration of `watchProject`'s loop: the
state afterwards, the sleeps performed (in seconds), and the error that
was logged, if any. -/
structure PollStep where
  state : GlobalState
  sleeps : List Nat
  err : Option FetchError
deriving Repr

/-- One iteration of the `for` loop of `watchProject` (main.go lines
174-181): call `fetchProjectEvents`; on error, log it and sleep one
second; in all cases sleep five more seconds and go around again. -/
def watchStep (out : FetchOutcome) (project : Project) (st : GlobalState) : PollStep :=
  match (fetchProjectEvents out project st).2 with
  | some e => ⟨(fetchProjectEvents out project st).1, [1, 5], some e⟩
  | none => ⟨(fetchProjectEvents out project st).1, [5], none⟩

/-- The state of the poller after `n` iterations of `watchProject`'s
loop, given the stream of HTTP outcomes.  The loop is total: for every
`n` there is an iteration `n + 1`; there is no terminal state. -/
def watchRun (outs : Nat → FetchOutcome) (project : Project) (st0 : GlobalState) :
    Nat → GlobalState
  | 0 => st0
  | n + 1 => (watchStep (outs n) project (watchRun outs project st0 n)).state

/-! ## Claim C5 -/

/-- The fingerprint `addEvents` will compare for a record decoded from
the JSON value `v`: the hash is taken of the re-serialized event
(`json.Marshal` of the decoded struct), not of the upstream text. -/
def fingerprintOfValue (v : JSONValue) : Option (List Nat) :=
  (decodeEventValue v).map fun e => hasherSum (strBytes (marshalEvent e))

/-- C5: the fingerprint is deterministic under re-encoding.  Two
upstream JSON documents that decode to the same `Event` value (for
example, differing only in object field order) yield the same
fingerprint, because the hash input is the re-serialization of the
decoded event; consequently two bodies with equal decodings drive
`fetchProjectEvents` identically, and the bytes hashed for a prepared
event are exactly the re-serialized form. -/
theorem c5_fingerprint_deterministic :
    (∀ v1 v2 : JSONValue, ∀ e : Event,
      decodeEventValue v1 = some e → decodeEventValue v2 = some e →
      fingerprintOfValue v1 = fingerprintOfValue v2)
    ∧ (∀ s1 s2 : String, ∀ p : Project, ∀ st : GlobalState,
      unmarshalEvents s1 = unmarshalEvents s2 →
      fetchProjectEvents (.body s1) p st = fetchProjectEvents (.body s2) p st)
    ∧ (∀ p : Project, ∀ es : List Event,
      (prepareEvents p es).map (fun e => hasherSum e.jsonBytes)
        = es.map (fun e => hasherSum (strBytes (marshalEvent e)))) := by
  refine ⟨fun v1 v2 e h1 h2 => ?_, fun s1 s2 p st h => ?_, fun p es => ?_⟩
  · unfold fingerprintOfValue
    rw [h1, h2]
  · simp only [fetchProjectEvents, h]
  · simp [prepareEvents, Event.jsonBytes]

/-- Upstream text for the C5 witness. -/
def c5Text1 : String :=
  "\x7b\"id\":5,\"action_name\":\"opened\",\"created_at\":\"2021-01-01T00:00:00Z\"\x7d"

/-- The same object with its fields in a different order. -/
def c5Text2 : String :=
  "\x7b\"created_at\":\"2021-01-01T00:00:00Z\",\"action_name\":\"opened\",\"id\":5\x7d"

/-- The event both C5 witness texts decode to. -/
def c5DecodedEvent : Event :=
  { zeroEvent with id := 5, action := "opened", createdAt := "2021-01-01T00:00:00Z" }

/-- Witness for C5: two distinct upstream texts differing only in field
order decode to the same event and receive the same fingerprint. -/
theorem c5_witness :
    c5Text1 ≠ c5Text2 ∧
    decodeEventValue ((parseJSONText c5Text1).getD .null) = some c5DecodedEvent ∧
    decodeEventValue ((parseJSONText c5Text2).getD .null) = some c5DecodedEvent ∧
    fingerprintOfValue ((parseJSONText c5Text1).getD .null)
      = fingerprintOfValue ((parseJSONText c5Text2).getD .null) := by
  refine ⟨by decide, by rfl, by rfl, ?_⟩
  exact c5_fingerprint_deterministic.1 _ _ c5DecodedEvent (by rfl) (by rfl)

/-! ## Claims C6 and C7 -/

/-- Whenever `fetchProjectEvents` reports an error, it has not touched
the shared state: every error return happens before `addEvents`. -/
theorem fetchError_state_unchanged (out : FetchOutcome) (p : Project) (st : GlobalState)
    (err : FetchError) (h : (fetchProjectEvents out p st).2 = some err) :
    (fetchProjectEvents out p st).1 = st := by
  cases out with
  | transportError => rfl
  | bodyReadError => rfl
  | body s =>
    cases hm : unmarshalEvents s with
    | none => simp [fetchProjectEvents, hm]
    | some evs => simp [fetchProjectEvents, hm] at h

/-- C6: a body that fails to decode as a JSON event array (for example
an HTML error page) makes `fetchProjectEvents` return an error rather
than reach `addEvents`; `watchProject` then logs the error, sleeps one
second, sleeps the regular five seconds, and loops; the loop is total —
after every iteration the next one runs, so no failure is terminal. -/
theorem c6_decode_failure_is_retried :
    (∀ s : String, ∀ p : Project, ∀ st : GlobalState,
      unmarshalEvents s = none →
      fetchProjectEvents (.body s) p st = (st, some .decode))
    ∧ (∀ out : FetchOutcome, ∀ p : Project, ∀ st : GlobalState, ∀ err : FetchError,
      (fetchProjectEvents out p st).2 = some err →
      watchStep out p st = ⟨st, [1, 5], some err⟩)
    ∧ (∀ outs : Nat → FetchOutcome, ∀ p : Project, ∀ st0 : GlobalState, ∀ n : Nat,
      watchRun outs p st0 (n + 1)
        = (watchStep (outs n) p (watchRun outs p st0 n)).state) := by
  refine ⟨fun s p st h => ?_, fun out p st err h => ?_, fun outs p st0 n => rfl⟩
  · simp [fetchProjectEvents, h]
  · have hst := fetchError_state_unchanged out p st err h
    unfold watchStep
    rw [h, hst]

/-- The HTML body a proxy might return on a 504, used by the C6
witness. -/
def htmlBody : String := "<html><body>504 Gateway Time-out</body></html>"

/-- Witness for C6: the HTML error page fails to decode, the state is
kept, the poller sleeps one second plus the regular five, and the loop
goes on to its next iteration. -/
theorem c6_witness :
    unmarshalEvents htmlBody = none ∧
    fetchProjectEvents (.body htmlBody) sampleProjectA initialState
      = (initialState, some .decode) ∧
    watchStep (.body htmlBody) sampleProjectA initialState
      = ⟨initialState, [1, 5], some .decode⟩ ∧
    watchRun (fun _ => .body htmlBody) sampleProjectA initialState 2
      = (watchStep (.body htmlBody) sampleProjectA
          (watchRun (fun _ => .body htmlBody) sampleProjectA initialState 1)).state := by
  have t := c6_decode_failure_is_retried
  exact ⟨rfl, t.1 htmlBody sampleProjectA initialState rfl,
    t.2.1 (.body htmlBody) sampleProjectA initialState .decode rfl,
    t.2.2 (fun _ => .body htmlBody) sampleProjectA initialState 1⟩

/-- C7: when `fetchProjectEvents` fails (connection failure, body-read
failure, or JSON decode failure), the Seen-set and the pending queue
are left completely unchanged; `addEvents` is reached only on a full
successful decode, and then with the prepared (re-serialized) events. -/
theorem c7_state_untouched_on_error (out : FetchOutcome) (p : Project) (st : GlobalState) :
    (∀ err : FetchError, (fetchProjectEvents out p st).2 = some err →
      (fetchProjectEvents out p st).1 = st)
    ∧ ((fetchProjectEvents out p st).2 = none →
      ∃ s : String, ∃ events : List Event,
        out = .body s ∧ unmarshalEvents s = some events ∧
        (fetchProjectEvents out p st).1 = addEvents st (prepareEvents p events)) := by
  refine ⟨fun err h => fetchError_state_unchanged out p st err h, fun h => ?_⟩
  cases out with
  | transportError => simp [fetchProjectEvents] at h
  | bodyReadError => simp [fetchProjectEvents] at h
  | body s =>
    cases hm : unmarshalEvents s with
    | none => simp [fetchProjectEvents, hm] at h
    | some evs => exact ⟨s, evs, rfl, hm, by simp [fetchProjectEvents, hm]⟩

/-- A body that decodes successfully, for the C7 witness. -/
def validBody : String :=
  "[\x7b\"id\":7,\"action_name\":\"opened\",\"created_at\":\"2021-02-02T00:00:00Z\"\x7d]"

/-- Witness for C7: a transport error and a malformed body leave the
initial state untouched; the valid body reaches `addEvents` with the
prepared events. -/
theorem c7_witness :
    (fetchProjectEvents .transportError sampleProjectB initialState).1 = initialState ∧
    (fetchProjectEvents (.body "\x7bnot json") sampleProjectB initialState).1 = initialState ∧
    ∃ s : String, ∃ events : List Event,
      FetchOutcome.body validBody = .body s ∧ unmarshalEvents s = some events ∧
      (fetchProjectEvents (.body validBody) sampleProjectB initialState).1
        = addEvents initialState (prepareEvents sampleProjectB events) := by
  exact ⟨(c7_state_untouched_on_error .transportError sampleProjectB initialState).1
      .transport rfl,
    (c7_state_untouched_on_error (.body "\x7bnot json") sampleProjectB initialState).1
      .decode rfl,
    (c7_state_untouched_on_error (.body validBody) sampleProjectB initialState).2 rfl⟩

/-! ## Claim C8: startup validation in `main`

`main` (lines 191-221) first exits with code 1 if no positional
arguments were given; then it walks the arguments in order, and for
each one parses it with `strconv.ParseInt` — exiting with code 1 on
failure — and immediately spawns that project's poller goroutine before
looking at the next argument.  There is no token check anywhere. -/

/-- Observable startup actions of `main`, in program order.  `os.Exit`
ends the trace. -/
inductive StartupAction where
  | spawnPoller (projectID : Int)
  | exitError (code : Nat) (message : String)
deriving DecidableEq, Repr

/-- The stderr line `Invalid project id %s: %s`. -/
def invalidIDMessage (s msg : String) : String :=
  "Invalid project id " ++ s ++ ": " ++ msg

/-- `Except.isOk` as a plain function. -/
def exceptOk {ε α : Type} : Except ε α → Bool
  | .ok _ => true
  | .error _ => false

/-- The per-argument loop of `main`: parse, exit on failure, spawn the
poller, continue. -/
def startupLoop : List String → List StartupAction
  | [] => []
  | s :: rest =>
    match parseInt64 s with
    | .error msg => [.exitError 1 (invalidIDMessage s msg)]
    | .ok id => .spawnPoller id :: startupLoop rest

/-- The startup phase of `main`: the missing-arguments check followed
by the parse-and-spawn loop. -/
def mainStartup (args : List String) : List StartupAction :=
  if args.isEmpty then [.exitError 1 "Missing project id(s) to watch"]
  else startupLoop args

/-- C8 as stated: whenever the arguments are missing or one of them is
not a valid integer, the program exits non-zero *before any poller
starts* — i.e. the startup trace is just the error exit.  This is
refuted at `["1", "x"]`: the poller for project 1 is spawned inside the
argument loop before the invalid `"x"` is even parsed. -/
theorem c8_counterexample :
    ¬ (∀ args : List String,
        (args = [] ∨ ∃ a ∈ args, exceptOk (parseInt64 a) = false) →
        ∃ code : Nat, ∃ msg : String, code ≠ 0 ∧
          mainStartup args = [StartupAction.exitError code msg]) := by
  intro hclaim
  obtain ⟨code, msg, _, htrace⟩ :=
    hclaim ["1", "x"] (Or.inr ⟨"x", by decide, by decide⟩)
  have hconcrete : mainStartup ["1", "x"]
      = [StartupAction.spawnPoller 1,
         StartupAction.exitError 1 (invalidIDMessage "x"
           "strconv.ParseInt: parsing \"x\": invalid syntax")] := by decide
  rw [hconcrete] at htrace
  simp at htrace

/-- The parse-and-spawn loop on a list whose prefix parses and whose
next element fails: it spawns one poller per prefix element, then exits
with code 1 and processes nothing further. -/
theorem startupLoop_invalid (pre : List String) :
    ∀ s : String, ∀ post : List String, ∀ msgErr : String,
      (∀ a ∈ pre, ∃ v : Int, parseInt64 a = .ok v) →
      parseInt64 s = .error msgErr →
      startupLoop (pre ++ s :: post) =
        pre.map (fun a => .spawnPoller ((parseInt64 a).toOption.getD 0))
          ++ [.exitError 1 (invalidIDMessage s msgErr)] := by
  induction pre with
  | nil =>
    intro s post msgErr _ herr
    simp [startupLoop, herr]
  | cons a pre' ih =>
    intro s post msgErr hok herr
    obtain ⟨v, hv⟩ := hok a (by simp)
    have hrec := ih s post msgErr (fun b hb => hok b (by simp [hb])) herr
    show startupLoop (a :: (pre' ++ s :: post)) = _
    rw [show startupLoop (a :: (pre' ++ s :: post))
        = .spawnPoller v :: startupLoop (pre' ++ s :: post) from by simp [startupLoop, hv]]
    rw [hrec, List.map_cons, hv]
    simp [Except.toOption]

/-- The parse-and-spawn loop on all-valid arguments: one poller per
argument, no exit. -/
theorem startupLoop_all_valid (args : List String)
    (hok : ∀ a ∈ args, ∃ v : Int, parseInt64 a = .ok v) :
    startupLoop args =
      args.map (fun a => .spawnPoller ((parseInt64 a).toOption.getD 0)) := by
  induction args with
  | nil => rfl
  | cons a rest ih =>
    obtain ⟨v, hv⟩ := hok a (by simp)
    have := ih (fun b hb => hok b (by simp [hb]))
    simp [startupLoop, hv, this, Except.toOption]

/-- Both `strconv.ParseInt` failure messages are a fixed prefix naming
the offending string followed by the error kind. -/
theorem parseInt64_error_shape (s msgErr : String)
    (h : parseInt64 s = .error msgErr) :
    msgErr = "strconv.ParseInt: parsing " ++ goQuote s ++ ": invalid syntax" ∨
    msgErr = "strconv.ParseInt: parsing " ++ goQuote s ++ ": value out of range" := by
  simp only [parseInt64] at h
  split at h
  · exact Or.inl (by injection h with h; exact h.symm)
  · split at h
    · split at h
      · exact Or.inr (by injection h with h; exact h.symm)
      · exact absurd h (by simp)
    · exact Or.inl (by injection h with h; exact h.symm)

/-- Does the string contain a newline? -/
def containsNl (s : String) : Bool :=
  s.data.any (fun c => c == '\n')

/-- C8, amended: with no arguments the program prints the one-line
usage error and exits with status 1 before spawning anything; when an
argument fails to parse as an integer, the program prints the one-line
error and exits with status 1 as soon as that argument is reached,
spawning no further pollers — but pollers for valid identifiers earlier
on the command line have already been spawned; with a non-empty
all-valid argument list no exit happens.  (The error line stays a
single line whenever the offending argument itself contains no newline;
the code never checks the token, so a missing token never triggers
this exit.) -/
theorem c8_amended_startup_validation :
    (mainStartup [] = [.exitError 1 "Missing project id(s) to watch"])
    ∧ (∀ pre : List String, ∀ s : String, ∀ post : List String, ∀ msgErr : String,
        (∀ a ∈ pre, ∃ v : Int, parseInt64 a = .ok v) →
        parseInt64 s = .error msgErr →
        mainStartup (pre ++ s :: post) =
          pre.map (fun a => .spawnPoller ((parseInt64 a).toOption.getD 0))
            ++ [.exitError 1 (invalidIDMessage s msgErr)])
    ∧ (∀ args : List String, args ≠ [] →
        (∀ a ∈ args, ∃ v : Int, parseInt64 a = .ok v) →
        ∀ code : Nat, ∀ msg : String, StartupAction.exitError code msg ∉ mainStartup args)
    ∧ (containsNl "Missing project id(s) to watch" = false)
    ∧ (∀ s msgErr : String, parseInt64 s = .error msgErr → containsNl s = false →
        containsNl (invalidIDMessage s msgErr) = false) := by
  refine ⟨by decide, fun pre s post msgErr hok herr => ?_,
    fun args hne hok code msg hmem => ?_, by decide, fun s msgErr herr hs => ?_⟩
  · have hemp : (pre ++ s :: post).isEmpty = false := by
      cases pre <;> simp
    simp only [mainStartup, hemp, Bool.false_eq_true, if_false]
    exact startupLoop_invalid pre s post msgErr hok herr
  · cases args with
    | nil => exact absurd rfl hne
    | cons a rest =>
      rw [show mainStartup (a :: rest) = startupLoop (a :: rest) from by
        simp [mainStartup]] at hmem
      rw [startupLoop_all_valid (a :: rest) hok] at hmem
      obtain ⟨b, _, hb⟩ := List.mem_map.mp hmem
      exact StartupAction.noConfusion hb
  · rcases parseInt64_error_shape s msgErr herr with h | h <;>
      · subst h
        simp only [containsNl, invalidIDMessage, goQuote, String.data_append,
          List.any_append] at hs ⊢
        rw [hs]
        decide

/-- Witness for the amended C8: with arguments `["1", "x"]` the
program spawns the poller for project 1, then exits with status 1 and a
single-line message about `"x"`; with `["1"]` alone no exit action
occurs. -/
theorem c8_witness :
    mainStartup ["1", "x"] =
      [StartupAction.spawnPoller 1,
       StartupAction.exitError 1 (invalidIDMessage "x"
         "strconv.ParseInt: parsing \"x\": invalid syntax")] ∧
    (∀ code : Nat, ∀ msg : String,
      StartupAction.exitError code msg ∉ mainStartup ["1"]) ∧
    containsNl (invalidIDMessage "x"
      "strconv.ParseInt: parsing \"x\": invalid syntax") = false := by
  have t := c8_amended_startup_validation
  have honly1 : ∀ a ∈ ["1"], ∃ v : Int, parseInt64 a = .ok v := by
    intro a ha
    simp only [List.mem_singleton] at ha
    subst ha
    exact ⟨1, rfl⟩
  refine ⟨?_, t.2.2.1 ["1"] (by decide) honly1,
    t.2.2.2.2 "x" _ rfl (by decide)⟩
  have h := t.2.1 ["1"] "x" [] "strconv.ParseInt: parsing \"x\": invalid syntax"
    honly1 rfl
  simpa using h

/-! ## Claim C10: `truncateString` -/

/-- `_GrayColor = "\x1b[38;5;250m"` as bytes (11 bytes). -/
def grayColorBytes : List Nat := 0x1b :: strBytes "[38;5;250m"

/-- `_ResetColor = "\x1b[0m"` as bytes (4 bytes). -/
def resetColorBytes : List Nat := 0x1b :: strBytes "[0m"

/-- `truncateString` (main.go lines 52-59) over the byte content of the
Go string: `len(s)` counts bytes and `s[:maxLen]` slices bytes.  The
`gray`/`reset` parameters stand for the globals `_GrayColor` and
`_ResetColor` (the ANSI codes, or empty when stdout is not a terminal).
`maxLen` is a Go `int`; the template only ever passes 100 and 400. -/
def truncateString (gray reset : List Nat) (s : List Nat) (maxLen : Nat) : List Nat :=
  if s.length ≤ maxLen then s
  else s.take maxLen ++ gray ++ strBytes "..." ++ reset

/-- Is the byte a UTF-8 continuation byte? -/
def contByte (b : Nat) : Bool :=
  0x80 ≤ b ∧ b ≤ 0xBF

/-- Is the byte sequence well-formed UTF-8? -/
def validUTF8 : List Nat → Bool
  | [] => true
  | b :: rest =>
    if b ≤ 0x7F then validUTF8 rest
    else if 0xC2 ≤ b ∧ b ≤ 0xDF then
      match rest with
      | c1 :: rest2 => contByte c1 && validUTF8 rest2
      | [] => false
    else if b = 0xE0 then
      match rest with
      | c1 :: c2 :: rest2 =>
        (decide (0xA0 ≤ c1 ∧ c1 ≤ 0xBF)) && contByte c2 && validUTF8 rest2
      | _ => false
    else if (0xE1 ≤ b ∧ b ≤ 0xEC) ∨ b = 0xEE ∨ b = 0xEF then
      match rest with
      | c1 :: c2 :: rest2 => contByte c1 && contByte c2 && validUTF8 rest2
      | _ => false
    else if b = 0xED then
      match rest with
      | c1 :: c2 :: rest2 =>
        (decide (0x80 ≤ c1 ∧ c1 ≤ 0x9F)) && contByte c2 && validUTF8 rest2
      | _ => false
    else if b = 0xF0 then
      match rest with
      | c1 :: c2 :: c3 :: rest2 =>
        (decide (0x90 ≤ c1 ∧ c1 ≤ 0xBF)) && contByte c2 && contByte c3 && validUTF8 rest2
      | _ => false
    else if 0xF1 ≤ b ∧ b ≤ 0xF3 then
      match rest with
      | c1 :: c2 :: c3 :: rest2 =>
        contByte c1 && contByte c2 && contByte c3 && validUTF8 rest2
      | _ => false
    else if b = 0xF4 then
      match rest with
      | c1 :: c2 :: c3 :: rest2 =>
        (decide (0x80 ≤ c1 ∧ c1 ≤ 0x8F)) && contByte c2 && contByte c3 && validUTF8 rest2
      | _ => false
    else false

/-- C10: `truncateString` measures length in bytes.  A string of at
most `maxLen` bytes is returned unchanged; a longer one becomes its
first `maxLen` bytes — which can split a multi-byte UTF-8 character,
leaving an invalid UTF-8 prefix, as the `é` example shows — followed by
`...` wrapped in the gray and reset ANSI codes, so with colors enabled
the output is `maxLen + 18` bytes, exceeding `maxLen + 3`. -/
theorem c10_truncateString_bytes :
    (∀ (s : List Nat) (maxLen : Nat),
      (s.length ≤ maxLen → truncateString grayColorBytes resetColorBytes s maxLen = s)
      ∧ (maxLen < s.length →
          truncateString grayColorBytes resetColorBytes s maxLen
            = s.take maxLen ++ grayColorBytes ++ strBytes "..." ++ resetColorBytes
          ∧ (truncateString grayColorBytes resetColorBytes s maxLen).length = maxLen + 18
          ∧ maxLen + 3 < (truncateString grayColorBytes resetColorBytes s maxLen).length))
    ∧ (validUTF8 (strBytes "é") = true
       ∧ validUTF8 ((strBytes "é").take 1) = false
       ∧ truncateString grayColorBytes resetColorBytes (strBytes "é") 1
           = 0xC3 :: (grayColorBytes ++ strBytes "..." ++ resetColorBytes)) := by
  refine ⟨fun s maxLen => ⟨fun hle => ?_, fun hgt => ?_⟩, by decide, by decide, by decide⟩
  · simp [truncateString, hle]
  · have hnot : ¬ s.length ≤ maxLen := by omega
    have heq : truncateString grayColorBytes resetColorBytes s maxLen
        = s.take maxLen ++ grayColorBytes ++ strBytes "..." ++ resetColorBytes := by
      simp [truncateString, hnot]
    have hlen : (s.take maxLen ++ grayColorBytes ++ strBytes "..."
        ++ resetColorBytes).length = maxLen + 18 := by
      have hg : grayColorBytes.length = 11 := by decide
      have hr : resetColorBytes.length = 4 := by decide
      have hdots : (strBytes "...").length = 3 := by decide
      simp only [List.length_append, List.length_take, hg, hr, hdots]
      omega
    refine ⟨heq, ?_, ?_⟩
    · rw [heq, hlen]
    · rw [heq, hlen]
      omega

/-- Witness for C10: a short string passes through unchanged, a longer
one is cut at the byte count with the colored ellipsis appended. -/
theorem c10_witness :
    truncateString grayColorBytes resetColorBytes (strBytes "hello world") 50
      = strBytes "hello world" ∧
    truncateString grayColorBytes resetColorBytes (strBytes "hello world") 5
      = strBytes "hello" ++ grayColorBytes ++ strBytes "..." ++ resetColorBytes ∧
    (truncateString grayColorBytes resetColorBytes (strBytes "hello world") 5).length
      = 23 := by
  have t := c10_truncateString_bytes.1 (strBytes "hello world")
  have h1 := (t 50).1 (by decide)
  have h2 := (t 5).2 (by decide)
  refine ⟨h1, ?_, h2.2.1⟩
  rw [h2.1]
  decide

/-! ## Claim C4: the renderer's sort

The renderer sorts each drained batch with
`sort.Slice(events, func(i, j int) bool { return events[i].CreatedAt < events[j].CreatedAt })`
(main.go line 232).  `sort.Slice` runs the `sort` package's in-place
quicksort (`quickSort`, with `insertionSort` plus a gap-6 shell pass
for ranges of at most 12 elements, `doPivot` partitioning, and a
`heapSort` fallback at depth `maxDepth`), which is documented as not
guaranteed to be stable.  We embed that algorithm verbatim, generically
in a sort key `key : α → K` over a linear order — the renderer
instantiates `key` with `Event.createdAt` (Go's `<` on strings is
lexicographic byte order, which agrees with Lean's `String` order on
UTF-8 text).  Loops are written with explicit fuel; every fuel budget
is generous enough that the fuel never runs out on the paths the
algorithm takes (proved in the lemmas below). -/

/-- A Go string as compared by Go's `<`: lexicographic order on the
character sequence (byte order and code-point order agree on UTF-8
text).  A separate type so that it can carry a `LinearOrder` instance
whose comparisons evaluate by kernel reduction. -/
structure ByteStr where
  chars : List Char
deriving DecidableEq, Repr

/-- Strict lexicographic comparison of character lists. -/
def charListLtB : List Char → List Char → Bool
  | [], [] => false
  | [], _ :: _ => true
  | _ :: _, [] => false
  | a :: as, b :: bs => if a < b then true else if b < a then false else charListLtB as bs

/-- Non-strict lexicographic comparison of character lists. -/
def charListLeB : List Char → List Char → Bool
  | [], _ => true
  | _ :: _, [] => false
  | a :: as, b :: bs => if a < b then true else if b < a then false else charListLeB as bs

theorem charListLeB_refl (l : List Char) : charListLeB l l = true := by
  induction l with
  | nil => rfl
  | cons a as ih => simp [charListLeB, lt_irrefl, ih]

theorem charListLeB_total (l m : List Char) :
    charListLeB l m = true ∨ charListLeB m l = true := by
  induction l generalizing m with
  | nil => exact Or.inl rfl
  | cons a as ih =>
    cases m with
    | nil => exact Or.inr rfl
    | cons b bs =>
      rcases lt_trichotomy a b with h | h | h
      · exact Or.inl (by simp [charListLeB, h])
      · subst h
        rcases ih bs with h2 | h2
        · exact Or.inl (by simp [charListLeB, lt_irrefl, h2])
        · exact Or.inr (by simp [charListLeB, lt_irrefl, h2])
      · exact Or.inr (by simp [charListLeB, h])

theorem charListLeB_antisymm (l m : List Char) (h1 : charListLeB l m = true)
    (h2 : charListLeB m l = true) : l = m := by
  induction l generalizing m with
  | nil =>
    cases m with
    | nil => rfl
    | cons b bs => simp [charListLeB] at h2
  | cons a as ih =>
    cases m with
    | nil => simp [charListLeB] at h1
    | cons b bs =>
      rcases lt_trichotomy a b with h | h | h
      · simp [charListLeB, h, not_lt_of_gt h] at h2
      · subst h
        simp only [charListLeB, lt_irrefl, if_false] at h1 h2
        rw [ih bs h1 h2]
      · simp [charListLeB, h, not_lt_of_gt h] at h1

theorem charListLeB_trans (l m n : List Char) (h1 : charListLeB l m = true)
    (h2 : charListLeB m n = true) : charListLeB l n = true := by
  induction l generalizing m n with
  | nil => rfl
  | cons a as ih =>
    cases m with
    | nil => simp [charListLeB] at h1
    | cons b bs =>
      cases n with
      | nil => simp [charListLeB] at h2
      | cons c cs =>
        rcases lt_trichotomy a b with hab | hab | hab
        · rcases lt_trichotomy b c with hbc | hbc | hbc
          · simp [charListLeB, lt_trans hab hbc]
          · subst hbc
            simp [charListLeB, hab]
          · simp [charListLeB, not_lt_of_gt hbc, hbc] at h2
        · subst hab
          rcases lt_trichotomy a c with hac | hac | hac
          · simp [charListLeB, hac]
          · subst hac
            simp only [charListLeB, lt_irrefl, if_false] at h1 h2 ⊢
            exact ih bs cs h1 h2
          · simp [charListLeB, not_lt_of_gt hac, hac] at h2
        · simp [charListLeB, not_lt_of_gt hab, hab] at h1

theorem charListLtB_iff (l m : List Char) :
    charListLtB l m = true ↔ (charListLeB l m = true ∧ ¬ charListLeB m l = true) := by
  induction l generalizing m with
  | nil =>
    cases m with
    | nil => simp [charListLtB, charListLeB]
    | cons b bs => simp [charListLtB, charListLeB]
  | cons a as ih =>
    cases m with
    | nil => simp [charListLtB, charListLeB]
    | cons b bs =>
      rcases lt_trichotomy a b with h | h | h
      · simp [charListLtB, charListLeB, h, not_lt_of_gt h]
      · subst h
        simp [charListLtB, charListLeB, lt_irrefl, ih bs]
      · simp [charListLtB, charListLeB, h, not_lt_of_gt h]

instance : LinearOrder ByteStr where
  le a b := charListLeB a.chars b.chars = true
  lt a b := charListLtB a.chars b.chars = true
  le_refl a := charListLeB_refl a.chars
  le_trans a b c := charListLeB_trans a.chars b.chars c.chars
  le_antisymm a b h1 h2 := by
    cases a
    cases b
    simpa using charListLeB_antisymm _ _ h1 h2
  le_total a b := charListLeB_total a.chars b.chars
  lt_iff_le_not_le a b := charListLtB_iff a.chars b.chars
  decidableLE a b := inferInstanceAs (Decidable (_ = true))
  decidableLT a b := inferInstanceAs (Decidable (_ = true))

/-- The renderer's comparison key: `events[i].CreatedAt` under Go's
string `<`. -/
def createdAtKey (e : Event) : ByteStr :=
  ⟨e.createdAt.data⟩

section GoSort

variable {K : Type} [LinearOrder K] {α : Type} [Inhabited α]

/-- Read `data[i]` (all reads the algorithm performs are in bounds). -/
def aget (arr : Array α) (i : Nat) : α :=
  arr.getD i default

/-- `data.Swap(i, j)` (all swaps the algorithm performs are in
bounds). -/
def aswap (arr : Array α) (i j : Nat) : Array α :=
  if h : i < arr.size ∧ j < arr.size then arr.swap ⟨i, h.1⟩ ⟨j, h.2⟩ else arr

/-- The inner loop of `insertionSort`:
`for j := i; j > a && data.Less(j, j-1); j--  { data.Swap(j, j-1) }`. -/
def insertInner (key : α → K) (a : Nat) : Array α → Nat → Array α
  | arr, 0 => arr
  | arr, j + 1 =>
    if a ≤ j ∧ key (aget arr (j + 1)) < key (aget arr j) then
      insertInner key a (aswap arr (j + 1) j) j
    else arr

/-- The outer loop of `insertionSort`: `for i := a + 1; i < b; i++`. -/
def insertOuter (key : α → K) (a b : Nat) : Nat → Array α → Nat → Array α
  | 0, arr, _ => arr
  | fuel + 1, arr, i =>
    if i < b then insertOuter key a b fuel (insertInner key a arr i) (i + 1) else arr

/-- `insertionSort(data, a, b)` from Go's sort package. -/
def insertionSort (key : α → K) (arr : Array α) (a b : Nat) : Array α :=
  insertOuter key a b b arr (a + 1)

/-- `siftDown(data, lo, hi, first)` from Go's sort package (the `lo`
argument is the starting root, passed last here). -/
def siftDown (key : α → K) (first hi : Nat) : Nat → Array α → Nat → Array α
  | 0, arr, _ => arr
  | fuel + 1, arr, root =>
    let child0 := 2 * root + 1
    if child0 ≥ hi then arr
    else
      let child :=
        if child0 + 1 < hi ∧
            key (aget arr (first + child0)) < key (aget arr (first + child0 + 1)) then
          child0 + 1
        else child0
      if key (aget arr (first + root)) < key (aget arr (first + child)) then
        siftDown key first hi fuel (aswap arr (first + root) (first + child)) child
      else arr

/-- The heap-construction loop of `heapSort`:
`for i := (hi - 1) / 2; i >= 0; i--`; the counter argument is `i + 1`. -/
def heapBuild (key : α → K) (first hi : Nat) : Nat → Array α → Array α
  | 0, arr => arr
  | i + 1, arr => heapBuild key first hi i (siftDown key first hi hi arr i)

/-- The extraction loop of `heapSort`:
`for i := hi - 1; i > 0; i-- { data.Swap(first, first+i); siftDown(data, lo, i, first) }`;
the counter argument is `i`. -/
def heapExtract (key : α → K) (first : Nat) : Nat → Array α → Array α
  | 0, arr => arr
  | i + 1, arr =>
    heapExtract key first i
      (siftDown key first (i + 1) (i + 2) (aswap arr first (first + (i + 1))) 0)

/-- `heapSort(data, a, b)` from Go's sort package. -/
def heapSort (key : α → K) (arr : Array α) (a b : Nat) : Array α :=
  heapExtract key a (b - a - 1) (heapBuild key a (b - a) ((b - a - 1) / 2 + 1) arr)

/-- `if data.Less(m1, m0) { data.Swap(m1, m0) }`: the two-element
ordering step used (three times) by `medianOfThree`. -/
def mot3 (key : α → K) (arr : Array α) (m1 m0 : Nat) : Array α :=
  if key (aget arr m1) < key (aget arr m0) then aswap arr m1 m0 else arr

/-- `medianOfThree(data, m1, m0, m2)` from Go's sort package: sort the
three elements so that `data[m0] <= data[m1] <= data[m2]`. -/
def medianOfThree (key : α → K) (arr : Array α) (m1 m0 m2 : Nat) : Array α :=
  if key (aget (mot3 key arr m1 m0) m2) < key (aget (mot3 key arr m1 m0) m1) then
    mot3 key (aswap (mot3 key arr m1 m0) m2 m1) m1 m0
  else mot3 key arr m1 m0

/-- `for ; a < c && data.Less(a, pivot); a++`. -/
def scanA (key : α → K) (arr : Array α) (pivot c : Nat) : Nat → Nat → Nat
  | 0, a => a
  | fuel + 1, a =>
    if a < c ∧ key (aget arr a) < key (aget arr pivot) then
      scanA key arr pivot c fuel (a + 1)
    else a

/-- `for ; b < c && !data.Less(pivot, b); b++`. -/
def scanB (key : α → K) (arr : Array α) (pivot c : Nat) : Nat → Nat → Nat
  | 0, b => b
  | fuel + 1, b =>
    if b < c ∧ ¬ key (aget arr pivot) < key (aget arr b) then
      scanB key arr pivot c fuel (b + 1)
    else b

/-- `for ; b < c && data.Less(pivot, c-1); c--`. -/
def scanC (key : α → K) (arr : Array α) (pivot b : Nat) : Nat → Nat → Nat
  | 0, c => c
  | fuel + 1, c =>
    if b < c ∧ key (aget arr pivot) < key (aget arr (c - 1)) then
      scanC key arr pivot b fuel (c - 1)
    else c

/-- The main partition loop of `doPivot`. -/
def partLoop (key : α → K) (pivot : Nat) : Nat → Array α → Nat → Nat → Array α × Nat × Nat
  | 0, arr, b, c => (arr, b, c)
  | fuel + 1, arr, b, c =>
    let b1 := scanB key arr pivot c c b
    let c1 := scanC key arr pivot b1 c c
    if b1 ≥ c1 then (arr, b1, c1)
    else partLoop key pivot fuel (aswap arr b1 (c1 - 1)) (b1 + 1) (c1 - 1)

/-- `for ; a < b && !data.Less(b-1, pivot); b--` (protect section). -/
def scanBDown (key : α → K) (arr : Array α) (pivot a : Nat) : Nat → Nat → Nat
  | 0, b => b
  | fuel + 1, b =>
    if a < b ∧ ¬ key (aget arr (b - 1)) < key (aget arr pivot) then
      scanBDown key arr pivot a fuel (b - 1)
    else b

/-- `for ; a < b && data.Less(a, pivot); a++` (protect section). -/
def scanAUp (key : α → K) (arr : Array α) (pivot b : Nat) : Nat → Nat → Nat
  | 0, a => a
  | fuel + 1, a =>
    if a < b ∧ key (aget arr a) < key (aget arr pivot) then
      scanAUp key arr pivot b fuel (a + 1)
    else a

/-- The duplicate-protection loop of `doPivot`. -/
def protLoop (key : α → K) (pivot : Nat) : Nat → Array α → Nat → Nat → Array α × Nat × Nat
  | 0, arr, a, b => (arr, a, b)
  | fuel + 1, arr, a, b =>
    let b1 := scanBDown key arr pivot a b b
    let a1 := scanAUp key arr pivot b1 b a
    if a1 ≥ b1 then (arr, a1, b1)
    else protLoop key pivot fuel (aswap arr a1 (b1 - 1)) (a1 + 1) (b1 - 1)

/-- The Ninther pivot refinement of `doPivot` (`if hi-lo > 40`)
followed by the unconditional `medianOfThree(data, lo, m, hi-1)`. -/
def pivotInit (key : α → K) (arr0 : Array α) (lo hi : Nat) : Array α :=
  medianOfThree key
    (if hi - lo > 40 then
      medianOfThree key
        (medianOfThree key
          (medianOfThree key arr0 lo (lo + (hi - lo) / 8) (lo + 2 * ((hi - lo) / 8)))
          ((lo + hi) / 2) ((lo + hi) / 2 - (hi - lo) / 8) ((lo + hi) / 2 + (hi - lo) / 8))
        (hi - 1) (hi - 1 - (hi - lo) / 8) (hi - 1 - 2 * ((hi - lo) / 8))
    else arr0)
    lo ((lo + hi) / 2) (hi - 1)

/-- `if !data.Less(pivot, hi-1) { data.Swap(c, hi-1); c++; dups++ }`:
first probe of the duplicate test, returning `(data, c, dups)`. -/
def dupA (key : α → K) (lo hi c1 : Nat) (arr3 : Array α) : Array α × Nat × Nat :=
  if ¬ key (aget arr3 lo) < key (aget arr3 (hi - 1)) then
    (aswap arr3 c1 (hi - 1), c1 + 1, 1)
  else (arr3, c1, 0)

/-- `if !data.Less(b-1, pivot) { b--; dups++ }`: second probe of the
duplicate test, returning `(data, b, c, dups)`. -/
def dupB (key : α → K) (lo b1 : Nat) (p : Array α × Nat × Nat) : Array α × Nat × Nat × Nat :=
  if ¬ key (aget p.1 (b1 - 1)) < key (aget p.1 lo) then
    (p.1, b1 - 1, p.2.1, p.2.2 + 1)
  else (p.1, b1, p.2.1, p.2.2)

/-- `if !data.Less(m, pivot) { data.Swap(m, b-1); b--; dups++ }` and the
final `protect = dups > 1`, returning `(data, b, c, protect)`. -/
def dupC (key : α → K) (lo m : Nat) (q : Array α × Nat × Nat × Nat) : Array α × Nat × Nat × Bool :=
  if ¬ key (aget q.1 m) < key (aget q.1 lo) then
    (aswap q.1 m (q.2.1 - 1), q.2.1 - 1, q.2.2.1, decide (q.2.2.2 + 1 > 1))
  else (q.1, q.2.1, q.2.2.1, decide (q.2.2.2 > 1))

/-- The `if !protect && hi-c < (hi-lo)/4` duplicate-probing section of
`doPivot`, taking the partition result `(data, b, c)` and returning
`(data, b, c, protect)`. -/
def dupSection (key : α → K) (lo hi m b1 c1 : Nat) (arr3 : Array α) :
    Array α × Nat × Nat × Bool :=
  if ¬ hi - c1 < 5 ∧ hi - c1 < (hi - lo) / 4 then
    dupC key lo m (dupB key lo b1 (dupA key lo hi c1 arr3))
  else (arr3, b1, c1, decide (hi - c1 < 5))

/-- The `if protect` loop of `doPivot`, returning the final `(data, b)`. -/
def protSection (key : α → K) (lo hi a0 : Nat) (s4 : Array α × Nat × Nat × Bool) :
    Array α × Nat :=
  if s4.2.2.2 then
    ((protLoop key lo hi s4.1 a0 s4.2.1).1, (protLoop key lo hi s4.1 a0 s4.2.1).2.2)
  else (s4.1, s4.2.1)

/-- The closing `data.Swap(pivot, b-1); return b-1, c` of `doPivot`. -/
def dpFinish (key : α → K) (lo c : Nat) (s5 : Array α × Nat) : Array α × Nat × Nat :=
  (aswap s5.1 lo (s5.2 - 1), s5.2 - 1, c)

/-- The pivot choice, initial `a` scan and partition loop of `doPivot`
(`a, c := lo+1, hi-1` with `pivot := lo`), returning `(data, b, c)`. -/
def doPivotPart (key : α → K) (arr0 : Array α) (lo hi : Nat) : Array α × Nat × Nat :=
  partLoop key lo hi (pivotInit key arr0 lo hi)
    (scanA key (pivotInit key arr0 lo hi) lo (hi - 1) hi (lo + 1)) (hi - 1)

/-- The duplicate-probing stage of `doPivot` applied to the partition
result (`m := (lo + hi) / 2`). -/
def doPivotS4 (key : α → K) (arr0 : Array α) (lo hi : Nat) : Array α × Nat × Nat × Bool :=
  dupSection key lo hi ((lo + hi) / 2) (doPivotPart key arr0 lo hi).2.1
    (doPivotPart key arr0 lo hi).2.2 (doPivotPart key arr0 lo hi).1

/-- `doPivot(data, lo, hi)` from Go's sort package, returning the
mutated data and `(midlo, midhi)`. -/
def doPivot (key : α → K) (arr0 : Array α) (lo hi : Nat) : Array α × Nat × Nat :=
  dpFinish key lo (doPivotS4 key arr0 lo hi).2.2.1
    (protSection key lo hi (scanA key (pivotInit key arr0 lo hi) lo (hi - 1) hi (lo + 1))
      (doPivotS4 key arr0 lo hi))

/-- The gap-6 shell-sort pass of `quickSort` for short ranges:
`for i := a + 6; i < b; i++ { if data.Less(i, i-6) { data.Swap(i, i-6) } }`. -/
def shellPass (key : α → K) (b : Nat) : Nat → Array α → Nat → Array α
  | 0, arr, _ => arr
  | fuel + 1, arr, i =>
    if i < b then
      shellPass key b fuel
        (if key (aget arr i) < key (aget arr (i - 6)) then aswap arr i (i - 6) else arr)
        (i + 1)
    else arr

/-- The `b-a <= 12` tail of `quickSort`: a gap-6 shell pass followed by
insertion sort (nothing for ranges of at most one element). -/
def smallSort (key : α → K) (arr : Array α) (a b : Nat) : Array α :=
  if b - a > 1 then insertionSort key (shellPass key b b arr (a + 6)) a b else arr

/-- `quickSort(data, a, b, maxDepth)` from Go's sort package.  The
`maxDepth` counter is the recursion fuel: Go decrements it once per
iteration of the outer loop and passes the decremented value to the
recursive call, switching to `heapSort` when it reaches zero. -/
def quickSort (key : α → K) : Array α → Nat → Nat → Nat → Array α
  | arr, a, b, 0 =>
    if b - a > 12 then heapSort key arr a b else smallSort key arr a b
  | arr, a, b, d + 1 =>
    if b - a > 12 then
      let r := doPivot key arr a b
      let arr1 := r.1
      let mlo := r.2.1
      let mhi := r.2.2
      if mlo - a < b - mhi then
        quickSort key (quickSort key arr1 a mlo d) mhi b d
      else
        quickSort key (quickSort key arr1 mhi b d) a mlo d
    else smallSort key arr a b

/-- Binary length of `n` (the loop `for i := n; i > 0; i >>= 1`),
written with fuel so that it evaluates by kernel reduction. -/
def bitLenAux : Nat → Nat → Nat
  | 0, _ => 0
  | fuel + 1, n => if n > 0 then bitLenAux fuel (n / 2) + 1 else 0

/-- `maxDepth(n) = 2 * ceil(lg(n+1))` from Go's sort package. -/
def maxDepth (n : Nat) : Nat :=
  2 * bitLenAux n n

/-- `sort.Slice(x, less)`: `quickSort(lessSwap{less, swap}, 0, length,
maxDepth(length))`. -/
def sortSlice (key : α → K) (arr : Array α) : Array α :=
  quickSort key arr 0 arr.size (maxDepth arr.size)

/-! ### Basic facts about `aget` and `aswap` -/

theorem aget_eq_getElem (arr : Array α) (i : Nat) (h : i < arr.size) :
    aget arr i = arr[i] := by
  unfold aget Array.getD
  split
  · rfl
  · omega

theorem aget_default (arr : Array α) (i : Nat) (h : ¬ i < arr.size) :
    aget arr i = default := by
  unfold aget Array.getD
  split
  · omega
  · rfl

theorem size_aswap (arr : Array α) (i j : Nat) : (aswap arr i j).size = arr.size := by
  unfold aswap
  split
  · exact Array.size_swap arr _ _
  · rfl

theorem aswap_oob (arr : Array α) (i j : Nat) (h : ¬ (i < arr.size ∧ j < arr.size)) :
    aswap arr i j = arr := by
  unfold aswap
  split
  · omega
  · rfl

theorem aget_aswap_fst (arr : Array α) (i j : Nat)
    (hi : i < arr.size) (hj : j < arr.size) :
    aget (aswap arr i j) i = aget arr j := by
  unfold aswap
  rw [dif_pos ⟨hi, hj⟩]
  rw [aget_eq_getElem _ _ (by rw [Array.size_swap]; exact hi),
    aget_eq_getElem _ _ hj]
  rw [Array.getElem_swap]
  simp

theorem aget_aswap_snd (arr : Array α) (i j : Nat)
    (hi : i < arr.size) (hj : j < arr.size) :
    aget (aswap arr i j) j = aget arr i := by
  unfold aswap
  rw [dif_pos ⟨hi, hj⟩]
  rw [aget_eq_getElem _ _ (by rw [Array.size_swap]; exact hj),
    aget_eq_getElem _ _ hi]
  rw [Array.getElem_swap]
  by_cases h : j = i
  · subst h
    simp
  · simp [h]

theorem aget_aswap_other (arr : Array α) (i j k : Nat)
    (hki : k ≠ i) (hkj : k ≠ j) :
    aget (aswap arr i j) k = aget arr k := by
  unfold aswap
  split
  · by_cases hk : k < arr.size
    · rw [aget_eq_getElem _ _ (by rw [Array.size_swap]; exact hk),
        aget_eq_getElem _ _ hk]
      rw [Array.getElem_swap]
      simp [hki, hkj]
    · rw [aget_default _ _ (by rw [Array.size_swap]; exact hk), aget_default _ _ hk]
  · rfl

/-- Exchanging two positions of a list is a permutation. -/
theorem list_set_swap_perm : ∀ (l : List α) (i j : Nat) (hi : i < l.length)
    (hj : j < l.length), ((l.set i (l.get ⟨j, hj⟩)).set j (l.get ⟨i, hi⟩)).Perm l := by
  have key1 : ∀ (t : List α) (m : Nat) (hm : m < t.length) (x : α),
      (t.get ⟨m, hm⟩ :: t.set m x).Perm (x :: t) := by
    intro t
    induction t with
    | nil => intro m hm x; simp at hm
    | cons b t' ih =>
      intro m hm x
      cases m with
      | zero => simpa using List.Perm.swap x b t'
      | succ m' =>
        have hm' : m' < t'.length := by simpa using hm
        have e1 : ((b :: t').get ⟨m' + 1, hm⟩ :: (b :: t').set (m' + 1) x)
            = t'.get ⟨m', hm'⟩ :: b :: t'.set m' x := by simp
        rw [e1]
        exact ((List.Perm.swap b (t'.get ⟨m', hm'⟩) (t'.set m' x)).trans
          (List.Perm.cons b (ih m' hm' x))).trans (List.Perm.swap x b t')
  intro l i j hi hj
  induction l generalizing i j with
  | nil => simp at hi
  | cons a t ih =>
    cases i with
    | zero =>
      cases j with
      | zero => simp
      | succ j' =>
        have hj' : j' < t.length := by simpa using hj
        have : ((a :: t).set 0 ((a :: t).get ⟨j' + 1, hj⟩)).set (j' + 1) ((a :: t).get ⟨0, hi⟩)
            = t.get ⟨j', hj'⟩ :: t.set j' a := by simp
        rw [this]
        exact (key1 t j' hj' a).trans (List.Perm.refl _)
    | succ i' =>
      cases j with
      | zero =>
        have hi' : i' < t.length := by simpa using hi
        have : ((a :: t).set (i' + 1) ((a :: t).get ⟨0, hj⟩)).set 0 ((a :: t).get ⟨i' + 1, hi⟩)
            = t.get ⟨i', hi'⟩ :: t.set i' a := by simp
        rw [this]
        exact key1 t i' hi' a
      | succ j' =>
        have hi' : i' < t.length := by simpa using hi
        have hj' : j' < t.length := by simpa using hj
        have : ((a :: t).set (i' + 1) ((a :: t).get ⟨j' + 1, hj⟩)).set (j' + 1)
              ((a :: t).get ⟨i' + 1, hi⟩)
            = a :: (t.set i' (t.get ⟨j', hj'⟩)).set j' (t.get ⟨i', hi'⟩) := by simp
        rw [this]
        exact List.Perm.cons a (ih i' j' hi' hj')

theorem toList_aswap_perm (arr : Array α) (i j : Nat) :
    (aswap arr i j).toList.Perm arr.toList := by
  by_cases h : i < arr.size ∧ j < arr.size
  · unfold aswap
    rw [dif_pos h, Array.toList_swap]
    have hi : i < arr.toList.length := by simpa [Array.length_toList] using h.1
    have hj : j < arr.toList.length := by simpa [Array.length_toList] using h.2
    have hgi : arr.get ⟨j, h.2⟩ = arr.toList.get ⟨j, hj⟩ := rfl
    have hgj : arr.get ⟨i, h.1⟩ = arr.toList.get ⟨i, hi⟩ := rfl
    rw [hgi, hgj]
    exact list_set_swap_perm arr.toList i j hi hj
  · rw [aswap_oob arr i j h]

/-! ### Range-confined permutations and range sortedness -/

/-- Keys are non-decreasing across the index range `[a, b)`. -/
def sortedRange (key : α → K) (arr : Array α) (a b : Nat) : Prop :=
  ∀ i j, a ≤ i → i ≤ j → j < b → key (aget arr i) ≤ key (aget arr j)

/-- `out` is `arr` with the segment `[a, b)` permuted: same size, a
permutation overall, and untouched outside `[a, b)`. -/
def RangeOp (arr out : Array α) (a b : Nat) : Prop :=
  out.size = arr.size ∧ out.toList.Perm arr.toList ∧
    ∀ i, i < a ∨ b ≤ i → aget out i = aget arr i

theorem RangeOp.refl (arr : Array α) (a b : Nat) : RangeOp arr arr a b :=
  ⟨rfl, List.Perm.refl _, fun _ _ => rfl⟩

theorem RangeOp.trans {arr1 arr2 arr3 : Array α} {a b : Nat}
    (h1 : RangeOp arr1 arr2 a b) (h2 : RangeOp arr2 arr3 a b) :
    RangeOp arr1 arr3 a b :=
  ⟨h2.1.trans h1.1, h2.2.1.trans h1.2.1,
    fun i hi => (h2.2.2 i hi).trans (h1.2.2 i hi)⟩

theorem RangeOp.mono {arr out : Array α} {a b a' b' : Nat}
    (ha : a' ≤ a) (hb : b ≤ b') (h : RangeOp arr out a b) :
    RangeOp arr out a' b' :=
  ⟨h.1, h.2.1, fun i hi => h.2.2 i (by omega)⟩

theorem RangeOp.ofSwap {arr : Array α} {a b i j : Nat}
    (hia : a ≤ i) (hib : i < b) (hja : a ≤ j) (hjb : j < b) :
    RangeOp arr (aswap arr i j) a b :=
  ⟨size_aswap arr i j, toList_aswap_perm arr i j,
    fun k hk => aget_aswap_other arr i j k (by omega) (by omega)⟩

/-- The slice `data[a:b]` as a list. -/
def rangeList (arr : Array α) (a b : Nat) : List α :=
  (arr.toList.drop a).take (b - a)

theorem rangeList_getElem (arr : Array α) (a b i : Nat) (h1 : a ≤ i) (h2 : i < b)
    (h3 : i < arr.size) : aget arr i ∈ rangeList arr a b := by
  unfold rangeList
  have hlen : arr.toList.length = arr.size := Array.length_toList
  have hmem : i - a < ((arr.toList.drop a).take (b - a)).length := by
    rw [List.length_take, List.length_drop, hlen]
    omega
  have heq : ((arr.toList.drop a).take (b - a))[i - a] = aget arr i := by
    rw [List.getElem_take, List.getElem_drop]
    rw [aget_eq_getElem arr i h3, Array.getElem_eq_getElem_toList h3]
    congr 1
    omega
  rw [← heq]
  exact List.getElem_mem hmem

theorem exists_index_of_mem_rangeList (arr : Array α) (a b : Nat) {x : α}
    (h : x ∈ rangeList arr a b) :
    ∃ i, a ≤ i ∧ i < b ∧ i < arr.size ∧ aget arr i = x := by
  unfold rangeList at h
  obtain ⟨m, hm, hx⟩ := List.getElem_of_mem h
  have hlen : arr.toList.length = arr.size := Array.length_toList
  have hmlen := hm
  rw [List.length_take, List.length_drop, hlen] at hmlen
  have hbounds := lt_inf_iff.mp hmlen
  rw [List.getElem_take, List.getElem_drop] at hx
  refine ⟨a + m, by omega, by omega, by omega, ?_⟩
  rw [aget_eq_getElem arr _ (by omega), Array.getElem_eq_getElem_toList (by omega)]
  exact hx

theorem RangeOp.take_eq {arr out : Array α} {a b : Nat} (h : RangeOp arr out a b) :
    out.toList.take a = arr.toList.take a := by
  have hsize : out.toList.length = arr.toList.length := by
    rw [Array.length_toList, Array.length_toList, h.1]
  apply List.ext_getElem
  · rw [List.length_take, List.length_take, hsize]
  · intro i hi1 hi2
    rw [List.getElem_take, List.getElem_take]
    have hi : i < arr.toList.length := by
      rw [List.length_take] at hi2
      have := lt_inf_iff.mp hi2
      exact this.2
    have hia : i < a := by
      rw [List.length_take] at hi2
      exact (lt_inf_iff.mp hi2).1
    have := h.2.2 i (Or.inl hia)
    rw [aget_eq_getElem out i (by rw [h.1, ← Array.length_toList]; exact hi),
      aget_eq_getElem arr i (by rw [← Array.length_toList]; exact hi)] at this
    rw [Array.getElem_eq_getElem_toList, Array.getElem_eq_getElem_toList] at this
    exact this

theorem RangeOp.drop_eq {arr out : Array α} {a b : Nat} (h : RangeOp arr out a b) :
    out.toList.drop b = arr.toList.drop b := by
  have hsize : out.toList.length = arr.toList.length := by
    rw [Array.length_toList, Array.length_toList, h.1]
  apply List.ext_getElem
  · rw [List.length_drop, List.length_drop, hsize]
  · intro i hi1 hi2
    rw [List.getElem_drop, List.getElem_drop]
    have hi : b + i < arr.toList.length := by
      rw [List.length_drop] at hi2
      omega
    have := h.2.2 (b + i) (Or.inr (by omega))
    rw [aget_eq_getElem out _ (by rw [h.1, ← Array.length_toList]; exact hi),
      aget_eq_getElem arr _ (by rw [← Array.length_toList]; exact hi)] at this
    rw [Array.getElem_eq_getElem_toList, Array.getElem_eq_getElem_toList] at this
    exact this

theorem RangeOp.rangePerm {arr out : Array α} {a b : Nat} (h : RangeOp arr out a b) :
    (rangeList out a b).Perm (rangeList arr a b) := by
  rcases le_or_lt b a with hba | hab
  · unfold rangeList
    rw [Nat.sub_eq_zero_of_le hba]
    simp
  · have hdecomp : ∀ L : List α,
        L = L.take a ++ ((L.drop a).take (b - a) ++ L.drop b) := by
      intro L
      conv_lhs => rw [← List.take_append_drop a L]
      congr 1
      conv_lhs => rw [← List.take_append_drop (b - a) (L.drop a)]
      congr 1
      rw [List.drop_drop]
      congr 1
      omega
    have hperm := h.2.1
    rw [hdecomp out.toList, hdecomp arr.toList, h.take_eq, h.drop_eq] at hperm
    have h1 := (List.perm_append_left_iff (arr.toList.take a)).mp hperm
    exact (List.perm_append_right_iff (arr.toList.drop b)).mp h1

/-- Transfer a per-element bound across a range-confined permutation. -/
theorem RangeOp.boundTransfer {arr out : Array α} {a b : Nat} (h : RangeOp arr out a b)
    (P : α → Prop) (hb : ∀ i, a ≤ i → i < b → i < arr.size → P (aget arr i)) :
    ∀ i, a ≤ i → i < b → i < out.size → P (aget out i) := by
  intro i h1 h2 h3
  have hmem := rangeList_getElem out a b i h1 h2 h3
  have hmem2 := (h.rangePerm.mem_iff).mp hmem
  obtain ⟨k, hk1, hk2, hk3, hk4⟩ := exists_index_of_mem_rangeList arr a b hmem2
  exact hk4 ▸ hb k hk1 hk2 hk3

theorem sortedRange_sub (key : α → K) (arr : Array α) {a b : Nat} (h : b ≤ a + 1) :
    sortedRange key arr a b := by
  intro i j h1 h2 h3
  have : i = j := by omega
  rw [this]

theorem sortedRange_mono (key : α → K) (arr : Array α) {a b a' b' : Nat}
    (ha : a ≤ a') (hb : b' ≤ b) (h : sortedRange key arr a b) :
    sortedRange key arr a' b' :=
  fun i j h1 h2 h3 => h i j (by omega) h2 (by omega)

/-! ### Correctness of `insertionSort` -/

/-- Every element strictly left of `j` is at most every element
strictly right of `j` (within `[a, e)`). -/
def bridge (key : α → K) (arr : Array α) (a j e : Nat) : Prop :=
  ∀ p q, a ≤ p → p < j → j < q → q < e → key (aget arr p) ≤ key (aget arr q)

theorem insertInner_spec (key : α → K) (a : Nat) :
    ∀ (j : Nat) (arr : Array α) (e : Nat),
      j < e →
      e ≤ arr.size →
      sortedRange key arr a j →
      sortedRange key arr j e →
      bridge key arr a j e →
      sortedRange key (insertInner key a arr j) a e ∧
        RangeOp arr (insertInner key a arr j) a e := by
  intro j
  induction j with
  | zero =>
    intro arr e hje hsize h1 h2 h3
    exact ⟨fun i k hi hik hk => h2 i k (Nat.zero_le i) hik hk, RangeOp.refl arr a e⟩
  | succ j ih =>
    intro arr e hje hsize h1 h2 h3
    have hstep : insertInner key a arr (j + 1)
        = if a ≤ j ∧ key (aget arr (j + 1)) < key (aget arr j) then
            insertInner key a (aswap arr (j + 1) j) j
          else arr := rfl
    rw [hstep]
    by_cases hc : a ≤ j ∧ key (aget arr (j + 1)) < key (aget arr j)
    · rw [if_pos hc]
      have hj1 : j + 1 < arr.size := by omega
      have hj0 : j < arr.size := by omega
      set arr2 := aswap arr (j + 1) j with harr2
      have hkeep : ∀ p, p ≠ j → p ≠ j + 1 → aget arr2 p = aget arr p := by
        intro p hp1 hp2
        exact aget_aswap_other arr (j + 1) j p hp2 hp1
      have hgj : aget arr2 j = aget arr (j + 1) := aget_aswap_snd arr (j + 1) j hj1 hj0
      have hgj1 : aget arr2 (j + 1) = aget arr j := aget_aswap_fst arr (j + 1) j hj1 hj0
      have h1' : sortedRange key arr2 a j := by
        intro p q hp hpq hq
        rw [hkeep p (by omega) (by omega), hkeep q (by omega) (by omega)]
        exact h1 p q hp hpq (by omega)
      have h2' : sortedRange key arr2 j e := by
        intro p q hp hpq hq
        rcases Nat.eq_or_lt_of_le hpq with hq2 | hq2
        · subst hq2
          exact le_rfl
        · rcases Nat.eq_or_lt_of_le hp with hpj | hpj
          · rw [← hpj] at hq2 ⊢
            rcases Nat.eq_or_lt_of_le (Nat.succ_le_of_lt hq2) with hq3 | hq3
            · rw [hgj, ← hq3, hgj1]
              exact le_of_lt hc.2
            · rw [hgj, hkeep q (by omega) (by omega)]
              exact h2 (j + 1) q (by omega) (by omega) hq
          · rcases Nat.eq_or_lt_of_le (Nat.succ_le_of_lt hpj) with hp2 | hp2
            · rw [← hp2, hgj1, hkeep q (by omega) (by omega)]
              exact h3 j q hc.1 (by omega) (by omega) hq
            · rw [hkeep p (by omega) (by omega), hkeep q (by omega) (by omega)]
              exact h2 p q (by omega) (by omega) hq
      have h3' : bridge key arr2 a j e := by
        intro p q hp hpj hjq hq
        rw [hkeep p (by omega) (by omega)]
        rcases Nat.eq_or_lt_of_le (Nat.succ_le_of_lt hjq) with hq2 | hq2
        · rw [← hq2, hgj1]
          exact h1 p j hp (by omega) (by omega)
        · rw [hkeep q (by omega) (by omega)]
          exact h3 p q hp (by omega) (by omega) hq
      obtain ⟨hsorted, hop⟩ := ih arr2 e (by omega)
        (by rw [harr2, size_aswap]; exact hsize) h1' h2' h3'
      refine ⟨hsorted, RangeOp.trans ?_ hop⟩
      exact RangeOp.ofSwap (by omega) (by omega) hc.1 (by omega)
    · rw [if_neg hc]
      push_neg at hc
      refine ⟨?_, RangeOp.refl arr a e⟩
      by_cases ha : a ≤ j
      · -- stopped because the element is in place: key[j] ≤ key[j+1]
        have hle : key (aget arr j) ≤ key (aget arr (j + 1)) := hc ha
        intro p q hp hpq hq
        by_cases hqj : q ≤ j
        · exact h1 p q hp hpq (by omega)
        · by_cases hpj : j + 1 ≤ p
          · exact h2 p q hpj hpq hq
          · rcases Nat.eq_or_lt_of_le (Nat.succ_le_of_lt (Nat.lt_of_not_le hqj)) with hq2 | hq2
            · rw [← hq2]
              exact (h1 p j hp (by omega) (by omega)).trans hle
            · exact h3 p q hp (by omega) (by omega) hq
      · -- stopped because j + 1 ≤ a: everything of [a, e) lies in [j+1, e)
        intro p q hp hpq hq
        exact h2 p q (by omega) hpq hq

theorem insertOuter_spec (key : α → K) (a b : Nat) :
    ∀ (fuel : Nat) (arr : Array α) (i : Nat),
      a + 1 ≤ i →
      b ≤ i + fuel →
      b ≤ arr.size →
      sortedRange key arr a i →
      sortedRange key (insertOuter key a b fuel arr i) a b ∧
        RangeOp arr (insertOuter key a b fuel arr i) a b := by
  intro fuel
  induction fuel with
  | zero =>
    intro arr i hai hbi hsize hsorted
    exact ⟨sortedRange_mono key arr (le_refl a) (by omega) hsorted, RangeOp.refl arr a b⟩
  | succ fuel ih =>
    intro arr i hai hbi hsize hsorted
    have hstep : insertOuter key a b (fuel + 1) arr i
        = if i < b then insertOuter key a b fuel (insertInner key a arr i) (i + 1)
          else arr := rfl
    rw [hstep]
    by_cases hib : i < b
    · rw [if_pos hib]
      have hinner := insertInner_spec key a i arr (i + 1) (by omega) (by omega) hsorted
        (sortedRange_sub key arr (by omega))
        (by intro p q hp hpj hjq hq; omega)
      obtain ⟨hsorted2, hop2⟩ := hinner
      have hrec := ih (insertInner key a arr i) (i + 1) (by omega) (by omega)
        (by rw [hop2.1]; exact hsize) hsorted2
      refine ⟨hrec.1, RangeOp.trans (hop2.mono (le_refl a) (by omega)) hrec.2⟩
    · rw [if_neg hib]
      exact ⟨sortedRange_mono key arr (le_refl a) (by omega) hsorted, RangeOp.refl arr a b⟩

/-- `insertionSort` sorts `[a, b)` in place. -/
theorem insertionSort_spec (key : α → K) (arr : Array α) (a b : Nat) (hb : b ≤ arr.size) :
    sortedRange key (insertionSort key arr a b) a b ∧
      RangeOp arr (insertionSort key arr a b) a b :=
  insertOuter_spec key a b b arr (a + 1) (le_refl _) (by omega) hb
    (sortedRange_sub key arr (by omega))

/-- The gap-6 shell pass permutes within `[a, b)` (we prove nothing
about order — the following insertion sort establishes it). -/
theorem shellPass_spec (key : α → K) (b : Nat) :
    ∀ (fuel : Nat) (arr : Array α) (i a : Nat),
      a + 6 ≤ i →
      RangeOp arr (shellPass key b fuel arr i) a b := by
  intro fuel
  induction fuel with
  | zero => intro arr i a hi; exact RangeOp.refl arr a b
  | succ fuel ih =>
    intro arr i a hi
    have hstep : shellPass key b (fuel + 1) arr i
        = if i < b then
            shellPass key b fuel
              (if key (aget arr i) < key (aget arr (i - 6)) then aswap arr i (i - 6) else arr)
              (i + 1)
          else arr := rfl
    rw [hstep]
    by_cases hib : i < b
    · rw [if_pos hib]
      refine RangeOp.trans ?_ (ih _ (i + 1) a (by omega))
      by_cases hlt : key (aget arr i) < key (aget arr (i - 6))
      · rw [if_pos hlt]
        exact RangeOp.ofSwap (by omega) (by omega) (by omega) (by omega)
      · rw [if_neg hlt]
        exact RangeOp.refl arr a b
    · rw [if_neg hib]
      exact RangeOp.refl arr a b

/-- The short-range tail of `quickSort` sorts `[a, b)`. -/
theorem smallSort_spec (key : α → K) (arr : Array α) (a b : Nat) (hb : b ≤ arr.size) :
    sortedRange key (smallSort key arr a b) a b ∧
      RangeOp arr (smallSort key arr a b) a b := by
  unfold smallSort
  by_cases hab : b - a > 1
  · rw [if_pos hab]
    have hshell := shellPass_spec key b b arr (a + 6) a (le_refl _)
    have hins := insertionSort_spec key (shellPass key b b arr (a + 6)) a b
      (by rw [hshell.1]; exact hb)
    exact ⟨hins.1, RangeOp.trans hshell hins.2⟩
  · rw [if_neg hab]
    exact ⟨sortedRange_sub key arr (by omega), RangeOp.refl arr a b⟩

/-! ### Correctness of `heapSort` -/

/-- Heap-order property for all parents with index at least `k` within
the window `[first, first + hi)`. -/
def heapAt (key : α → K) (arr : Array α) (first hi k : Nat) : Prop :=
  ∀ r c, k ≤ r → (c = 2 * r + 1 ∨ c = 2 * r + 2) → c < hi →
    key (aget arr (first + c)) ≤ key (aget arr (first + r))

theorem heapAt_mono {key : α → K} {arr : Array α} {first hi k k' : Nat}
    (hk : k ≤ k') (h : heapAt key arr first hi k) : heapAt key arr first hi k' :=
  fun r c hr hc hchi => h r c (by omega) hc hchi

/-- `p` lies in the binary-heap subtree rooted at `root`. -/
inductive Desc : Nat → Nat → Prop
  | base (root : Nat) : Desc root root
  | step (root p c : Nat) : Desc root p → (c = 2 * p + 1 ∨ c = 2 * p + 2) → Desc root c

theorem Desc.ge {root p : Nat} (h : Desc root p) : root ≤ p := by
  induction h with
  | base => exact le_refl _
  | step q c hq hc ih => omega

theorem Desc.lower {root p : Nat} (h : Desc root p) : p = root ∨ 2 * root + 1 ≤ p := by
  induction h with
  | base => exact Or.inl rfl
  | step q c hq hc ih =>
    have := hq.ge
    omega

theorem Desc.of_child {root c : Nat} (hc : c = 2 * root + 1 ∨ c = 2 * root + 2) :
    Desc root c :=
  Desc.step root root c (Desc.base root) hc

theorem Desc.through {c p root : Nat} (h : Desc c p)
    (hc : c = 2 * root + 1 ∨ c = 2 * root + 2) : Desc root p := by
  induction h with
  | base => exact Desc.of_child hc
  | step q d hq hd ih => exact Desc.step root q d ih hd

theorem Desc.inv {root c : Nat} (h : Desc root c) (hne : c ≠ root) :
    ∃ p, Desc root p ∧ (c = 2 * p + 1 ∨ c = 2 * p + 2) := by
  cases h with
  | base => exact absurd rfl hne
  | step p c hp hc => exact ⟨p, hp, hc⟩

/-- In a heap below `k`, every element of the subtree of `k` is at most
the subtree's root. -/
theorem desc_bound {key : α → K} {arr : Array α} {first hi k : Nat}
    (hheap : heapAt key arr first hi k) :
    ∀ p, Desc k p → p < hi → key (aget arr (first + p)) ≤ key (aget arr (first + k)) := by
  intro p hp
  induction hp with
  | base => intro _; exact le_rfl
  | step q c hq hc ih =>
    intro hchi
    have hqhi : q < hi := by omega
    exact (hheap q c hq.ge hc hchi).trans (ih hqhi)

theorem siftDown_spec (key : α → K) (first hi : Nat) :
    ∀ (fuel root : Nat) (arr : Array α),
      first + hi ≤ arr.size →
      hi ≤ fuel + root + 1 →
      heapAt key arr first hi (root + 1) →
      heapAt key (siftDown key first hi fuel arr root) first hi root ∧
      (siftDown key first hi fuel arr root).size = arr.size ∧
      (siftDown key first hi fuel arr root).toList.Perm arr.toList ∧
      (∀ p, p < hi → ¬ Desc root p →
        aget (siftDown key first hi fuel arr root) (first + p) = aget arr (first + p)) ∧
      (∀ q, q < first ∨ first + hi ≤ q →
        aget (siftDown key first hi fuel arr root) q = aget arr q) ∧
      (∀ B : K, (∀ p, Desc root p → p < hi → key (aget arr (first + p)) ≤ B) →
        ∀ p, Desc root p → p < hi →
          key (aget (siftDown key first hi fuel arr root) (first + p)) ≤ B) := by
  intro fuel
  induction fuel with
  | zero =>
    intro root arr hsize hfuel hheap
    refine ⟨?_, rfl, List.Perm.refl _, fun _ _ _ => rfl, fun _ _ => rfl, fun B hB => hB⟩
    intro r c hr hc hchi
    omega
  | succ fuel ih =>
    intro root arr hsize hfuel hheap
    have hstep : siftDown key first hi (fuel + 1) arr root
        = (if 2 * root + 1 ≥ hi then arr
          else
            let child :=
              if 2 * root + 1 + 1 < hi ∧
                  key (aget arr (first + (2 * root + 1))) <
                    key (aget arr (first + (2 * root + 1) + 1)) then
                2 * root + 1 + 1
              else 2 * root + 1
            if key (aget arr (first + root)) < key (aget arr (first + child)) then
              siftDown key first hi fuel (aswap arr (first + root) (first + child)) child
            else arr) := rfl
    rw [hstep]
    by_cases hleaf : 2 * root + 1 ≥ hi
    · rw [if_pos hleaf]
      refine ⟨?_, rfl, List.Perm.refl _, fun _ _ _ => rfl, fun _ _ => rfl, fun B hB => hB⟩
      intro r c hr hc hchi
      omega
    · rw [if_neg hleaf]
      set child := if 2 * root + 1 + 1 < hi ∧
          key (aget arr (first + (2 * root + 1))) <
            key (aget arr (first + (2 * root + 1) + 1)) then
          2 * root + 1 + 1
        else 2 * root + 1 with hchildDef
      have hfacts : (child = 2 * root + 1 ∨ child = 2 * root + 2) ∧ child < hi ∧
          key (aget arr (first + (2 * root + 1))) ≤ key (aget arr (first + child)) ∧
          (2 * root + 2 < hi →
            key (aget arr (first + (2 * root + 2))) ≤ key (aget arr (first + child))) := by
        by_cases hC : 2 * root + 1 + 1 < hi ∧
            key (aget arr (first + (2 * root + 1))) <
              key (aget arr (first + (2 * root + 1) + 1))
        · have hcval : child = 2 * root + 1 + 1 := by rw [hchildDef, if_pos hC]
          refine ⟨Or.inr (by omega), by omega, ?_, fun _ => ?_⟩
          · rw [hcval, show first + (2 * root + 1 + 1) = first + (2 * root + 1) + 1
              from by omega]
            exact le_of_lt hC.2
          · rw [hcval, show first + (2 * root + 1 + 1) = first + (2 * root + 2)
              from by omega]
        · have hcval : child = 2 * root + 1 := by rw [hchildDef, if_neg hC]
          refine ⟨Or.inl hcval, by omega, by rw [hcval], fun h2 => ?_⟩
          rw [hcval]
          have hnb : ¬ key (aget arr (first + (2 * root + 1))) <
              key (aget arr (first + (2 * root + 1) + 1)) := by
            intro hb
            exact hC ⟨by omega, hb⟩
          have := le_of_not_lt hnb
          rw [show first + (2 * root + 1) + 1 = first + (2 * root + 2) from by omega] at this
          exact this
      obtain ⟨hchild_cases, hchild_hi, hchild_max1, hchild_max2⟩ := hfacts
      have hchild_lb : 2 * root + 1 ≤ child ∧ child ≤ 2 * root + 2 := by
        rcases hchild_cases with h | h <;> omega
      clear_value child
      by_cases hswap : key (aget arr (first + root)) < key (aget arr (first + child))
      · rw [if_pos hswap]
        set arr2 := aswap arr (first + root) (first + child) with harr2
        have hrootlt : root < child := by omega
        have hszroot : first + root < arr.size := by omega
        have hszchild : first + child < arr.size := by omega
        have ha2root : aget arr2 (first + root) = aget arr (first + child) :=
          aget_aswap_fst arr _ _ hszroot hszchild
        have ha2child : aget arr2 (first + child) = aget arr (first + root) :=
          aget_aswap_snd arr _ _ hszroot hszchild
        have ha2other : ∀ p, p ≠ first + root → p ≠ first + child →
            aget arr2 p = aget arr p := fun p h1 h2 => aget_aswap_other arr _ _ p h1 h2
        have hheap2 : heapAt key arr2 first hi (child + 1) := by
          intro r c hr hc hchi
          have hcb : 2 * r + 1 ≤ c ∧ c ≤ 2 * r + 2 := by
            rcases hc with h | h <;> omega
          rw [ha2other (first + c) (by omega) (by omega),
            ha2other (first + r) (by omega) (by omega)]
          exact hheap r c (by omega) hc hchi
        obtain ⟨hA, hSize, hPerm, hC, hC', hD⟩ := ih child arr2
          (by rw [harr2, size_aswap]; exact hsize) (by omega) hheap2
        set out := siftDown key first hi fuel arr2 child with hout
        have hnotdesc_root : ¬ Desc child root := fun h => by have := h.ge; omega
        have hout_root : aget out (first + root) = aget arr (first + child) := by
          rw [hC root (by omega) hnotdesc_root, ha2root]
        have hdesc_sub : ∀ p, Desc child p → Desc root p :=
          fun p hp => hp.through hchild_cases
        have harr2_bound : ∀ p, Desc child p → p < hi →
            key (aget arr2 (first + p)) ≤ key (aget arr (first + child)) := by
          intro p hp hphi
          by_cases hpc : p = child
          · rw [hpc, ha2child]
            exact le_of_lt hswap
          · rcases hp.lower with h | h
            · exact absurd h hpc
            · rw [ha2other (first + p) (by omega) (by omega)]
              exact desc_bound (heapAt_mono (by omega) hheap) p hp hphi
        have hout_child_le : ∀ p, Desc child p → p < hi →
            key (aget out (first + p)) ≤ key (aget arr (first + child)) :=
          hD (key (aget arr (first + child))) harr2_bound
        refine ⟨?_, by rw [hSize, harr2, size_aswap], hPerm.trans (toList_aswap_perm _ _ _),
          ?_, ?_, ?_⟩
        · -- heapAt out root
          intro r c hr hc hchi
          rcases Nat.eq_or_lt_of_le hr with hreq | hrgt
          · -- r = root
            rw [← hreq] at hc
            rw [← hreq, hout_root]
            by_cases hcc : c = child
            · rw [hcc]
              exact hout_child_le child (Desc.base child) hchild_hi
            · -- c is the sibling of child
              have hcnd : ¬ Desc child c := by
                intro hd
                rcases hd.lower with h | h
                · exact hcc h
                · omega
              rw [hC c hchi hcnd, ha2other (first + c) (by omega) (by omega)]
              rcases hc with h1 | h1
              · rw [h1]
                exact hchild_max1
              · rw [h1]
                exact hchild_max2 (by omega)
          · -- r > root
            by_cases hdr : Desc child r
            · exact hA r c hdr.ge hc hchi
            · have hcb : 2 * r + 1 ≤ c ∧ c ≤ 2 * r + 2 := by
                rcases hc with h | h <;> omega
              have hdc : ¬ Desc child c := by
                intro hd
                have hcne : c ≠ child := by omega
                obtain ⟨p, hp, hpc⟩ := hd.inv hcne
                have hpb : 2 * p + 1 ≤ c ∧ c ≤ 2 * p + 2 := by
                  rcases hpc with h | h <;> omega
                have hpr : p = r := by omega
                exact hdr (hpr ▸ hp)
              have hrnec : r ≠ child := fun h => hdr (h ▸ Desc.base child)
              have hcnec : c ≠ child := fun h => hdc (h ▸ Desc.base child)
              rw [hC c hchi hdc, hC r (by omega) hdr,
                ha2other (first + c) (by omega) (fun h => hcnec (by omega)),
                ha2other (first + r) (by omega) (fun h => hrnec (by omega))]
              exact hheap r c (by omega) hc hchi
        · -- untouched positions inside the window
          intro p hphi hpnd
          have hpr : p ≠ root := fun h => hpnd (h ▸ Desc.base root)
          have hpc : p ≠ child := fun h => hpnd (h ▸ Desc.of_child hchild_cases)
          have hpd : ¬ Desc child p := fun h => hpnd (hdesc_sub p h)
          rw [hC p hphi hpd, ha2other (first + p) (by omega) (by omega)]
        · -- untouched positions outside the window
          intro q hq
          rw [hC' q hq, ha2other q (by omega) (by omega)]
        · -- subtree values bounded
          intro B hB p hp hphi
          by_cases hpd : Desc child p
          · refine hD B ?_ p hpd hphi
            intro q hq hqhi
            by_cases hqc : q = child
            · rw [hqc, ha2child]
              exact le_of_lt (lt_of_lt_of_le hswap
                (hB child (Desc.of_child hchild_cases) hchild_hi))
            · rcases hq.lower with h | h
              · exact absurd h hqc
              · rw [ha2other (first + q) (by omega) (by omega)]
                exact hB q (hdesc_sub q hq) hqhi
          · rw [hC p hphi hpd]
            by_cases hpr : p = root
            · rw [hpr, ha2root]
              exact hB child (Desc.of_child hchild_cases) hchild_hi
            · have hpc : p ≠ child := fun h => hpd (h ▸ Desc.base child)
              rw [ha2other (first + p) (by omega) (by omega)]
              exact hB p hp hphi
      · rw [if_neg hswap]
        refine ⟨?_, rfl, List.Perm.refl _, fun _ _ _ => rfl, fun _ _ => rfl, fun B hB => hB⟩
        intro r c hr hc hchi
        rcases Nat.eq_or_lt_of_le hr with hreq | hrgt
        · rw [← hreq] at hc ⊢
          have hle := le_of_not_lt hswap
          rcases hc with h1 | h1
          · rw [h1]
            exact hchild_max1.trans hle
          · rw [h1]
            exact (hchild_max2 (by omega)).trans hle
        · exact hheap r c (by omega) hc hchi

/-- In a full heap the root is maximal. -/
theorem heap_max {key : α → K} {arr : Array α} {first hi : Nat}
    (hheap : heapAt key arr first hi 0) :
    ∀ c, c < hi → key (aget arr (first + c)) ≤ key (aget arr (first + 0)) := by
  intro c
  induction c using Nat.strong_induction_on with
  | _ c ih =>
    intro hchi
    rcases Nat.eq_zero_or_pos c with hc0 | hcpos
    · rw [hc0]
    · have hpar : c = 2 * ((c - 1) / 2) + 1 ∨ c = 2 * ((c - 1) / 2) + 2 := by omega
      have hlt : (c - 1) / 2 < c := by omega
      exact (hheap ((c - 1) / 2) c (Nat.zero_le _) hpar hchi).trans
        (ih ((c - 1) / 2) hlt (by omega))

theorem heapBuild_spec (key : α → K) (first hi : Nat) :
    ∀ (count : Nat) (arr : Array α),
      first + hi ≤ arr.size →
      heapAt key arr first hi count →
      heapAt key (heapBuild key first hi count arr) first hi 0 ∧
      (heapBuild key first hi count arr).size = arr.size ∧
      (heapBuild key first hi count arr).toList.Perm arr.toList ∧
      (∀ q, q < first ∨ first + hi ≤ q →
        aget (heapBuild key first hi count arr) q = aget arr q) := by
  intro count
  induction count with
  | zero =>
    intro arr hsize hheap
    exact ⟨hheap, rfl, List.Perm.refl _, fun _ _ => rfl⟩
  | succ count ih =>
    intro arr hsize hheap
    have hstep : heapBuild key first hi (count + 1) arr
        = heapBuild key first hi count (siftDown key first hi hi arr count) := rfl
    rw [hstep]
    obtain ⟨hA, hS, hP, _, hC', _⟩ := siftDown_spec key first hi hi count arr hsize
      (by omega) (heapAt_mono (by omega) hheap)
    obtain ⟨hA2, hS2, hP2, hC2⟩ := ih (siftDown key first hi hi arr count)
      (by rw [hS]; exact hsize) hA
    exact ⟨hA2, hS2.trans hS, hP2.trans hP, fun q hq => (hC2 q hq).trans (hC' q hq)⟩

theorem heapExtract_spec (key : α → K) (first hi0 : Nat) :
    ∀ (count : Nat) (arr : Array α),
      first + hi0 ≤ arr.size →
      count < hi0 →
      heapAt key arr first (count + 1) 0 →
      sortedRange key arr (first + count + 1) (first + hi0) →
      (∀ p q, p ≤ count → count < q → q < hi0 →
        key (aget arr (first + p)) ≤ key (aget arr (first + q))) →
      sortedRange key (heapExtract key first count arr) first (first + hi0) ∧
      (heapExtract key first count arr).size = arr.size ∧
      (heapExtract key first count arr).toList.Perm arr.toList ∧
      (∀ q, q < first ∨ first + hi0 ≤ q →
        aget (heapExtract key first count arr) q = aget arr q) := by
  intro count
  induction count with
  | zero =>
    intro arr hsize hcount hheap hsorted hcross
    refine ⟨?_, rfl, List.Perm.refl _, fun _ _ => rfl⟩
    intro p q hp hpq hq
    rcases Nat.eq_or_lt_of_le hpq with heq | hlt
    · rw [heq]
    · by_cases hpf : p = first
      · have hq' : first < q := by omega
        have := hcross 0 (q - first) (le_refl 0) (by omega) (by omega)
        rw [hpf]
        simpa [show first + (q - first) = q from by omega] using this
      · exact hsorted p q (by omega) hpq hq
  | succ count ih =>
    intro arr hsize hcount hheap hsorted hcross
    have hstep : heapExtract key first (count + 1) arr
        = heapExtract key first count
            (siftDown key first (count + 1) (count + 2)
              (aswap arr first (first + (count + 1))) 0) := rfl
    rw [hstep]
    set arr2 := aswap arr first (first + (count + 1)) with harr2
    have hszf : first < arr.size := by omega
    have hszc : first + (count + 1) < arr.size := by omega
    have ha2f : aget arr2 first = aget arr (first + (count + 1)) := by
      have := aget_aswap_fst arr first (first + (count + 1)) hszf hszc
      simpa using this
    have ha2c : aget arr2 (first + (count + 1)) = aget arr first := by
      have := aget_aswap_snd arr first (first + (count + 1)) hszf hszc
      simpa using this
    have ha2other : ∀ p, p ≠ first → p ≠ first + (count + 1) →
        aget arr2 p = aget arr p := fun p h1 h2 => aget_aswap_other arr _ _ p h1 h2
    have hmax : ∀ c, c < count + 2 →
        key (aget arr (first + c)) ≤ key (aget arr first) := by
      intro c hc
      have := heap_max hheap c hc
      simpa using this
    have hheap2 : heapAt key arr2 first (count + 1) 1 := by
      intro r c hr hc hchi
      have hcb : 2 * r + 1 ≤ c ∧ c ≤ 2 * r + 2 := by
        rcases hc with h | h <;> omega
      rw [ha2other (first + c) (by omega) (by omega),
        ha2other (first + r) (by omega) (by omega)]
      exact hheap r c (by omega) hc (by omega)
    obtain ⟨hA, hS, hP, hC, hC', hD⟩ := siftDown_spec key first (count + 1) (count + 2) 0
      arr2 (by rw [harr2, size_aswap]; omega) (by omega) hheap2
    set arr3 := siftDown key first (count + 1) (count + 2) arr2 0 with harr3
    -- the swap and the sift both stay within [first, first + count + 2)
    have hop2 : RangeOp arr arr2 first (first + (count + 2)) :=
      RangeOp.ofSwap (le_refl _) (by omega) (by omega) (by omega)
    have hop3 : RangeOp arr2 arr3 first (first + (count + 1)) :=
      ⟨hS, hP, fun q hq => hC' q (by omega)⟩
    have hop23 : RangeOp arr arr3 first (first + (count + 2)) :=
      RangeOp.trans hop2 (hop3.mono (le_refl _) (by omega))
    have harr3size : arr3.size = arr.size := by
      rw [hS, harr2, size_aswap]
    -- positions at or beyond first + count + 1 are frozen at their arr2 values
    have hfrozen : ∀ q, first + count + 1 ≤ q → aget arr3 q = aget arr2 q := by
      intro q hq
      exact hC' q (by omega)
    have ha3top : aget arr3 (first + (count + 1)) = aget arr first := by
      rw [hfrozen _ (by omega), ha2c]
    have ha3tail : ∀ q, first + count + 1 < q → aget arr3 q = aget arr q := by
      intro q hq
      rw [hfrozen _ (by omega), ha2other q (by omega) (by omega)]
    -- every element remaining in the heap window is at most the extracted max
    have hbound2 : ∀ i, first ≤ i → i < first + (count + 1) → i < arr2.size →
        key (aget arr2 i) ≤ key (aget arr first) := by
      intro i h1 h2 h3
      by_cases hif : i = first
      · rw [hif, ha2f]
        exact hmax (count + 1) (by omega)
      · rw [ha2other i hif (by omega)]
        have := hmax (i - first) (by omega)
        simpa [show first + (i - first) = i from by omega] using this
    have hbound3 : ∀ i, first ≤ i → i < first + (count + 1) → i < arr3.size →
        key (aget arr3 i) ≤ key (aget arr first) :=
      hop3.boundTransfer (fun x => key x ≤ key (aget arr first)) hbound2
    -- recursion preconditions
    have hsorted3 : sortedRange key arr3 (first + count + 1) (first + hi0) := by
      intro p q hp hpq hq
      rcases Nat.eq_or_lt_of_le hpq with heq | hlt
      · rw [heq]
      · by_cases hptop : p = first + count + 1
        · rw [hptop, show first + count + 1 = first + (count + 1) from by omega, ha3top,
            ha3tail q (by omega)]
          have := hcross 0 (q - first) (by omega) (by omega) (by omega)
          simpa [show first + (q - first) = q from by omega] using this
        · rw [ha3tail p (by omega), ha3tail q (by omega)]
          exact hsorted p q (by omega) hpq hq
    have hcross3 : ∀ p q, p ≤ count → count < q → q < hi0 →
        key (aget arr3 (first + p)) ≤ key (aget arr3 (first + q)) := by
      intro p q hp hpq hq
      have hpv : key (aget arr3 (first + p)) ≤ key (aget arr first) :=
        hbound3 (first + p) (by omega) (by omega) (by omega)
      by_cases hqtop : q = count + 1
      · rw [hqtop, ha3top]
        exact hpv
      · rw [ha3tail (first + q) (by omega)]
        refine hpv.trans ?_
        have := hcross 0 q (by omega) (by omega) hq
        simpa using this
    obtain ⟨hsortedR, hSR, hPR, hCR⟩ := ih arr3 (by omega) (by omega) hA hsorted3 hcross3
    refine ⟨hsortedR, ?_, ?_, ?_⟩
    · rw [hSR, harr3size]
    · exact hPR.trans (hP.trans (toList_aswap_perm _ _ _))
    · intro q hq
      rw [hCR q hq, hC' q (by omega), ha2other q (by omega) (by omega)]

/-- `heapSort` sorts `[a, b)` in place. -/
theorem heapSort_spec (key : α → K) (arr : Array α) (a b : Nat) (hab : a ≤ b)
    (hb : b ≤ arr.size) :
    sortedRange key (heapSort key arr a b) a b ∧
      RangeOp arr (heapSort key arr a b) a b := by
  unfold heapSort
  obtain ⟨hBA, hBS, hBP, hBC⟩ := heapBuild_spec key a (b - a) ((b - a - 1) / 2 + 1) arr
    (by omega) (by intro r c hr hc hchi; omega)
  set built := heapBuild key a (b - a) ((b - a - 1) / 2 + 1) arr with hbuilt
  rcases Nat.lt_or_ge (b - a) 1 with hsmall | hbig
  · -- empty range: the extract counter is zero and nothing is touched
    have hcounter : b - a - 1 = 0 := by omega
    rw [hcounter]
    have hres : heapExtract key a 0 built = built := rfl
    rw [hres]
    refine ⟨sortedRange_sub key built (by omega), hBS, hBP, ?_⟩
    intro i hi
    exact hBC i (by omega)
  · obtain ⟨hES, hES2, hEP, hEC⟩ := heapExtract_spec key a (b - a) (b - a - 1) built
      (by rw [hBS]; omega) (by omega)
      (by
        have : b - a - 1 + 1 = b - a := by omega
        rw [this]
        exact hBA)
      (sortedRange_sub key built (by omega))
      (by intro p q hp hpq hq; omega)
    have hzone : a + (b - a) = b := by omega
    have hzone2 : a + (b - a - 1) + 1 = b := by omega
    rw [hzone] at hES hEC
    refine ⟨hES, ?_⟩
    refine ⟨hES2.trans hBS, hEP.trans hBP, ?_⟩
    intro i hi
    rw [hEC i (by omega)]
    exact hBC i (by omega)

/-! ### The pivot-selection steps of `doPivot` -/

theorem mot3_size (key : α → K) (arr : Array α) (m1 m0 : Nat) :
    (mot3 key arr m1 m0).size = arr.size := by
  unfold mot3
  split
  · exact size_aswap arr m1 m0
  · rfl

theorem mot3_other (key : α → K) (arr : Array α) (m1 m0 k : Nat)
    (h1 : k ≠ m1) (h0 : k ≠ m0) : aget (mot3 key arr m1 m0) k = aget arr k := by
  unfold mot3
  split
  · exact aget_aswap_other arr m1 m0 k h1 h0
  · rfl

theorem mot3_rangeOp (key : α → K) (arr : Array α) (m1 m0 a b : Nat)
    (h1 : a ≤ m1 ∧ m1 < b) (h0 : a ≤ m0 ∧ m0 < b) :
    RangeOp arr (mot3 key arr m1 m0) a b := by
  unfold mot3
  split
  · exact RangeOp.ofSwap h1.1 h1.2 h0.1 h0.2
  · exact RangeOp.refl arr a b

theorem mot3_order (key : α → K) (arr : Array α) (m1 m0 : Nat)
    (hs1 : m1 < arr.size) (hs0 : m0 < arr.size) :
    key (aget (mot3 key arr m1 m0) m0) ≤ key (aget (mot3 key arr m1 m0) m1) := by
  unfold mot3
  split
  · rw [aget_aswap_snd arr m1 m0 hs1 hs0, aget_aswap_fst arr m1 m0 hs1 hs0]
    exact le_of_lt (by assumption)
  · exact not_lt.mp (by assumption)

theorem mot3_m1_cases (key : α → K) (arr : Array α) (m1 m0 : Nat)
    (hs1 : m1 < arr.size) (hs0 : m0 < arr.size) :
    aget (mot3 key arr m1 m0) m1 = aget arr m1 ∨
      aget (mot3 key arr m1 m0) m1 = aget arr m0 := by
  unfold mot3
  split
  · exact Or.inr (aget_aswap_fst arr m1 m0 hs1 hs0)
  · exact Or.inl rfl

theorem medianOfThree_rangeOp (key : α → K) (arr : Array α) (m1 m0 m2 a b : Nat)
    (h1 : a ≤ m1 ∧ m1 < b) (h0 : a ≤ m0 ∧ m0 < b) (h2 : a ≤ m2 ∧ m2 < b) :
    RangeOp arr (medianOfThree key arr m1 m0 m2) a b := by
  unfold medianOfThree
  split
  · exact (mot3_rangeOp key arr m1 m0 a b h1 h0).trans
      ((RangeOp.ofSwap h2.1 h2.2 h1.1 h1.2).trans
        (mot3_rangeOp key _ m1 m0 a b h1 h0))
  · exact mot3_rangeOp key arr m1 m0 a b h1 h0

/-- `medianOfThree` really sorts the three probed elements:
`data[m0] <= data[m1] <= data[m2]` afterwards. -/
theorem medianOfThree_order (key : α → K) (arr : Array α) (m1 m0 m2 : Nat)
    (h10 : m1 ≠ m0) (h12 : m1 ≠ m2) (h02 : m0 ≠ m2)
    (hs1 : m1 < arr.size) (hs0 : m0 < arr.size) (hs2 : m2 < arr.size) :
    key (aget (medianOfThree key arr m1 m0 m2) m0)
        ≤ key (aget (medianOfThree key arr m1 m0 m2) m1) ∧
      key (aget (medianOfThree key arr m1 m0 m2) m1)
        ≤ key (aget (medianOfThree key arr m1 m0 m2) m2) := by
  have hsA : (mot3 key arr m1 m0).size = arr.size := mot3_size key arr m1 m0
  have hordA : key (aget (mot3 key arr m1 m0) m0) ≤ key (aget (mot3 key arr m1 m0) m1) :=
    mot3_order key arr m1 m0 hs1 hs0
  unfold medianOfThree
  split
  · rename_i hc
    have hsB : (aswap (mot3 key arr m1 m0) m2 m1).size = arr.size := by
      rw [size_aswap, hsA]
    have hBm1 : aget (aswap (mot3 key arr m1 m0) m2 m1) m1 = aget (mot3 key arr m1 m0) m2 :=
      aget_aswap_snd _ m2 m1 (by omega) (by omega)
    have hBm2 : aget (aswap (mot3 key arr m1 m0) m2 m1) m2 = aget (mot3 key arr m1 m0) m1 :=
      aget_aswap_fst _ m2 m1 (by omega) (by omega)
    have hBm0 : aget (aswap (mot3 key arr m1 m0) m2 m1) m0 = aget (mot3 key arr m1 m0) m0 :=
      aget_aswap_other _ m2 m1 m0 h02 (Ne.symm h10)
    refine ⟨mot3_order key _ m1 m0 (by omega) (by omega), ?_⟩
    have hout2 : aget (mot3 key (aswap (mot3 key arr m1 m0) m2 m1) m1 m0) m2
        = aget (aswap (mot3 key arr m1 m0) m2 m1) m2 :=
      mot3_other key _ m1 m0 m2 (Ne.symm h12) (Ne.symm h02)
    rcases mot3_m1_cases key (aswap (mot3 key arr m1 m0) m2 m1) m1 m0
        (by omega) (by omega) with hcase | hcase
    · rw [hout2, hcase, hBm1, hBm2]
      exact le_of_lt hc
    · rw [hout2, hcase, hBm0, hBm2]
      exact hordA
  · rename_i hc
    exact ⟨hordA, not_lt.mp hc⟩

/-! ### The four scan loops of `doPivot` -/

theorem scanA_spec (key : α → K) (arr : Array α) (pivot c : Nat) :
    ∀ (fuel start : Nat), start ≤ c → c ≤ start + fuel →
      start ≤ scanA key arr pivot c fuel start ∧
      scanA key arr pivot c fuel start ≤ c ∧
      (∀ i, start ≤ i → i < scanA key arr pivot c fuel start →
        key (aget arr i) < key (aget arr pivot)) ∧
      (scanA key arr pivot c fuel start < c →
        ¬ key (aget arr (scanA key arr pivot c fuel start)) < key (aget arr pivot)) := by
  intro fuel
  induction fuel with
  | zero =>
    intro start h1 h2
    have hs : scanA key arr pivot c 0 start = start := rfl
    rw [hs]
    exact ⟨le_refl _, h1, fun i hi1 hi2 => absurd hi2 (by omega), fun h => by omega⟩
  | succ fuel ih =>
    intro start h1 h2
    have hstep : scanA key arr pivot c (fuel + 1) start
        = if start < c ∧ key (aget arr start) < key (aget arr pivot) then
            scanA key arr pivot c fuel (start + 1)
          else start := rfl
    by_cases hcond : start < c ∧ key (aget arr start) < key (aget arr pivot)
    · rw [hstep, if_pos hcond]
      obtain ⟨g1, g2, g3, g4⟩ := ih (start + 1) (by omega) (by omega)
      refine ⟨by omega, g2, ?_, g4⟩
      intro i hi1 hi2
      rcases Nat.eq_or_lt_of_le hi1 with heq | hlt
      · rw [← heq]
        exact hcond.2
      · exact g3 i hlt hi2
    · rw [hstep, if_neg hcond]
      push_neg at hcond
      exact ⟨le_refl _, h1, fun i hi1 hi2 => absurd hi2 (by omega),
        fun h => not_lt.mpr (hcond h)⟩

theorem scanB_spec (key : α → K) (arr : Array α) (pivot c : Nat) :
    ∀ (fuel start : Nat), start ≤ c → c ≤ start + fuel →
      start ≤ scanB key arr pivot c fuel start ∧
      scanB key arr pivot c fuel start ≤ c ∧
      (∀ i, start ≤ i → i < scanB key arr pivot c fuel start →
        ¬ key (aget arr pivot) < key (aget arr i)) ∧
      (scanB key arr pivot c fuel start < c →
        key (aget arr pivot) < key (aget arr (scanB key arr pivot c fuel start))) := by
  intro fuel
  induction fuel with
  | zero =>
    intro start h1 h2
    have hs : scanB key arr pivot c 0 start = start := rfl
    rw [hs]
    exact ⟨le_refl _, h1, fun i hi1 hi2 => absurd hi2 (by omega), fun h => by omega⟩
  | succ fuel ih =>
    intro start h1 h2
    have hstep : scanB key arr pivot c (fuel + 1) start
        = if start < c ∧ ¬ key (aget arr pivot) < key (aget arr start) then
            scanB key arr pivot c fuel (start + 1)
          else start := rfl
    by_cases hcond : start < c ∧ ¬ key (aget arr pivot) < key (aget arr start)
    · rw [hstep, if_pos hcond]
      obtain ⟨g1, g2, g3, g4⟩ := ih (start + 1) (by omega) (by omega)
      refine ⟨by omega, g2, ?_, g4⟩
      intro i hi1 hi2
      rcases Nat.eq_or_lt_of_le hi1 with heq | hlt
      · rw [← heq]
        exact hcond.2
      · exact g3 i hlt hi2
    · rw [hstep, if_neg hcond]
      push_neg at hcond
      exact ⟨le_refl _, h1, fun i hi1 hi2 => absurd hi2 (by omega), hcond⟩

theorem scanC_spec (key : α → K) (arr : Array α) (pivot b : Nat) :
    ∀ (fuel start : Nat), b ≤ start → start ≤ b + fuel →
      b ≤ scanC key arr pivot b fuel start ∧
      scanC key arr pivot b fuel start ≤ start ∧
      (∀ i, scanC key arr pivot b fuel start ≤ i → i < start →
        key (aget arr pivot) < key (aget arr i)) ∧
      (b < scanC key arr pivot b fuel start →
        ¬ key (aget arr pivot) < key (aget arr (scanC key arr pivot b fuel start - 1))) := by
  intro fuel
  induction fuel with
  | zero =>
    intro start h1 h2
    have hs : scanC key arr pivot b 0 start = start := rfl
    rw [hs]
    exact ⟨h1, le_refl _, fun i hi1 hi2 => absurd hi2 (by omega), fun h => by omega⟩
  | succ fuel ih =>
    intro start h1 h2
    have hstep : scanC key arr pivot b (fuel + 1) start
        = if b < start ∧ key (aget arr pivot) < key (aget arr (start - 1)) then
            scanC key arr pivot b fuel (start - 1)
          else start := rfl
    by_cases hcond : b < start ∧ key (aget arr pivot) < key (aget arr (start - 1))
    · rw [hstep, if_pos hcond]
      obtain ⟨g1, g2, g3, g4⟩ := ih (start - 1) (by omega) (by omega)
      refine ⟨g1, by omega, ?_, g4⟩
      intro i hi1 hi2
      rcases Nat.lt_or_ge i (start - 1) with hlt | hge
      · exact g3 i hi1 hlt
      · rw [show i = start - 1 from by omega]
        exact hcond.2
    · rw [hstep, if_neg hcond]
      push_neg at hcond
      exact ⟨h1, le_refl _, fun i hi1 hi2 => absurd hi2 (by omega),
        fun h => not_lt.mpr (hcond h)⟩

theorem scanBDown_spec (key : α → K) (arr : Array α) (pivot a : Nat) :
    ∀ (fuel start : Nat), a ≤ start → start ≤ a + fuel →
      a ≤ scanBDown key arr pivot a fuel start ∧
      scanBDown key arr pivot a fuel start ≤ start ∧
      (∀ i, scanBDown key arr pivot a fuel start ≤ i → i < start →
        ¬ key (aget arr i) < key (aget arr pivot)) ∧
      (a < scanBDown key arr pivot a fuel start →
        key (aget arr (scanBDown key arr pivot a fuel start - 1)) < key (aget arr pivot)) := by
  intro fuel
  induction fuel with
  | zero =>
    intro start h1 h2
    have hs : scanBDown key arr pivot a 0 start = start := rfl
    rw [hs]
    exact ⟨h1, le_refl _, fun i hi1 hi2 => absurd hi2 (by omega), fun h => by omega⟩
  | succ fuel ih =>
    intro start h1 h2
    have hstep : scanBDown key arr pivot a (fuel + 1) start
        = if a < start ∧ ¬ key (aget arr (start - 1)) < key (aget arr pivot) then
            scanBDown key arr pivot a fuel (start - 1)
          else start := rfl
    by_cases hcond : a < start ∧ ¬ key (aget arr (start - 1)) < key (aget arr pivot)
    · rw [hstep, if_pos hcond]
      obtain ⟨g1, g2, g3, g4⟩ := ih (start - 1) (by omega) (by omega)
      refine ⟨g1, by omega, ?_, g4⟩
      intro i hi1 hi2
      rcases Nat.lt_or_ge i (start - 1) with hlt | hge
      · exact g3 i hi1 hlt
      · rw [show i = start - 1 from by omega]
        exact hcond.2
    · rw [hstep, if_neg hcond]
      push_neg at hcond
      exact ⟨h1, le_refl _, fun i hi1 hi2 => absurd hi2 (by omega), hcond⟩

theorem scanAUp_spec (key : α → K) (arr : Array α) (pivot b : Nat) :
    ∀ (fuel start : Nat), start ≤ b → b ≤ start + fuel →
      start ≤ scanAUp key arr pivot b fuel start ∧
      scanAUp key arr pivot b fuel start ≤ b ∧
      (scanAUp key arr pivot b fuel start < b →
        ¬ key (aget arr (scanAUp key arr pivot b fuel start)) < key (aget arr pivot)) := by
  intro fuel
  induction fuel with
  | zero =>
    intro start h1 h2
    have hs : scanAUp key arr pivot b 0 start = start := rfl
    rw [hs]
    exact ⟨le_refl _, h1, fun h => by omega⟩
  | succ fuel ih =>
    intro start h1 h2
    have hstep : scanAUp key arr pivot b (fuel + 1) start
        = if start < b ∧ key (aget arr start) < key (aget arr pivot) then
            scanAUp key arr pivot b fuel (start + 1)
          else start := rfl
    by_cases hcond : start < b ∧ key (aget arr start) < key (aget arr pivot)
    · rw [hstep, if_pos hcond]
      obtain ⟨g1, g2, g3⟩ := ih (start + 1) (by omega) (by omega)
      exact ⟨by omega, g2, g3⟩
    · rw [hstep, if_neg hcond]
      push_neg at hcond
      exact ⟨le_refl _, h1, fun h => not_lt.mpr (hcond h)⟩

/-- The partition loop of `doPivot` ends with `b = c`, keeps the pivot
untouched, permutes only `[b, e)` (`e` is the initial `c`, i.e. `hi-1`)
and separates: everything left of the final `b` is at most the pivot,
everything from `b` up to `e` is strictly greater. -/
theorem partLoop_spec (key : α → K) (pivot e : Nat) :
    ∀ (fuel : Nat) (arr : Array α) (b c : Nat),
      e ≤ arr.size →
      c ≤ b + fuel →
      pivot < b → b ≤ c → c ≤ e →
      (∀ i, pivot < i → i < b → ¬ key (aget arr pivot) < key (aget arr i)) →
      (∀ i, c ≤ i → i < e → key (aget arr pivot) < key (aget arr i)) →
      (partLoop key pivot fuel arr b c).2.1 = (partLoop key pivot fuel arr b c).2.2 ∧
      b ≤ (partLoop key pivot fuel arr b c).2.1 ∧
      (partLoop key pivot fuel arr b c).2.1 ≤ c ∧
      RangeOp arr (partLoop key pivot fuel arr b c).1 b e ∧
      (∀ i, pivot < i → i < (partLoop key pivot fuel arr b c).2.1 →
        ¬ key (aget (partLoop key pivot fuel arr b c).1 pivot)
            < key (aget (partLoop key pivot fuel arr b c).1 i)) ∧
      (∀ i, (partLoop key pivot fuel arr b c).2.1 ≤ i → i < e →
        key (aget (partLoop key pivot fuel arr b c).1 pivot)
          < key (aget (partLoop key pivot fuel arr b c).1 i)) := by
  intro fuel
  induction fuel with
  | zero =>
    intro arr b c hsize hfuel hpb hbc hce hL hR
    have hbceq : b = c := by omega
    have hs : partLoop key pivot 0 arr b c = (arr, b, c) := rfl
    rw [hs]
    refine ⟨hbceq, le_refl _, hbc, RangeOp.refl arr b e, hL, ?_⟩
    intro i hi1 hi2
    have hi1' : b ≤ i := hi1
    exact hR i (by omega) hi2
  | succ fuel ih =>
    intro arr b c hsize hfuel hpb hbc hce hL hR
    obtain ⟨hb1_1, hb1_2, hb1_reg, hb1_exit⟩ := scanB_spec key arr pivot c c b hbc (by omega)
    set b1 := scanB key arr pivot c c b with hb1def
    obtain ⟨hc1_1, hc1_2, hc1_reg, hc1_exit⟩ := scanC_spec key arr pivot b1 c c hb1_2 (by omega)
    set c1 := scanC key arr pivot b1 c c with hc1def
    have hstep : partLoop key pivot (fuel + 1) arr b c
        = if b1 ≥ c1 then (arr, b1, c1)
          else partLoop key pivot fuel (aswap arr b1 (c1 - 1)) (b1 + 1) (c1 - 1) := by
      rw [hc1def, hb1def]
      rfl
    have hLext : ∀ i, pivot < i → i < b1 → ¬ key (aget arr pivot) < key (aget arr i) := by
      intro i h1 h2
      rcases Nat.lt_or_ge i b with h | h
      · exact hL i h1 h
      · exact hb1_reg i h h2
    have hRext : ∀ i, c1 ≤ i → i < e → key (aget arr pivot) < key (aget arr i) := by
      intro i h1 h2
      rcases Nat.lt_or_ge i c with h | h
      · exact hc1_reg i h1 h
      · exact hR i h h2
    by_cases hexit : b1 ≥ c1
    · rw [hstep, if_pos hexit]
      have heq : b1 = c1 := by omega
      refine ⟨heq, hb1_1, hb1_2, RangeOp.refl arr b e, hLext, ?_⟩
      intro i hi1 hi2
      have hi1' : b1 ≤ i := hi1
      exact hRext i (by omega) hi2
    · rw [hstep, if_neg hexit]
      push_neg at hexit
      have hkb1 : key (aget arr pivot) < key (aget arr b1) := hb1_exit (by omega)
      have hkc1 : ¬ key (aget arr pivot) < key (aget arr (c1 - 1)) := hc1_exit (by omega)
      have hne : b1 ≠ c1 - 1 := by
        intro h
        rw [h] at hkb1
        exact hkc1 hkb1
      have hblt : b1 < c1 - 1 := by omega
      have hswb : aget (aswap arr b1 (c1 - 1)) b1 = aget arr (c1 - 1) :=
        aget_aswap_fst arr b1 (c1 - 1) (by omega) (by omega)
      have hswc : aget (aswap arr b1 (c1 - 1)) (c1 - 1) = aget arr b1 :=
        aget_aswap_snd arr b1 (c1 - 1) (by omega) (by omega)
      have hswo : ∀ k, k ≠ b1 → k ≠ c1 - 1 →
          aget (aswap arr b1 (c1 - 1)) k = aget arr k :=
        fun k h1 h2 => aget_aswap_other arr b1 (c1 - 1) k h1 h2
      have hswp : aget (aswap arr b1 (c1 - 1)) pivot = aget arr pivot :=
        hswo pivot (by omega) (by omega)
      obtain ⟨g1, g2, g3, g4, g5, g6⟩ := ih (aswap arr b1 (c1 - 1)) (b1 + 1) (c1 - 1)
        (by rw [size_aswap]; exact hsize)
        (by omega) (by omega) (by omega) (by omega)
        (by
          intro i h1 h2
          rw [hswp]
          rcases Nat.lt_or_ge i b1 with h | h
          · rw [hswo i (by omega) (by omega)]
            exact hLext i h1 h
          · rw [show i = b1 from by omega, hswb]
            exact hkc1)
        (by
          intro i h1 h2
          rw [hswp]
          rcases Nat.eq_or_lt_of_le h1 with h | h
          · rw [← h, hswc]
            exact hkb1
          · rw [hswo i (by omega) (by omega)]
            exact hRext i (by omega) h2)
      refine ⟨g1, by omega, by omega, ?_, g5, g6⟩
      exact (RangeOp.ofSwap (show b ≤ b1 by omega) (show b1 < e by omega)
        (show b ≤ c1 - 1 by omega) (show c1 - 1 < e by omega)).trans
        (g4.mono (by omega) (by omega))

/-- The duplicate-protection loop of `doPivot` permutes only `[a, b)`,
keeps everything left of the final `b` at most the pivot, and makes
`[b, b₀)` (`b₀` the initial `b`) exactly equal to the pivot. -/
theorem protLoop_spec (key : α → K) (pivot : Nat) :
    ∀ (fuel : Nat) (arr : Array α) (a b : Nat),
      b ≤ arr.size →
      b ≤ a + fuel →
      pivot < a → a ≤ b →
      (∀ i, pivot < i → i < b → ¬ key (aget arr pivot) < key (aget arr i)) →
      a ≤ (protLoop key pivot fuel arr a b).2.2 ∧
      (protLoop key pivot fuel arr a b).2.2 ≤ b ∧
      RangeOp arr (protLoop key pivot fuel arr a b).1 a b ∧
      (∀ i, pivot < i → i < (protLoop key pivot fuel arr a b).2.2 →
        ¬ key (aget (protLoop key pivot fuel arr a b).1 pivot)
            < key (aget (protLoop key pivot fuel arr a b).1 i)) ∧
      (∀ i, (protLoop key pivot fuel arr a b).2.2 ≤ i → i < b →
        key (aget (protLoop key pivot fuel arr a b).1 i)
          = key (aget (protLoop key pivot fuel arr a b).1 pivot)) := by
  intro fuel
  induction fuel with
  | zero =>
    intro arr a b hsize hfuel hpa hab hK
    have habeq : a = b := by omega
    have hs : protLoop key pivot 0 arr a b = (arr, a, b) := rfl
    rw [hs]
    refine ⟨hab, le_refl _, RangeOp.refl arr a b, hK, ?_⟩
    intro i hi1 hi2
    have hi1' : b ≤ i := hi1
    exact absurd hi2 (by omega)
  | succ fuel ih =>
    intro arr a b hsize hfuel hpa hab hK
    obtain ⟨hb1_1, hb1_2, hb1_reg, hb1_exit⟩ :=
      scanBDown_spec key arr pivot a b b hab (by omega)
    set b1 := scanBDown key arr pivot a b b with hb1def
    obtain ⟨ha1_1, ha1_2, ha1_exit⟩ := scanAUp_spec key arr pivot b1 b a hb1_1 (by omega)
    set a1 := scanAUp key arr pivot b1 b a with ha1def
    have hstep : protLoop key pivot (fuel + 1) arr a b
        = if a1 ≥ b1 then (arr, a1, b1)
          else protLoop key pivot fuel (aswap arr a1 (b1 - 1)) (a1 + 1) (b1 - 1) := by
      rw [ha1def, hb1def]
      rfl
    by_cases hexit : a1 ≥ b1
    · rw [hstep, if_pos hexit]
      refine ⟨hb1_1, hb1_2, RangeOp.refl arr a b, ?_, ?_⟩
      · intro i hi1 hi2
        have hi2' : i < b1 := hi2
        exact hK i hi1 (by omega)
      · intro i hi1 hi2
        have hi1' : b1 ≤ i := hi1
        exact le_antisymm (not_lt.mp (hK i (by omega) hi2))
          (not_lt.mp (hb1_reg i hi1' hi2))
    · rw [hstep, if_neg hexit]
      push_neg at hexit
      have hka1 : ¬ key (aget arr a1) < key (aget arr pivot) := ha1_exit (by omega)
      have hkb1 : key (aget arr (b1 - 1)) < key (aget arr pivot) := hb1_exit (by omega)
      have hne : a1 ≠ b1 - 1 := by
        intro h
        rw [h] at hka1
        exact hka1 hkb1
      have halt : a1 < b1 - 1 := by omega
      have hswa : aget (aswap arr a1 (b1 - 1)) a1 = aget arr (b1 - 1) :=
        aget_aswap_fst arr a1 (b1 - 1) (by omega) (by omega)
      have hswb : aget (aswap arr a1 (b1 - 1)) (b1 - 1) = aget arr a1 :=
        aget_aswap_snd arr a1 (b1 - 1) (by omega) (by omega)
      have hswo : ∀ k, k ≠ a1 → k ≠ b1 - 1 →
          aget (aswap arr a1 (b1 - 1)) k = aget arr k :=
        fun k h1 h2 => aget_aswap_other arr a1 (b1 - 1) k h1 h2
      have hswp : aget (aswap arr a1 (b1 - 1)) pivot = aget arr pivot :=
        hswo pivot (by omega) (by omega)
      obtain ⟨g1, g2, g3, g4, g5⟩ := ih (aswap arr a1 (b1 - 1)) (a1 + 1) (b1 - 1)
        (by rw [size_aswap]; omega)
        (by omega) (by omega) (by omega)
        (by
          intro i h1 h2
          rw [hswp]
          by_cases hia : i = a1
          · rw [hia, hswa]
            exact lt_asymm hkb1
          · rw [hswo i hia (by omega)]
            exact hK i h1 (by omega))
      have houtp : aget (protLoop key pivot fuel (aswap arr a1 (b1 - 1)) (a1 + 1) (b1 - 1)).1
          pivot = aget arr pivot := by
        rw [g3.2.2 pivot (Or.inl (by omega)), hswp]
      refine ⟨by omega, by omega, ?_, g4, ?_⟩
      · exact (RangeOp.ofSwap (show a ≤ a1 by omega) (show a1 < b by omega)
          (show a ≤ b1 - 1 by omega) (show b1 - 1 < b by omega)).trans
          (g3.mono (by omega) (by omega))
      · intro i hi1 hi2
        rcases Nat.lt_or_ge i (b1 - 1) with h | h
        · exact g5 i hi1 h
        · have huntouched : aget (protLoop key pivot fuel (aswap arr a1 (b1 - 1)) (a1 + 1)
              (b1 - 1)).1 i = aget (aswap arr a1 (b1 - 1)) i :=
            g3.2.2 i (Or.inr h)
          rw [huntouched, houtp]
          rcases Nat.eq_or_lt_of_le h with heq | hlt
          · rw [← heq, hswb]
            exact le_antisymm (not_lt.mp (hK a1 (by omega) (by omega))) (not_lt.mp hka1)
          · rw [hswo i (by omega) (by omega)]
            exact le_antisymm (not_lt.mp (hK i (by omega) hi2)) (not_lt.mp (hb1_reg i (by omega) hi2))

/-- The pivot-selection stage permutes only `[lo, hi)` and leaves the
median of the probed elements at `lo`: `data[m] <= data[lo] <= data[hi-1]`. -/
theorem pivotInit_spec (key : α → K) (arr0 : Array α) (lo hi : Nat)
    (h13 : lo + 13 ≤ hi) (hsize : hi ≤ arr0.size) :
    RangeOp arr0 (pivotInit key arr0 lo hi) lo hi ∧
    key (aget (pivotInit key arr0 lo hi) ((lo + hi) / 2))
      ≤ key (aget (pivotInit key arr0 lo hi) lo) ∧
    key (aget (pivotInit key arr0 lo hi) lo)
      ≤ key (aget (pivotInit key arr0 lo hi) (hi - 1)) := by
  have hnin : RangeOp arr0
      (if hi - lo > 40 then
        medianOfThree key
          (medianOfThree key
            (medianOfThree key arr0 lo (lo + (hi - lo) / 8) (lo + 2 * ((hi - lo) / 8)))
            ((lo + hi) / 2) ((lo + hi) / 2 - (hi - lo) / 8) ((lo + hi) / 2 + (hi - lo) / 8))
          (hi - 1) (hi - 1 - (hi - lo) / 8) (hi - 1 - 2 * ((hi - lo) / 8))
      else arr0) lo hi := by
    split
    · rename_i h40
      refine ((medianOfThree_rangeOp key arr0 lo (lo + (hi - lo) / 8)
          (lo + 2 * ((hi - lo) / 8)) lo hi ⟨le_refl _, by omega⟩ ⟨by omega, by omega⟩
          ⟨by omega, by omega⟩).trans
        ((medianOfThree_rangeOp key _ ((lo + hi) / 2) ((lo + hi) / 2 - (hi - lo) / 8)
          ((lo + hi) / 2 + (hi - lo) / 8) lo hi ⟨by omega, by omega⟩ ⟨by omega, by omega⟩
          ⟨by omega, by omega⟩).trans
        (medianOfThree_rangeOp key _ (hi - 1) (hi - 1 - (hi - lo) / 8)
          (hi - 1 - 2 * ((hi - lo) / 8)) lo hi ⟨by omega, by omega⟩ ⟨by omega, by omega⟩
          ⟨by omega, by omega⟩)))
    · exact RangeOp.refl arr0 lo hi
  have hninsize : (if hi - lo > 40 then
      medianOfThree key
        (medianOfThree key
          (medianOfThree key arr0 lo (lo + (hi - lo) / 8) (lo + 2 * ((hi - lo) / 8)))
          ((lo + hi) / 2) ((lo + hi) / 2 - (hi - lo) / 8) ((lo + hi) / 2 + (hi - lo) / 8))
        (hi - 1) (hi - 1 - (hi - lo) / 8) (hi - 1 - 2 * ((hi - lo) / 8))
    else arr0).size = arr0.size := hnin.1
  unfold pivotInit
  refine ⟨hnin.trans (medianOfThree_rangeOp key _ lo ((lo + hi) / 2) (hi - 1) lo hi
    ⟨le_refl _, by omega⟩ ⟨by omega, by omega⟩ ⟨by omega, by omega⟩), ?_, ?_⟩
  · exact (medianOfThree_order key _ lo ((lo + hi) / 2) (hi - 1) (by omega) (by omega)
      (by omega) (by rw [hninsize]; omega) (by rw [hninsize]; omega)
      (by rw [hninsize]; omega)).1
  · exact (medianOfThree_order key _ lo ((lo + hi) / 2) (hi - 1) (by omega) (by omega)
      (by omega) (by rw [hninsize]; omega) (by rw [hninsize]; omega)
      (by rw [hninsize]; omega)).2

/-- The duplicate-probing stage of `doPivot`: it permutes only `[lo, hi)`,
keeps the pivot element at `lo`, moves `b` down / `c` up only across
elements equal to the pivot, and preserves the three-way partition
`[lo+1, b) ≤ pivot`, `[b, c) = pivot`, `[c, hi) ≥ pivot`. -/
theorem dupSection_spec (key : α → K) (lo hi m a0 b1 c1 : Nat) (arr3 : Array α)
    (h13 : lo + 13 ≤ hi)
    (hsize : hi ≤ arr3.size)
    (hm : m = (lo + hi) / 2)
    (hbc : b1 = c1)
    (ha0 : lo < a0) (ha0b : a0 ≤ b1) (hc1hi : c1 ≤ hi - 1)
    (hAreg : ∀ i, lo < i → i < a0 → key (aget arr3 i) < key (aget arr3 lo))
    (hL : ∀ i, lo < i → i < b1 → ¬ key (aget arr3 lo) < key (aget arr3 i))
    (hR : ∀ i, c1 ≤ i → i < hi - 1 → key (aget arr3 lo) < key (aget arr3 i))
    (hH : ¬ key (aget arr3 (hi - 1)) < key (aget arr3 lo)) :
    RangeOp arr3 (dupSection key lo hi m b1 c1 arr3).1 lo hi ∧
    a0 ≤ (dupSection key lo hi m b1 c1 arr3).2.1 ∧
    (dupSection key lo hi m b1 c1 arr3).2.1 ≤ (dupSection key lo hi m b1 c1 arr3).2.2.1 ∧
    (dupSection key lo hi m b1 c1 arr3).2.2.1 ≤ hi ∧
    aget (dupSection key lo hi m b1 c1 arr3).1 lo = aget arr3 lo ∧
    (∀ i, lo < i → i < (dupSection key lo hi m b1 c1 arr3).2.1 →
      ¬ key (aget arr3 lo) < key (aget (dupSection key lo hi m b1 c1 arr3).1 i)) ∧
    (∀ i, (dupSection key lo hi m b1 c1 arr3).2.1 ≤ i →
        i < (dupSection key lo hi m b1 c1 arr3).2.2.1 →
      key (aget (dupSection key lo hi m b1 c1 arr3).1 i) = key (aget arr3 lo)) ∧
    (∀ i, (dupSection key lo hi m b1 c1 arr3).2.2.1 ≤ i → i < hi →
      ¬ key (aget (dupSection key lo hi m b1 c1 arr3).1 i) < key (aget arr3 lo)) := by
  unfold dupSection
  by_cases hcond : ¬ hi - c1 < 5 ∧ hi - c1 < (hi - lo) / 4
  case neg =>
    rw [if_neg hcond]
    refine ⟨RangeOp.refl _ _ _, ha0b, le_of_eq hbc, show c1 ≤ hi by omega, rfl, ?_, ?_, ?_⟩
    · intro i h1 h2
      have h2' : i < b1 := h2
      exact hL i h1 h2'
    · intro i h1 h2
      have h1' : b1 ≤ i := h1
      have h2' : i < c1 := h2
      exact absurd h2' (by omega)
    · intro i h1 h2
      have h1' : c1 ≤ i := h1
      rcases Nat.lt_or_ge i (hi - 1) with h | h
      · exact lt_asymm (hR i h1' h)
      · rw [show i = hi - 1 from by omega]
        exact hH
  case pos =>
    rw [if_pos hcond]
    have h5 : 5 ≤ hi - c1 := not_lt.mp hcond.1
    have hq := hcond.2
    have hn24 : lo + 24 ≤ hi := by omega
    have hc1big : lo + 18 ≤ c1 := by omega
    have hmb : lo + 12 ≤ m := by omega
    have hmc1 : m + 3 ≤ c1 := by omega
    have hmhi : m + 1 < hi - 1 := by omega
    set pA := dupA key lo hi c1 arr3 with hpAdef
    have hApack :
        RangeOp arr3 pA.1 lo hi ∧
        aget pA.1 lo = aget arr3 lo ∧
        c1 ≤ pA.2.1 ∧ pA.2.1 ≤ c1 + 1 ∧
        (∀ i, i < b1 → aget pA.1 i = aget arr3 i) ∧
        (∀ i, c1 ≤ i → i < pA.2.1 → key (aget pA.1 i) = key (aget arr3 lo)) ∧
        (∀ i, pA.2.1 ≤ i → i < hi → ¬ key (aget pA.1 i) < key (aget arr3 lo)) ∧
        aget pA.1 m = aget arr3 m := by
      rw [hpAdef]
      unfold dupA
      split
      · rename_i hA
        have hsw1 : aget (aswap arr3 c1 (hi - 1)) c1 = aget arr3 (hi - 1) :=
          aget_aswap_fst arr3 c1 (hi - 1) (by omega) (by omega)
        have hsw2 : aget (aswap arr3 c1 (hi - 1)) (hi - 1) = aget arr3 c1 :=
          aget_aswap_snd arr3 c1 (hi - 1) (by omega) (by omega)
        have hswo : ∀ k, k ≠ c1 → k ≠ hi - 1 →
            aget (aswap arr3 c1 (hi - 1)) k = aget arr3 k :=
          fun k h1 h2 => aget_aswap_other arr3 c1 (hi - 1) k h1 h2
        refine ⟨RangeOp.ofSwap (by omega) (by omega) (by omega) (by omega),
          hswo lo (by omega) (by omega), show c1 ≤ c1 + 1 by omega, le_refl _,
          ?_, ?_, ?_, hswo m (by omega) (by omega)⟩
        · intro i h2
          exact hswo i (by omega) (by omega)
        · intro i h1 h2
          have h1' : c1 ≤ i := h1
          have h2' : i < c1 + 1 := h2
          rw [show i = c1 from by omega, hsw1]
          exact le_antisymm (not_lt.mp hA) (not_lt.mp hH)
        · intro i h1 h2
          have h1' : c1 + 1 ≤ i := h1
          rcases Nat.lt_or_ge i (hi - 1) with h | h
          · rw [hswo i (by omega) (by omega)]
            exact lt_asymm (hR i (by omega) h)
          · rw [show i = hi - 1 from by omega, hsw2]
            exact lt_asymm (hR c1 (le_refl _) (by omega))
      · refine ⟨RangeOp.refl _ _ _, rfl, le_refl _, show c1 ≤ c1 + 1 by omega,
          fun i _ => rfl, ?_, ?_, rfl⟩
        · intro i h1 h2
          have h1' : c1 ≤ i := h1
          have h2' : i < c1 := h2
          exact absurd h2' (by omega)
        · intro i h1 h2
          have h1' : c1 ≤ i := h1
          rcases Nat.lt_or_ge i (hi - 1) with h | h
          · exact lt_asymm (hR i h1' h)
          · rw [show i = hi - 1 from by omega]
            exact hH
    obtain ⟨hAop, hAlo, hAc1, hAc2, hAunt, hAD, hAE, hAm⟩ := hApack
    have hAsize : pA.1.size = arr3.size := hAop.1
    set pB := dupB key lo b1 pA with hpBdef
    have hBpack :
        pB.1 = pA.1 ∧
        b1 - 1 ≤ pB.2.1 ∧ pB.2.1 ≤ b1 ∧ a0 ≤ pB.2.1 ∧
        pB.2.2.1 = pA.2.1 ∧
        (∀ i, pB.2.1 ≤ i → i < b1 → key (aget pA.1 i) = key (aget arr3 lo)) := by
      rw [hpBdef]
      unfold dupB
      split
      · rename_i hB
        rw [hAlo] at hB
        have hb1a0 : a0 ≤ b1 - 1 := by
          by_contra hcon
          have hreg : key (aget arr3 (b1 - 1)) < key (aget arr3 lo) :=
            hAreg (b1 - 1) (by omega) (by omega)
          rw [← hAunt (b1 - 1) (by omega)] at hreg
          exact hB hreg
        refine ⟨rfl, le_refl _, show b1 - 1 ≤ b1 by omega, hb1a0, rfl, ?_⟩
        intro i h1 h2
        have h1' : b1 - 1 ≤ i := h1
        rw [show i = b1 - 1 from by omega]
        have hle : ¬ key (aget arr3 lo) < key (aget arr3 (b1 - 1)) :=
          hL (b1 - 1) (by omega) (by omega)
        rw [hAunt (b1 - 1) (by omega)] at hB ⊢
        exact le_antisymm (not_lt.mp hle) (not_lt.mp hB)
      · refine ⟨rfl, show b1 - 1 ≤ b1 by omega, le_refl _, ha0b, rfl, ?_⟩
        intro i h1 h2
        have h1' : b1 ≤ i := h1
        exact absurd h2 (by omega)
    obtain ⟨hB1, hBlb, hBub, hBa0, hBc, hBD⟩ := hBpack
    have hCstep : dupC key lo m pB
        = if ¬ key (aget pB.1 m) < key (aget pB.1 lo) then
            (aswap pB.1 m (pB.2.1 - 1), pB.2.1 - 1, pB.2.2.1, decide (pB.2.2.2 + 1 > 1))
          else (pB.1, pB.2.1, pB.2.2.1, decide (pB.2.2.2 > 1)) := rfl
    by_cases hC : ¬ key (aget pB.1 m) < key (aget pB.1 lo)
    · rw [hCstep, if_pos hC, hB1]
      rw [hB1, hAlo, hAm] at hC
      have hmlt : m + 1 < pB.2.1 := by omega
      have ha0C : a0 ≤ pB.2.1 - 1 := by
        by_contra hcon
        exact hC (hAreg m (by omega) (by omega))
      have hCm : aget (aswap pA.1 m (pB.2.1 - 1)) m = aget pA.1 (pB.2.1 - 1) :=
        aget_aswap_fst pA.1 m (pB.2.1 - 1) (by omega) (by omega)
      have hCb : aget (aswap pA.1 m (pB.2.1 - 1)) (pB.2.1 - 1) = aget pA.1 m :=
        aget_aswap_snd pA.1 m (pB.2.1 - 1) (by omega) (by omega)
      have hCo : ∀ k, k ≠ m → k ≠ pB.2.1 - 1 →
          aget (aswap pA.1 m (pB.2.1 - 1)) k = aget pA.1 k :=
        fun k h1 h2 => aget_aswap_other pA.1 m (pB.2.1 - 1) k h1 h2
      refine ⟨hAop.trans (RangeOp.ofSwap (by omega) (by omega) (by omega) (by omega)),
        ha0C, show pB.2.1 - 1 ≤ pB.2.2.1 from by rw [hBc]; omega,
        show pB.2.2.1 ≤ hi from by rw [hBc]; omega, ?_, ?_, ?_, ?_⟩
      · show aget (aswap pA.1 m (pB.2.1 - 1)) lo = aget arr3 lo
        rw [hCo lo (by omega) (by omega), hAlo]
      · intro i h1 h2
        have h2' : i < pB.2.1 - 1 := h2
        show ¬ key (aget arr3 lo) < key (aget (aswap pA.1 m (pB.2.1 - 1)) i)
        by_cases him : i = m
        · rw [him, hCm, hAunt (pB.2.1 - 1) (by omega)]
          exact hL (pB.2.1 - 1) (by omega) (by omega)
        · rw [hCo i him (by omega), hAunt i (by omega)]
          exact hL i h1 (by omega)
      · intro i h1 h2
        have h1' : pB.2.1 - 1 ≤ i := h1
        have h2' : i < pB.2.2.1 := h2
        rw [hBc] at h2'
        show key (aget (aswap pA.1 m (pB.2.1 - 1)) i) = key (aget arr3 lo)
        rcases Nat.eq_or_lt_of_le h1' with heq | hgt
        · rw [← heq, hCb, hAm]
          exact le_antisymm (not_lt.mp (hL m (by omega) (by omega))) (not_lt.mp hC)
        · rcases Nat.lt_or_ge i b1 with hib | hib
          · rw [hCo i (by omega) (by omega)]
            exact hBD i (by omega) hib
          · rw [hCo i (by omega) (by omega)]
            exact hAD i (by omega) h2'
      · intro i h1 h2
        have h1' : pB.2.2.1 ≤ i := h1
        rw [hBc] at h1'
        show ¬ key (aget (aswap pA.1 m (pB.2.1 - 1)) i) < key (aget arr3 lo)
        rw [hCo i (by omega) (by omega)]
        exact hAE i h1' h2
    · rw [hCstep, if_neg hC, hB1, hBc]
      refine ⟨hAop, hBa0, show pB.2.1 ≤ pA.2.1 by omega,
        show pA.2.1 ≤ hi by omega, hAlo, ?_, ?_, ?_⟩
      · intro i h1 h2
        have h2' : i < pB.2.1 := h2
        rw [hAunt i (by omega)]
        exact hL i h1 (by omega)
      · intro i h1 h2
        have h1' : pB.2.1 ≤ i := h1
        have h2' : i < pA.2.1 := h2
        rcases Nat.lt_or_ge i b1 with hib | hib
        · exact hBD i h1' hib
        · exact hAD i (by omega) h2'
      · intro i h1 h2
        have h1' : pA.2.1 ≤ i := h1
        exact hAE i h1' h2

/-- The protect stage permutes only `[a0, b)`, keeps `[lo+1, b')` at most
the pivot and makes `[b', b)` exactly equal to the pivot. -/
theorem protSection_spec (key : α → K) (lo hi a0 : Nat) (s4 : Array α × Nat × Nat × Bool)
    (hpa : lo < a0) (hab : a0 ≤ s4.2.1) (hbsize : s4.2.1 ≤ s4.1.size) (hbhi : s4.2.1 ≤ hi)
    (hL : ∀ i, lo < i → i < s4.2.1 →
      ¬ key (aget s4.1 lo) < key (aget s4.1 i)) :
    a0 ≤ (protSection key lo hi a0 s4).2 ∧
    (protSection key lo hi a0 s4).2 ≤ s4.2.1 ∧
    RangeOp s4.1 (protSection key lo hi a0 s4).1 a0 s4.2.1 ∧
    (∀ i, lo < i → i < (protSection key lo hi a0 s4).2 →
      ¬ key (aget (protSection key lo hi a0 s4).1 lo)
          < key (aget (protSection key lo hi a0 s4).1 i)) ∧
    (∀ i, (protSection key lo hi a0 s4).2 ≤ i → i < s4.2.1 →
      key (aget (protSection key lo hi a0 s4).1 i)
        = key (aget (protSection key lo hi a0 s4).1 lo)) := by
  unfold protSection
  split
  · obtain ⟨g1, g2, g3, g4, g5⟩ :=
      protLoop_spec key lo hi s4.1 a0 s4.2.1 hbsize (by omega) hpa hab hL
    exact ⟨g1, g2, g3, g4, g5⟩
  · refine ⟨hab, le_refl _, RangeOp.refl _ _ _, hL, ?_⟩
    intro i hi1 hi2
    have hi1' : s4.2.1 ≤ i := hi1
    exact absurd hi2 (by omega)

/-- `doPivot` permutes only `[lo, hi)` and three-way partitions it: for
some pivot value, `[lo, midlo)` is at most it, `[midlo, midhi)` is equal
to it, and `[midhi, hi)` is at least it, with `lo ≤ midlo < midhi ≤ hi`. -/
theorem doPivot_spec (key : α → K) (arr0 : Array α) (lo hi : Nat)
    (h13 : lo + 13 ≤ hi) (hsize : hi ≤ arr0.size) :
    RangeOp arr0 (doPivot key arr0 lo hi).1 lo hi ∧
    lo ≤ (doPivot key arr0 lo hi).2.1 ∧
    (doPivot key arr0 lo hi).2.1 < (doPivot key arr0 lo hi).2.2 ∧
    (doPivot key arr0 lo hi).2.2 ≤ hi ∧
    ∃ pv : K,
      (∀ i, lo ≤ i → i < (doPivot key arr0 lo hi).2.1 →
        key (aget (doPivot key arr0 lo hi).1 i) ≤ pv) ∧
      (∀ i, (doPivot key arr0 lo hi).2.1 ≤ i → i < (doPivot key arr0 lo hi).2.2 →
        key (aget (doPivot key arr0 lo hi).1 i) = pv) ∧
      (∀ i, (doPivot key arr0 lo hi).2.2 ≤ i → i < hi →
        pv ≤ key (aget (doPivot key arr0 lo hi).1 i)) := by
  obtain ⟨hPIop, hPIm, hPIh⟩ := pivotInit_spec key arr0 lo hi h13 hsize
  set A2 := pivotInit key arr0 lo hi with hA2def
  have hA2size : A2.size = arr0.size := hPIop.1
  obtain ⟨ha01, ha02, ha0reg, ha0exit⟩ :=
    scanA_spec key A2 lo (hi - 1) hi (lo + 1) (by omega) (by omega)
  set a0 := scanA key A2 lo (hi - 1) hi (lo + 1) with ha0def
  obtain ⟨hpeq, hpb, hpc, hpop, hpL, hpR⟩ := partLoop_spec key lo (hi - 1) hi A2 a0 (hi - 1)
    (by omega) (by omega) (by omega) ha02 (le_refl _)
    (fun i h1 h2 => lt_asymm (ha0reg i (by omega) h2))
    (fun i h1 h2 => absurd h2 (by omega))
  set P := partLoop key lo hi A2 a0 (hi - 1) with hPdef
  have hPsize : P.1.size = arr0.size := by rw [hpop.1, hA2size]
  have hPlo : aget P.1 lo = aget A2 lo := hpop.2.2 lo (Or.inl (by omega))
  have hPh : aget P.1 (hi - 1) = aget A2 (hi - 1) := hpop.2.2 (hi - 1) (Or.inr (le_refl _))
  obtain ⟨hDop, hDa0, hDbc, hDchi, hDlo, hDL, hDD, hDE⟩ :=
    dupSection_spec key lo hi ((lo + hi) / 2) a0 P.2.1 P.2.2 P.1 h13 (by omega) rfl hpeq
      (by omega) hpb (by omega)
      (fun i h1 h2 => by
        rw [hpop.2.2 i (Or.inl h2), hPlo]
        exact ha0reg i (by omega) h2)
      hpL
      (fun i h1 h2 => hpR i (by omega) h2)
      (by
        rw [hPh, hPlo]
        exact not_lt.mpr hPIh)
  set S4 := dupSection key lo hi ((lo + hi) / 2) P.2.1 P.2.2 P.1 with hS4def
  have hS4size : S4.1.size = arr0.size := by rw [hDop.1, hPsize]
  obtain ⟨hSa0, hSub, hSop, hSL, hSD⟩ := protSection_spec key lo hi a0 S4
    (by omega) hDa0 (by omega) (by omega)
    (fun i h1 h2 => by
      rw [hDlo]
      exact hDL i h1 h2)
  set S5 := protSection key lo hi a0 S4 with hS5def
  have hS5size : S5.1.size = arr0.size := by rw [hSop.1, hS4size]
  have hS5lo : aget S5.1 lo = aget P.1 lo := by
    rw [hSop.2.2 lo (Or.inl (by omega)), hDlo]
  have hfinal : doPivot key arr0 lo hi = (aswap S5.1 lo (S5.2 - 1), S5.2 - 1, S4.2.2.1) := by
    rw [hS5def, hS4def, hPdef, ha0def, hA2def]
    rfl
  rw [hfinal]
  have hfswap1 : aget (aswap S5.1 lo (S5.2 - 1)) lo = aget S5.1 (S5.2 - 1) :=
    aget_aswap_fst S5.1 lo (S5.2 - 1) (by omega) (by omega)
  have hfswap2 : aget (aswap S5.1 lo (S5.2 - 1)) (S5.2 - 1) = aget S5.1 lo :=
    aget_aswap_snd S5.1 lo (S5.2 - 1) (by omega) (by omega)
  have hfo : ∀ k, k ≠ lo → k ≠ S5.2 - 1 →
      aget (aswap S5.1 lo (S5.2 - 1)) k = aget S5.1 k :=
    fun k hk1 hk2 => aget_aswap_other S5.1 lo (S5.2 - 1) k hk1 hk2
  refine ⟨?_, show lo ≤ S5.2 - 1 by omega, show S5.2 - 1 < S4.2.2.1 by omega,
    show S4.2.2.1 ≤ hi from hDchi, ?_⟩
  · show RangeOp arr0 (aswap S5.1 lo (S5.2 - 1)) lo hi
    exact (((hPIop.trans (hpop.mono (by omega) (by omega))).trans hDop).trans
      (hSop.mono (by omega) (by omega))).trans
      (RangeOp.ofSwap (le_refl _) (by omega) (by omega) (by omega))
  · refine ⟨key (aget P.1 lo), ?_, ?_, ?_⟩
    · intro i h1 h2
      have h2' : i < S5.2 - 1 := h2
      show key (aget (aswap S5.1 lo (S5.2 - 1)) i) ≤ key (aget P.1 lo)
      rcases Nat.eq_or_lt_of_le h1 with heq | hgt
      · rw [← heq, hfswap1, ← hS5lo]
        exact not_lt.mp (hSL (S5.2 - 1) (by omega) (by omega))
      · rw [hfo i (by omega) (by omega), ← hS5lo]
        exact not_lt.mp (hSL i hgt (by omega))
    · intro i h1 h2
      have h1' : S5.2 - 1 ≤ i := h1
      have h2' : i < S4.2.2.1 := h2
      show key (aget (aswap S5.1 lo (S5.2 - 1)) i) = key (aget P.1 lo)
      rcases Nat.eq_or_lt_of_le h1' with heq | hgt
      · rw [← heq, hfswap2, hS5lo]
      · rcases Nat.lt_or_ge i S4.2.1 with hiu | hiu
        · rw [hfo i (by omega) (by omega), ← hS5lo]
          exact hSD i (by omega) hiu
        · rw [hfo i (by omega) (by omega), hSop.2.2 i (Or.inr hiu)]
          exact hDD i hiu h2'
    · intro i h1 h2
      have h1' : S4.2.2.1 ≤ i := h1
      show key (aget P.1 lo) ≤ key (aget (aswap S5.1 lo (S5.2 - 1)) i)
      rw [hfo i (by omega) (by omega), hSop.2.2 i (Or.inr (by omega))]
      exact not_lt.mp (hDE i h1' h2)

/-- Glue a three-way partition of sorted pieces into one sorted range. -/
theorem sorted_glue (key : α → K) (arr : Array α) (a m1 m2 b : Nat) (pv : K)
    (hsl : sortedRange key arr a m1) (hsr : sortedRange key arr m2 b)
    (hle : ∀ i, a ≤ i → i < m1 → key (aget arr i) ≤ pv)
    (heq : ∀ i, m1 ≤ i → i < m2 → key (aget arr i) = pv)
    (hge : ∀ i, m2 ≤ i → i < b → pv ≤ key (aget arr i)) :
    sortedRange key arr a b := by
  intro i j hi hij hj
  rcases Nat.lt_or_ge i m1 with hi1 | hi1
  · rcases Nat.lt_or_ge j m1 with hj1 | hj1
    · exact hsl i j hi hij hj1
    · rcases Nat.lt_or_ge j m2 with hj2 | hj2
      · exact le_trans (hle i hi hi1) (le_of_eq (heq j hj1 hj2).symm)
      · exact le_trans (hle i hi hi1) (hge j hj2 hj)
  · rcases Nat.lt_or_ge i m2 with hi2 | hi2
    · rcases Nat.lt_or_ge j m2 with hj2 | hj2
      · exact le_of_eq ((heq i hi1 hi2).trans (heq j (by omega) hj2).symm)
      · exact le_trans (le_of_eq (heq i hi1 hi2)) (hge j hj2 hj)
    · exact hsr i j hi2 hij hj

/-- `quickSort(data, a, b, maxDepth)` sorts `[a, b)` and permutes only
`[a, b)`, whatever the depth budget. -/
theorem quickSort_spec (key : α → K) :
    ∀ (fuel : Nat) (arr : Array α) (a b : Nat),
      a ≤ b → b ≤ arr.size →
      sortedRange key (quickSort key arr a b fuel) a b ∧
        RangeOp arr (quickSort key arr a b fuel) a b := by
  intro fuel
  induction fuel with
  | zero =>
    intro arr a b hab hb
    have hs : quickSort key arr a b 0
        = if b - a > 12 then heapSort key arr a b else smallSort key arr a b := rfl
    rw [hs]
    split
    · exact heapSort_spec key arr a b hab hb
    · exact smallSort_spec key arr a b hb
  | succ d ih =>
    intro arr a b hab hb
    have hs : quickSort key arr a b (d + 1)
        = if b - a > 12 then
            (if (doPivot key arr a b).2.1 - a < b - (doPivot key arr a b).2.2 then
              quickSort key (quickSort key (doPivot key arr a b).1 a
                (doPivot key arr a b).2.1 d) (doPivot key arr a b).2.2 b d
            else
              quickSort key (quickSort key (doPivot key arr a b).1
                (doPivot key arr a b).2.2 b d) a (doPivot key arr a b).2.1 d)
          else smallSort key arr a b := rfl
    rw [hs]
    by_cases h12 : b - a > 12
    · rw [if_pos h12]
      obtain ⟨hop, hmlo, hmm, hmhi, pv, hC, hD, hE⟩ := doPivot_spec key arr a b (by omega) hb
      set R := doPivot key arr a b with hRdef
      have hRsize : R.1.size = arr.size := hop.1
      split
      · -- left segment sorted first
        obtain ⟨hin_s, hin_op⟩ := ih R.1 a R.2.1 (by omega) (by omega)
        set IN := quickSort key R.1 a R.2.1 d with hINdef
        have hINsize : IN.size = arr.size := by rw [hin_op.1, hRsize]
        obtain ⟨hout_s, hout_op⟩ := ih IN R.2.2 b (by omega) (by omega)
        set OUT := quickSort key IN R.2.2 b d with hOUTdef
        have hOUTsize : OUT.size = arr.size := by rw [hout_op.1, hINsize]
        have hOUT_le : ∀ i, a ≤ i → i < R.2.1 → key (aget OUT i) ≤ pv := by
          intro i h1 h2
          rw [hout_op.2.2 i (Or.inl (by omega))]
          exact hin_op.boundTransfer (fun x => key x ≤ pv)
            (fun j hj1 hj2 _ => hC j hj1 hj2) i h1 h2 (by omega)
        have hOUT_eq : ∀ i, R.2.1 ≤ i → i < R.2.2 → key (aget OUT i) = pv := by
          intro i h1 h2
          rw [hout_op.2.2 i (Or.inl (by omega)), hin_op.2.2 i (Or.inr h1)]
          exact hD i h1 h2
        have hOUT_ge : ∀ i, R.2.2 ≤ i → i < b → pv ≤ key (aget OUT i) := by
          intro i h1 h2
          refine hout_op.boundTransfer (fun x => pv ≤ key x) ?_ i h1 h2 (by omega)
          intro j hj1 hj2 _
          rw [hin_op.2.2 j (Or.inr (by omega))]
          exact hE j hj1 hj2
        have hsort_left : sortedRange key OUT a R.2.1 := by
          intro i j h1 h2 h3
          rw [hout_op.2.2 i (Or.inl (by omega)), hout_op.2.2 j (Or.inl (by omega))]
          exact hin_s i j h1 h2 h3
        refine ⟨sorted_glue key OUT a R.2.1 R.2.2 b pv hsort_left hout_s
          hOUT_le hOUT_eq hOUT_ge, ?_⟩
        exact (hop.trans (hin_op.mono (le_refl _) (by omega))).trans
          (hout_op.mono (by omega) (le_refl _))
      · -- right segment sorted first
        obtain ⟨hin_s, hin_op⟩ := ih R.1 R.2.2 b (by omega) (by omega)
        set IN := quickSort key R.1 R.2.2 b d with hINdef
        have hINsize : IN.size = arr.size := by rw [hin_op.1, hRsize]
        obtain ⟨hout_s, hout_op⟩ := ih IN a R.2.1 (by omega) (by omega)
        set OUT := quickSort key IN a R.2.1 d with hOUTdef
        have hOUTsize : OUT.size = arr.size := by rw [hout_op.1, hINsize]
        have hOUT_le : ∀ i, a ≤ i → i < R.2.1 → key (aget OUT i) ≤ pv := by
          intro i h1 h2
          refine hout_op.boundTransfer (fun x => key x ≤ pv) ?_ i h1 h2 (by omega)
          intro j hj1 hj2 _
          rw [hin_op.2.2 j (Or.inl (by omega))]
          exact hC j hj1 hj2
        have hOUT_eq : ∀ i, R.2.1 ≤ i → i < R.2.2 → key (aget OUT i) = pv := by
          intro i h1 h2
          rw [hout_op.2.2 i (Or.inr h1), hin_op.2.2 i (Or.inl h2)]
          exact hD i h1 h2
        have hOUT_ge : ∀ i, R.2.2 ≤ i → i < b → pv ≤ key (aget OUT i) := by
          intro i h1 h2
          rw [hout_op.2.2 i (Or.inr (by omega))]
          exact hin_op.boundTransfer (fun x => pv ≤ key x)
            (fun j hj1 hj2 _ => hE j hj1 hj2) i h1 h2 (by omega)
        have hsort_right : sortedRange key OUT R.2.2 b := by
          intro i j h1 h2 h3
          rw [hout_op.2.2 i (Or.inr (by omega)), hout_op.2.2 j (Or.inr (by omega))]
          exact hin_s i j h1 h2 h3
        refine ⟨sorted_glue key OUT a R.2.1 R.2.2 b pv hout_s hsort_right
          hOUT_le hOUT_eq hOUT_ge, ?_⟩
        exact (hop.trans (hin_op.mono (by omega) (le_refl _))).trans
          (hout_op.mono (le_refl _) (by omega))
    · rw [if_neg h12]
      exact smallSort_spec key arr a b hb

/-- `sort.Slice` sorts the whole array: the result is a permutation of
the input whose keys are in non-decreasing index order. -/
theorem sortSlice_spec (key : α → K) (arr : Array α) :
    sortedRange key (sortSlice key arr) 0 arr.size ∧
      (sortSlice key arr).toList.Perm arr.toList := by
  obtain ⟨hs, hop⟩ := quickSort_spec key (maxDepth arr.size) arr 0 arr.size
    (Nat.zero_le _) (le_refl _)
  exact ⟨hs, hop.2.1⟩

end GoSort

/-- The renderer's sort of a drained batch (main.go line 232), as a
list transformation. -/
def sortEventsSlice (l : List Event) : List Event :=
  (sortSlice createdAtKey l.toArray).toList

end GitlabEvents
